import Mathlib

/-!
Verification of the DEFLATE codec core of the gzip-rust repository.

The definitions below are shallow embeddings of the functions in
`src/inflate.rs` and `src/trees.rs`.  Machine integers are modelled as
`Nat` (with explicit `% 2^w` where the Rust code's fixed-width arithmetic
can wrap), fallible or partial code paths return `Option`, and mutable
state is passed explicitly.
-/

namespace GzipRust

/-- `WSIZE = 0x8000`, the sliding-window size (`src/lib`, used throughout). -/
def WSIZE : Nat := 0x8000

/-- `BMAX = 16`, maximum bit length of any code (`src/inflate.rs`). -/
def BMAX : Nat := 16

/-- `MAX_BITS = 15` (`src/trees.rs`). -/
def MAX_BITS : Nat := 15

/-- `MAX_BL_BITS = 7` (`src/trees.rs`). -/
def MAX_BL_BITS : Nat := 7

/-! ## `bi_reverse` (`src/trees.rs`, lines 397-405)

```rust
fn bi_reverse(code: u16, len: usize) -> u16 {
    let mut code = code;
    let mut res = 0u16;
    for _ in 0..len {
        res = (res << 1) | (code & 1);
        code >>= 1;
    }
    res
}
```

The `u16` shift discards bits above bit 15, hence the `% 65536`. -/

/-- One pass of the `bi_reverse` loop body, iterated `len` times.
`res` and `code` are the two mutable locals. -/
def biReverseAux : Nat → Nat → Nat → Nat
  | 0, _, res => res
  | n + 1, code, res =>
      biReverseAux n (code >>> 1) ((((res <<< 1) ||| (code &&& 1))) % 65536)

/-- `bi_reverse(code, len)` from `src/trees.rs`. -/
def bi_reverse (code : Nat) (len : Nat) : Nat :=
  biReverseAux len code 0

/-- Mathematical bit reversal of the low `n` bits of `c`:
bit `i` of `c` (for `i < n`) becomes bit `n-1-i` of the result. -/
def natRev : Nat → Nat → Nat
  | 0, _ => 0
  | n + 1, c => natRev n (c / 2) + (c % 2) * 2 ^ n

theorem natRev_lt (n c : Nat) : natRev n c < 2 ^ n := by
  induction n generalizing c with
  | zero => simp [natRev]
  | succ n ih =>
    have h1 := ih (c / 2)
    have h2 : c % 2 ≤ 1 := Nat.le_of_lt_succ (Nat.mod_lt _ (by norm_num))
    have h3 : (c % 2) * 2 ^ n ≤ 2 ^ n := by
      calc (c % 2) * 2 ^ n ≤ 1 * 2 ^ n := Nat.mul_le_mul_right _ h2
      _ = 2 ^ n := by ring
    calc natRev (n + 1) c = natRev n (c / 2) + (c % 2) * 2 ^ n := rfl
    _ < 2 ^ n + (2 ^ n) := by omega
    _ = 2 ^ (n + 1) := by ring

/-- Alternative decomposition of `natRev`: take off the top bit instead of
the bottom bit. -/
theorem natRev_succ_top (n c : Nat) (hc : c < 2 ^ (n + 1)) :
    natRev (n + 1) c = c / 2 ^ n + 2 * natRev n (c % 2 ^ n) := by
  induction n generalizing c with
  | zero => simp [natRev]; omega
  | succ n ih =>
    have hc2 : c / 2 < 2 ^ (n + 1) := by
      have : (2 : Nat) ^ (n + 2) = 2 ^ (n + 1) * 2 := by ring
      omega
    have e1 : natRev (n + 2) c = natRev (n + 1) (c / 2) + (c % 2) * 2 ^ (n + 1) := rfl
    rw [e1, ih (c / 2) hc2]
    have e2 : natRev (n + 1) (c % 2 ^ (n + 1)) =
        natRev n ((c % 2 ^ (n + 1)) / 2) + ((c % 2 ^ (n + 1)) % 2) * 2 ^ n := rfl
    rw [e2]
    have e3 : c / 2 / 2 ^ n = c / 2 ^ (n + 1) := by
      rw [Nat.div_div_eq_div_mul]
      congr 1
      ring
    have e4 : (c % 2 ^ (n + 1)) / 2 = c / 2 % 2 ^ n := by
      have : (2 : Nat) ^ (n + 1) = 2 * 2 ^ n := by ring
      rw [this, Nat.mod_mul_right_div_self]
    have e5 : (c % 2 ^ (n + 1)) % 2 = c % 2 := by
      have h2 : (2 : Nat) ∣ 2 ^ (n + 1) := dvd_pow_self 2 (Nat.succ_ne_zero n)
      exact Nat.mod_mod_of_dvd c h2
    rw [e3, e4, e5]
    ring

/-- `natRev` is an involution on `n`-bit values. -/
theorem natRev_natRev (n c : Nat) (hc : c < 2 ^ n) :
    natRev n (natRev n c) = c := by
  induction n generalizing c with
  | zero => simp [natRev]; omega
  | succ n ih =>
    have hrev : natRev n (c / 2) < 2 ^ n := natRev_lt n (c / 2)
    have hc2 : c / 2 < 2 ^ n := by
      have : (2 : Nat) ^ (n + 1) = 2 ^ n * 2 := by ring
      omega
    have hb : c % 2 ≤ 1 := Nat.le_of_lt_succ (Nat.mod_lt _ (by norm_num))
    have harg : natRev (n + 1) c < 2 ^ (n + 1) := natRev_lt (n + 1) c
    rw [natRev_succ_top n (natRev (n + 1) c) harg]
    have e1 : natRev (n + 1) c = natRev n (c / 2) + (c % 2) * 2 ^ n := rfl
    have e2 : natRev (n + 1) c / 2 ^ n = c % 2 := by
      rw [e1]
      rw [Nat.add_mul_div_right _ _ (Nat.pos_pow_of_pos n (by norm_num))]
      rw [Nat.div_eq_of_lt hrev]
      omega
    have e3 : natRev (n + 1) c % 2 ^ n = natRev n (c / 2) := by
      rw [e1, Nat.add_mul_mod_self_right, Nat.mod_eq_of_lt hrev]
    rw [e2, e3, ih (c / 2) hc2]
    omega

/-- The loop of `bi_reverse` computes `res * 2^n + natRev n code`, as long
as that value stays below `2^16` (so the `u16` truncation never fires). -/
theorem biReverseAux_eq (n : Nat) (code res : Nat)
    (h : res * 2 ^ n + natRev n code < 65536) :
    biReverseAux n code res = res * 2 ^ n + natRev n code := by
  induction n generalizing code res with
  | zero => simp [biReverseAux, natRev]
  | succ n ih =>
    have hrev : natRev (n + 1) code = natRev n (code / 2) + (code % 2) * 2 ^ n := rfl
    have hand : code &&& 1 = code % 2 := Nat.and_one_is_mod code
    have hshift : res <<< 1 = res * 2 := by
      rw [Nat.shiftLeft_eq]
    have hval : (res * 2) ||| (code % 2) = res * 2 + code % 2 := by
      have h1 : code % 2 < 2 ^ 1 := by omega
      have h2 := Nat.mul_add_lt_is_or h1 res
      have h3 : 2 ^ 1 * res = res * 2 := by ring
      rw [h3] at h2
      exact h2.symm
    have hpre : (res * 2 + code % 2) * 2 ^ n + natRev n (code / 2) < 65536 := by
      have hx : (res * 2 + code % 2) * 2 ^ n = res * 2 ^ (n + 1) + (code % 2) * 2 ^ n := by
        ring
      rw [hrev] at h
      omega
    have hsmall : res * 2 + code % 2 < 65536 := by
      have hone : (1 : Nat) ≤ 2 ^ n := Nat.one_le_two_pow
      have hge : (res * 2 + code % 2) * 1 ≤ (res * 2 + code % 2) * 2 ^ n :=
        Nat.mul_le_mul (le_refl _) hone
      omega
    have hmod : (((res <<< 1) ||| (code &&& 1))) % 65536 = res * 2 + code % 2 := by
      rw [hshift, hand, hval, Nat.mod_eq_of_lt hsmall]
    show biReverseAux n (code >>> 1) ((((res <<< 1) ||| (code &&& 1))) % 65536) = _
    rw [hmod]
    have hsh : code >>> 1 = code / 2 := Nat.shiftRight_one code
    rw [hsh]
    rw [ih (code / 2) (res * 2 + code % 2) hpre]
    rw [hrev]
    ring

/-- `bi_reverse code len = natRev len code` whenever `len ≤ 16` and
`code < 2^len`. -/
theorem bi_reverse_eq_natRev (code len : Nat) (hlen : len ≤ 16) (_hcode : code < 2 ^ len) :
    bi_reverse code len = natRev len code := by
  unfold bi_reverse
  rw [biReverseAux_eq]
  · ring
  · have h1 : natRev len code < 2 ^ len := natRev_lt len code
    have h2 : (2 : Nat) ^ len ≤ 2 ^ 16 := Nat.pow_le_pow_right (by norm_num) hlen
    simp only [Nat.zero_mul]
    omega

/-- **C10**: `bi_reverse` is an involution on `len`-bit values: for every
`len ≤ 16` and `code < 2^len`, `bi_reverse(code, len) < 2^len` and
`bi_reverse(bi_reverse(code, len), len) = code`. -/
theorem bi_reverse_involution (code len : Nat) (hlen : len ≤ 16) (hcode : code < 2 ^ len) :
    bi_reverse code len < 2 ^ len ∧ bi_reverse (bi_reverse code len) len = code := by
  have h1 : bi_reverse code len = natRev len code := bi_reverse_eq_natRev code len hlen hcode
  have h2 : natRev len code < 2 ^ len := natRev_lt len code
  constructor
  · rw [h1]; exact h2
  · rw [h1, bi_reverse_eq_natRev _ len hlen h2, natRev_natRev len code hcode]

/-- Witness for C10: evaluate the involution at `len = 5`, `code = 19`. -/
theorem bi_reverse_involution_witness :
    (5 : Nat) ≤ 16 ∧ (19 : Nat) < 2 ^ 5 ∧
      bi_reverse 19 5 < 2 ^ 5 ∧ bi_reverse (bi_reverse 19 5) 5 = 19 :=
  ⟨by decide, by decide, bi_reverse_involution 19 5 (by decide) (by decide)⟩

/-! ## The Kraft-inequality check of `huft_build` (`src/inflate.rs`, lines 338-402)

```rust
for &bit in b.iter().take(n) { c[bit as usize] += 1; }
if c[0] == n as u32 { ... return 0; }          // all lengths zero
k = /- minimum index >= 1 with c[k] != 0 -/;
g = /- maximum index with c[g] != 0 -/;
let mut y: u32 = 1 << k;
for j in k..g as i32 {
    match y.checked_sub(c[j as usize]) {
        Some(new_y) => { y = new_y; }
        None => { return 2; }
    }
    if y < 0 { return 2; }                     // dead: y is a u32
    y <<= 1;
}
y -= c[g as usize];                            // UNCHECKED u32 subtraction
if y < 0 { return 2; }                         // dead: y is a u32
c[g as usize] += y;
```

The loop over `j in k..g` excludes `g`; the subtraction at the maximum
length `g` is an unchecked `u32` subtraction whose guard `y < 0` can never
fire, so a violation first appearing at length `g` does not produce the
return value 2 (the program panics in a debug build, or wraps and
continues in a release build). -/

/-- Outcome of the Kraft-inequality portion of `huft_build`. -/
inductive KraftResult where
  /-- `c[0] == n`: every length is zero, early-return 0 path. -/
  | allZero : KraftResult
  /-- `checked_sub` failed inside the `for j in k..g` loop: `return 2`. -/
  | fail2 : KraftResult
  /-- `c[g] > y` at the final `y -= c[g]`: the unchecked `u32` subtraction
  underflows; the code does **not** return 2 here. -/
  | uncheckedUnderflow : KraftResult
  /-- Check passed with remaining `y`. -/
  | ok (y : Nat) : KraftResult
deriving DecidableEq, Repr

/-- The `for j in k..g` loop: `checked_sub` then double; `none` models the
`return 2` on underflow. -/
def kraftLoop (c : Nat → Nat) : List Nat → Nat → Option Nat
  | [], y => some y
  | j :: rest, y =>
      if c j > y then none
      else kraftLoop c rest ((y - c j) <<< 1)

/-- Count of codes of length `len` in code-length vector `b`
(`c[bit] += 1` for each entry). -/
def lenCount (b : List Nat) (len : Nat) : Nat := b.count len

/-- The minimum nonzero code length `k` found by the source
(`c.iter().enumerate().find(|(idx, x)| idx >= 1 && x != 0)`, default 0). -/
def kraftMin (b : List Nat) : Nat :=
  (((List.range (BMAX + 1)).filter
      (fun i => decide (1 ≤ i ∧ lenCount b i ≠ 0))).head?).getD 0

/-- The maximum nonzero code length `g` found by the source
(`(1..=BMAX).rev().find(|&x| c[x] != 0)`, default 0). -/
def kraftMax (b : List Nat) : Nat :=
  (((List.range (BMAX + 1)).filter
      (fun i => decide (1 ≤ i ∧ lenCount b i ≠ 0))).getLast?).getD 0

/-- The Kraft-inequality check of `huft_build` (`src/inflate.rs`,
lines 338-402), deciding between the `return 2` path, the unchecked
subtraction at the maximum length, and success. -/
def huft_build_kraft (b : List Nat) : KraftResult :=
  let n := b.length
  let c := lenCount b
  if c 0 = n then .allZero
  else
    let k := kraftMin b
    let g := kraftMax b
    match kraftLoop c (List.range' k (g - k)) (1 <<< k) with
    | none => .fail2
    | some y => if c g > y then .uncheckedUnderflow else .ok (y - c g)

/-- Modelled from the spec: the claim's over-subscription predicate
(`avail = 1 << kmin`; for each length from the minimum to the maximum,
subtract the count of codes of that length and double; over-subscribed if
`avail` ever goes negative). -/
def specKraftAvail (c : Nat → Nat) : List Nat → Int → Bool
  | [], _ => false
  | j :: rest, avail =>
      let a : Int := avail - c j
      if a < 0 then true else specKraftAvail c rest (2 * a)

/-- Modelled from the spec: a code-length vector is over-subscribed when
the running `avail` goes negative at some length between the minimum and
the maximum. -/
def overSubscribed (b : List Nat) : Bool :=
  let c := lenCount b
  let k := kraftMin b
  let g := kraftMax b
  specKraftAvail c (List.range' k (g - k + 1)) ((2 : Int) ^ k)

/-- **C1** (code bug): the vector `[1,1,1]` (three codes of length 1) is
over-subscribed — the Kraft check goes negative at its very first (and
maximal) length — yet `huft_build` does not return 2 on it: the violation
first appears at the maximum length `g`, where the source performs an
unchecked `u32` subtraction `y -= c[g]` followed by a dead `y < 0` test,
so it panics (debug) or wraps and continues (release) instead of failing
with 2. -/
theorem huft_build_kraft_bug :
    overSubscribed [1, 1, 1] = true ∧
      huft_build_kraft [1, 1, 1] ≠ KraftResult.fail2 ∧
      huft_build_kraft [1, 1, 1] = KraftResult.uncheckedUnderflow := by
  decide

/-! ## Push-back of over-read bytes after the final block
(`src/inflate.rs`, lines 1358-1364)

```rust
while self.bk >= 8 {
    self.bk -= 8;
    state.inptr -= 1;
}
```
-/

/-- The push-back loop of `inflate`: while at least 8 bits are buffered,
return one byte to the input stream and drop 8 bits. -/
def undoPreread (bk inptr : Nat) : Nat × Nat :=
  if 8 ≤ bk then undoPreread (bk - 8) (inptr - 1) else (bk, inptr)
termination_by bk
decreasing_by omega

/-- **C9**: after the push-back loop, exactly `bk / 8` bytes have been
returned to the input stream (the input pointer decreases by `bk / 8`) and
`bk % 8 < 8` bits remain buffered. -/
theorem undoPreread_spec (bk inptr : Nat) (h : bk / 8 ≤ inptr) :
    undoPreread bk inptr = (bk % 8, inptr - bk / 8) ∧ bk % 8 < 8 := by
  refine ⟨?_, by omega⟩
  induction bk using Nat.strong_induction_on generalizing inptr with
  | _ bk ih =>
    rw [undoPreread]
    split
    · next hge =>
      rw [ih (bk - 8) (by omega) (inptr - 1) (by omega)]
      simp only [Prod.mk.injEq]
      omega
    · next hlt =>
      simp only [Prod.mk.injEq]
      omega

/-- Witness for C9: `bk = 21`, `inptr = 5` — two bytes pushed back,
5 bits remain. -/
theorem undoPreread_spec_witness :
    (21 : Nat) / 8 ≤ 5 ∧ (undoPreread 21 5 = (5, 3) ∧ 21 % 8 < 8) :=
  ⟨by decide, undoPreread_spec 21 5 (by decide)⟩

/-! ## `flush_block` on empty input (`src/trees.rs`, lines 524-531)

```rust
// Special handling for empty files
if stored_len == 0 && eof {
    // Use stored block format for empty files
    state.send_bits((STORED_BLOCK << 1) as u16 + (if eof { 1 } else { 0 }) as u16, 3);
    self.compressed_len = 0;
    self.file_method = STORED;
    return 0; // Return compressed length (0 for empty file)
}
```

A stored block *with* a length header is emitted elsewhere, through
`copy_block` (`src/trees.rs`, lines 869-896), which calls
`state.put_short(len)` and `state.put_short(!len as u16)`.  The empty-file
branch above never reaches `copy_block`: its entire emission is the single
3-bit `send_bits` call. -/

/-- An output action of the encoder's bit writer (the writer itself lives
outside `src/`; its contract is §4.A of the spec). -/
inductive Emit where
  /-- `state.send_bits(value, length)` -/
  | bits (value : Nat) (length : Nat) : Emit
  /-- `state.put_short(value)` (16-bit little-endian word) -/
  | short (value : Nat) : Emit
  /-- `state.put_byte(value)` -/
  | byte (value : Nat) : Emit
deriving DecidableEq, Repr

/-- Number of bits an output action contributes to the emitted stream. -/
def emitBitCount : Emit → Nat
  | .bits _ n => n
  | .short _ => 16
  | .byte _ => 8

/-- Is the action a `put_short` (16-bit field such as the stored-block
`len`/`nlen` header words)? -/
def emitIsShort : Emit → Bool
  | .short _ => true
  | _ => false

/-- `STORED_BLOCK = 0` (`src/trees.rs`). -/
def STORED_BLOCK : Nat := 0

/-- The empty-input branch of `flush_block` (`src/trees.rs`, lines
524-531): for `stored_len = 0` with `eof`, the function sends one 3-bit
value, sets `compressed_len = 0`, and returns 0, reaching neither
`copy_block` nor `bi_windup`.  Result: (emitted actions, `compressed_len`,
return value); `none` when the branch is not taken. -/
def flushBlockEmpty (storedLen : Nat) (eof : Bool) :
    Option (List Emit × Nat × Int) :=
  if storedLen = 0 ∧ eof then
    some ([Emit.bits ((STORED_BLOCK <<< 1) + (if eof then 1 else 0)) 3], 0, 0)
  else
    none

/-- **C2, counterexample**: on empty input (`stored_len = 0`, `eof`),
`flush_block` emits exactly one 3-bit action — 3 bits in total — so the
emitted bytes cannot contain the claimed 16-bit `len = 0` and
`nlen = 0xFFFF` fields (which would require at least `3 + 16 + 16 = 35`
bits and two `put_short` actions): no `put_short` action is emitted at
all. -/
theorem flushBlockEmpty_no_len_nlen :
    flushBlockEmpty 0 true = some ([Emit.bits 1 3], 0, 0) ∧
      (([Emit.bits 1 3]).map emitBitCount).sum = 3 ∧
      ([Emit.bits 1 3]).all (fun e => ¬ emitIsShort e) = true ∧
      3 < 35 := by
  decide

/-- **C2, amended**: for empty input (`stored_len = 0` with `eof` true),
`flush_block` emits exactly the 3-bit block header
`(STORED_BLOCK << 1) + 1` — whose low bit (BFINAL) is 1 and whose block
type bits are `00` (stored) — sets `compressed_len` to 0 and returns 0,
emitting no `len`/`nlen` fields and nothing else. -/
theorem flushBlockEmpty_amended :
    flushBlockEmpty 0 true =
        some ([Emit.bits ((STORED_BLOCK <<< 1) + 1) 3], 0, 0) ∧
      ((STORED_BLOCK <<< 1) + 1) &&& 1 = 1 ∧
      (((STORED_BLOCK <<< 1) + 1) >>> 1) &&& 3 = STORED_BLOCK := by
  decide

/-! ## `ct_tally` (`src/trees.rs`, lines 407-494)

```rust
state.inbuf[self.last_lit as usize] = lc as u8;
// self.l_buf[self.last_lit as usize] = lc as usize;   <- commented out!
self.last_lit += 1;
if dist == 0 {
    self.dyn_ltree[lc].freq += 1;
} else {
    dist = dist - 1;
    assert!(dist < MAX_DIST && lc <= MAX_MATCH - MIN_MATCH
            && self.d_code(dist) < D_CODES, "ct_tally: bad match");
    let length_index = self.length_code[lc] as usize + LITERALS + 1;
    let dist_index = self.d_code(dist);
    self.dyn_ltree[length_index].freq += 1;
    self.dyn_dtree[dist_index].freq += 1;
    self.d_buf[self.last_dist as usize] = dist as u16 as usize;
    self.last_dist += 1;
    self.flags |= self.flag_bit;
}
self.flag_bit <<= 1;
if (self.last_lit & 7) == 0 {
    self.flag_buf[self.last_flags as usize] = self.flags as usize;
    self.last_flags += 1;
    self.flags = 0;
    self.flag_bit = 1;
}
```

The literal is stored into `state.inbuf`, not into `self.l_buf` (the
`l_buf` write is commented out; `compress_block` at line 806 also reads
the literals back from `state.inbuf`).  The early-flush heuristic (lines
462-493) only reads the tally state and computes the return value, so it
is not part of the state transition modelled here. -/

/-- `LITERALS = 256` (`src/trees.rs`). -/
def LITERALS : Nat := 256

/-- `D_CODES = 30` (`src/trees.rs`). -/
def D_CODES : Nat := 30

/-- Modelled from the spec: `MIN_MATCH = 3` (`src/deflate.rs` is not in
the sources; §6 of the spec fixes the value). -/
def MIN_MATCH : Nat := 3

/-- Modelled from the spec: `MAX_MATCH = 258` (`src/deflate.rs` is not in
the sources; §6 of the spec fixes the value). -/
def MAX_MATCH : Nat := 258

/-- Modelled from the spec: `MAX_DIST = WSIZE - MAX_MATCH - MIN_MATCH - 1`
(`src/deflate.rs` is not in the sources; §6 of the spec fixes the
formula). -/
def MAX_DIST : Nat := WSIZE - MAX_MATCH - MIN_MATCH - 1

/-- Pointwise update of a buffer modelled as a function. -/
def upd (f : Nat → Nat) (i v : Nat) : Nat → Nat :=
  fun j => if j = i then v else f j

/-- The tally-relevant state of `Trees` plus the `state.inbuf` buffer that
`ct_tally` actually writes literals into. -/
structure TallyState where
  /-- `state.inbuf` — used by `ct_tally`/`compress_block` as the literal
  buffer. -/
  inbuf : Nat → Nat
  /-- `self.l_buf` — allocated but never written by `ct_tally`. -/
  l_buf : Nat → Nat
  /-- `self.d_buf` -/
  d_buf : Nat → Nat
  /-- `self.flag_buf` -/
  flag_buf : Nat → Nat
  /-- `freq` fields of `self.dyn_ltree` -/
  dyn_ltree_freq : Nat → Nat
  /-- `freq` fields of `self.dyn_dtree` -/
  dyn_dtree_freq : Nat → Nat
  /-- `self.length_code` (filled by `ct_init`) -/
  length_code : Nat → Nat
  /-- `self.dist_code` (filled by `ct_init`) -/
  dist_code : Nat → Nat
  last_lit : Nat
  last_dist : Nat
  last_flags : Nat
  flags : Nat
  flag_bit : Nat

/-- `d_code(dist)` (`src/trees.rs`, lines 496-502). -/
def TallyState.dCode (s : TallyState) (dist : Nat) : Nat :=
  if dist < 256 then s.dist_code dist else s.dist_code (256 + (dist >>> 7))

/-- The state transition of `ct_tally(dist, lc)` (`src/trees.rs`, lines
407-459).  `none` models the `assert!` failure in the match branch.
`u8`/`u16` stores and counters truncate to their width. -/
def ct_tally (s : TallyState) (dist lc : Nat) : Option TallyState :=
  let s₁ := { s with
    inbuf := upd s.inbuf s.last_lit (lc % 256),
    last_lit := s.last_lit + 1 }
  (if dist = 0 then
    some { s₁ with
      dyn_ltree_freq := upd s₁.dyn_ltree_freq lc ((s₁.dyn_ltree_freq lc + 1) % 65536) }
  else
    let dist' := dist - 1
    if dist' < MAX_DIST ∧ lc ≤ MAX_MATCH - MIN_MATCH ∧ s.dCode dist' < D_CODES then
      let lengthIndex := s.length_code lc + LITERALS + 1
      let distIndex := s.dCode dist'
      some { s₁ with
        dyn_ltree_freq :=
          upd s₁.dyn_ltree_freq lengthIndex ((s₁.dyn_ltree_freq lengthIndex + 1) % 65536),
        dyn_dtree_freq :=
          upd s₁.dyn_dtree_freq distIndex ((s₁.dyn_dtree_freq distIndex + 1) % 65536),
        d_buf := upd s₁.d_buf s₁.last_dist (dist' % 65536),
        last_dist := s₁.last_dist + 1,
        flags := (s₁.flags ||| s₁.flag_bit) % 256 }
    else
      none).map fun s₂ =>
    let s₃ := { s₂ with flag_bit := (s₂.flag_bit <<< 1) % 256 }
    if s₃.last_lit &&& 7 = 0 then
      { s₃ with
        flag_buf := upd s₃.flag_buf s₃.last_flags (s₃.flags % 256),
        last_flags := s₃.last_flags + 1,
        flags := 0,
        flag_bit := 1 }
    else s₃

/-- A concrete initial tally state: all buffers zero, counters as after
`init_block`. -/
def tallyState₀ : TallyState where
  inbuf := fun _ => 0
  l_buf := fun _ => 0
  d_buf := fun _ => 0
  flag_buf := fun _ => 0
  dyn_ltree_freq := fun _ => 0
  dyn_dtree_freq := fun _ => 0
  length_code := fun _ => 0
  dist_code := fun _ => 0
  last_lit := 0
  last_dist := 0
  last_flags := 0
  flags := 0
  flag_bit := 1

/-- **C3, counterexample**: tallying the literal `lc = 65` with `dist = 0`
from the initial state leaves `l_buf[last_lit]` at its old value 0 — the
literal is *not* appended to `l_buf` (the write targets `state.inbuf`;
the `l_buf` store in the source is commented out). -/
theorem ct_tally_lbuf_untouched :
    ((ct_tally tallyState₀ 0 65).map fun s => s.l_buf tallyState₀.last_lit) =
        some 0 ∧
      (0 : Nat) ≠ 65 ∧
      ((ct_tally tallyState₀ 0 65).map fun s => s.inbuf tallyState₀.last_lit) =
        some 65 := by
  refine ⟨rfl, by decide, rfl⟩

/-- **C3, amended**: for every tally state and literal byte `lc < 256`,
`ct_tally(0, lc)` appends `lc` to `state.inbuf` (the buffer the encoder
actually uses for literals) at index `last_lit`, increments
`dyn_ltree[lc].freq` by one (as a 16-bit counter), and modifies no entry
of `l_buf`, `d_buf` or `dyn_dtree`. -/
theorem ct_tally_literal (s : TallyState) (lc : Nat) (hlc : lc < 256) :
    ∃ s', ct_tally s 0 lc = some s' ∧
      s'.inbuf s.last_lit = lc ∧
      s'.dyn_ltree_freq lc = (s.dyn_ltree_freq lc + 1) % 65536 ∧
      s'.last_lit = s.last_lit + 1 ∧
      s'.l_buf = s.l_buf ∧
      s'.d_buf = s.d_buf ∧
      s'.dyn_dtree_freq = s.dyn_dtree_freq := by
  unfold ct_tally
  simp only [if_pos rfl, Option.map_some]
  refine ⟨_, rfl, ?_⟩
  have hmod : lc % 256 = lc := Nat.mod_eq_of_lt hlc
  beta_reduce
  split
  · simp [upd, hmod]
  · simp [upd, hmod]

/-- Witness for C3's amended theorem at the initial state with `lc = 65`. -/
theorem ct_tally_literal_witness :
    (65 : Nat) < 256 ∧
      ∃ s', ct_tally tallyState₀ 0 65 = some s' ∧
        s'.inbuf tallyState₀.last_lit = 65 ∧
        s'.dyn_ltree_freq 65 = (tallyState₀.dyn_ltree_freq 65 + 1) % 65536 ∧
        s'.last_lit = tallyState₀.last_lit + 1 ∧
        s'.l_buf = tallyState₀.l_buf ∧
        s'.d_buf = tallyState₀.d_buf ∧
        s'.dyn_dtree_freq = tallyState₀.dyn_dtree_freq :=
  ⟨by decide, ct_tally_literal tallyState₀ 65 (by decide)⟩

/-! ## Bit reader (`need_bits` / `dump_bits`, `src/inflate.rs`, lines
277-297)

```rust
pub fn need_bits(&mut self, ..., k: &mut u32, b: &mut u32, n: u32, ...) {
    while *k < n {
        let byte = self.next_byte(state, w)?;
        *b |= (u32::from(byte)) << *k;
        *k += 8;
    }
}
pub fn dump_bits(&mut self, k: &mut u32, b: &mut u32, n: u32) {
    *b = *b >> n;
    *k = *k - n;
}
```

`next_byte`/`Get_Byte` yield the next input byte, or 0 once the input is
exhausted (the EOF path of `fill_inbuf` returns `Ok(0)`). -/

/-- One byte from the input stream; 0 at EOF. -/
def nextByte : List Nat → Nat × List Nat
  | [] => (0, [])
  | x :: xs => (x, xs)

/-- The `while *k < n` loop of `need_bits`, with an explicit iteration
bound (`fuel`).  Each pass adds 8 bits, so `fuel = n` iterations always
suffice (`needBitsGo_done` below shows the loop really has exited when
the fuel is the one `need_bits` supplies). -/
def needBitsGo (n : Nat) : Nat → Nat → Nat → List Nat → Nat × Nat × List Nat
  | 0, b, k, inp => (b, k, inp)
  | fuel + 1, b, k, inp =>
      if k < n then
        needBitsGo n fuel (b ||| ((nextByte inp).1 <<< k)) (k + 8) (nextByte inp).2
      else (b, k, inp)

/-- `need_bits(n)`: pull whole input bytes LSB-first into the bit buffer
until at least `n` bits are available.  Returns `(b, k, input)`. -/
def need_bits (n b k : Nat) (inp : List Nat) : Nat × Nat × List Nat :=
  needBitsGo n n b k inp

/-- With `n ≤ k + 8·fuel`, the bounded loop reaches the real exit
condition `k ≥ n`: the fuel bound in `need_bits` is not a semantic
restriction. -/
theorem needBitsGo_done (n : Nat) (fuel b k : Nat) (inp : List Nat)
    (h : n ≤ k + 8 * fuel) :
    n ≤ (needBitsGo n fuel b k inp).2.1 := by
  induction fuel generalizing b k inp with
  | zero => simpa [needBitsGo] using h
  | succ fuel ih =>
    rw [needBitsGo]
    split
    · exact ih _ _ _ (by omega)
    · next hk => simpa using Nat.le_of_not_lt hk

/-- After `need_bits n`, at least `n` bits are buffered. -/
theorem need_bits_done (n b k : Nat) (inp : List Nat) :
    n ≤ (need_bits n b k inp).2.1 :=
  needBitsGo_done n n b k inp (by omega)

/-- `dump_bits(n)`: drop the low `n` bits. -/
def dump_bits (b k n : Nat) : Nat × Nat := (b >>> n, k - n)

/-! ## The HLIT/HDIST validation of `inflate_dynamic`
(`src/inflate.rs`, lines 1059-1082)

```rust
self.need_bits(state, &mut k, &mut b, 5, w as usize);
let nl = 257 + (b & 0x1f);
self.dump_bits(&mut k, &mut b, 5);
self.need_bits(state, &mut k, &mut b, 5, w as usize);
let nd = 1 + (b & 0x1f);
self.dump_bits(&mut k, &mut b, 5);
self.need_bits(state, &mut k, &mut b, 4, w as usize);
let nb = 4 + (b & 0xf);
self.dump_bits(&mut k, &mut b, 4);
if nl > 286 || nd > 30 {
    return 1; // Invalid code lengths
}
```

The check sits before any `huft_build` call and before any window write. -/

/-- The header reads of `inflate_dynamic`: `(nl, nd, nb)` plus the reader
state after the three fields. -/
def inflate_dynamic_header (b k : Nat) (inp : List Nat) :
    (Nat × Nat × Nat) × (Nat × Nat × List Nat) :=
  let r₁ := need_bits 5 b k inp
  let nl := 257 + (r₁.1 &&& 0x1f)
  let d₁ := dump_bits r₁.1 r₁.2.1 5
  let r₂ := need_bits 5 d₁.1 d₁.2 r₁.2.2
  let nd := 1 + (r₂.1 &&& 0x1f)
  let d₂ := dump_bits r₂.1 r₂.2.1 5
  let r₃ := need_bits 4 d₂.1 d₂.2 r₂.2.2
  let nb := 4 + (r₃.1 &&& 0xf)
  let d₃ := dump_bits r₃.1 r₃.2.1 4
  ((nl, nd, nb), (d₃.1, d₃.2, r₃.2.2))

/-- The guarded prefix of `inflate_dynamic`: `none` models the
`return 1` on invalid HLIT/HDIST, taken before any table is built and
before any output is written. -/
def inflate_dynamic_checked (b k : Nat) (inp : List Nat) :
    Option ((Nat × Nat × Nat) × (Nat × Nat × List Nat)) :=
  if (inflate_dynamic_header b k inp).1.1 > 286 ∨
      (inflate_dynamic_header b k inp).1.2.1 > 30 then none
  else some (inflate_dynamic_header b k inp)

/-- **C7**: `inflate_dynamic` computes `HLIT = 257 + read(5)` and
`HDIST = 1 + read(5)` (so `257 ≤ HLIT ≤ 288` and `1 ≤ HDIST ≤ 32`), and
its early `return 1` — taken before any table build or output write —
fires exactly when `HLIT > 286` or `HDIST > 30`; in particular the
crafted input whose first 5-bit field is 30 yields `HLIT = 287` and is
rejected. -/
theorem inflate_dynamic_hlit_hdist :
    (∀ b k inp,
      (inflate_dynamic_checked b k inp = none ↔
        286 < (inflate_dynamic_header b k inp).1.1 ∨
          30 < (inflate_dynamic_header b k inp).1.2.1) ∧
      257 ≤ (inflate_dynamic_header b k inp).1.1 ∧
      (inflate_dynamic_header b k inp).1.1 ≤ 288 ∧
      1 ≤ (inflate_dynamic_header b k inp).1.2.1 ∧
      (inflate_dynamic_header b k inp).1.2.1 ≤ 32) ∧
    (inflate_dynamic_header 30 5 []).1.1 = 287 ∧
    inflate_dynamic_checked 30 5 [] = none := by
  refine ⟨fun b k inp => ⟨?_, ?_, ?_, ?_, ?_⟩, by decide, by decide⟩
  · unfold inflate_dynamic_checked
    split <;> simp_all
  · dsimp only [inflate_dynamic_header]
    exact Nat.le_add_right 257 _
  · dsimp only [inflate_dynamic_header]
    exact le_trans (Nat.add_le_add_left Nat.and_le_right 257) (by norm_num)
  · dsimp only [inflate_dynamic_header]
    exact Nat.le_add_right 1 _
  · dsimp only [inflate_dynamic_header]
    exact le_trans (Nat.add_le_add_left Nat.and_le_right 1) (by norm_num)

/-! ## `gen_codes` (`src/trees.rs`, lines 347-394)

```rust
let mut next_code = [0u16; MAX_BITS + 1];
let mut code = 0u16;
for bits in 1..=MAX_BITS {
    code = ((code + self.bl_count[bits - 1] as u16) << 1) as u16;
    next_code[bits] = code;
}
for n in 0..=max_code as usize {
    let len = tree[n].len as usize;
    if len != 0 {
        tree[n].code = Self::bi_reverse(next_code[len], len);
        next_code[len] += 1;
    }
}
```

Trees are modelled by their `len` and `code` columns as functions;
`u16` arithmetic truncates to 16 bits. -/

/-- The `next_code` table: `next_code[bits]` after the first loop of
`gen_codes` (`next_code[0]` keeps its initial 0). -/
def next_code (blCount : Nat → Nat) : Nat → Nat
  | 0 => 0
  | bits + 1 => ((next_code blCount bits + blCount bits) <<< 1) % 65536

/-- The assignment loop of `gen_codes`, iterating over node indices `ns`
and carrying the `code` column and the mutable `next_code` table. -/
def genCodesLoop (lenOf : Nat → Nat) :
    List Nat → (Nat → Nat) → (Nat → Nat) → (Nat → Nat) × (Nat → Nat)
  | [], codes, next => (codes, next)
  | n :: rest, codes, next =>
      if lenOf n ≠ 0 then
        genCodesLoop lenOf rest
          (upd codes n (bi_reverse (next (lenOf n)) (lenOf n)))
          (upd next (lenOf n) ((next (lenOf n) + 1) % 65536))
      else
        genCodesLoop lenOf rest codes next

/-- `gen_codes`: assign canonical codes to nodes `0..=max_code`, given
the `len` column, the initial `code` column, and `bl_count`. -/
def gen_codes (lenOf codes₀ : Nat → Nat) (blCount : Nat → Nat)
    (maxCode : Nat) : (Nat → Nat) × (Nat → Nat) :=
  genCodesLoop lenOf (List.range (maxCode + 1)) codes₀ (next_code blCount)

/-- Indices not visited by the assignment loop keep their `code` value. -/
theorem genCodesLoop_notMem (lenOf : Nat → Nat) (ns : List Nat)
    (codes next : Nat → Nat) (n : Nat) (h : n ∉ ns) :
    (genCodesLoop lenOf ns codes next).1 n = codes n := by
  induction ns generalizing codes next with
  | nil => rfl
  | cons a rest ih =>
    have hna : n ≠ a := by
      intro hcontra
      exact h (hcontra ▸ List.mem_cons_self a rest)
    have hrest : n ∉ rest := fun hc => h (List.mem_cons_of_mem a hc)
    rw [genCodesLoop]
    split
    · rw [ih _ _ hrest]
      simp [upd, hna]
    · exact ih _ _ hrest

/-- Indices whose length is zero keep their `code` value. -/
theorem genCodesLoop_len_zero (lenOf : Nat → Nat) (ns : List Nat)
    (codes next : Nat → Nat) (n : Nat) (h : lenOf n = 0) :
    (genCodesLoop lenOf ns codes next).1 n = codes n := by
  induction ns generalizing codes next with
  | nil => rfl
  | cons a rest ih =>
    rw [genCodesLoop]
    split
    · next ha =>
      rw [ih]
      have hna : n ≠ a := fun hc => ha (hc ▸ h)
      simp [upd, hna]
    · exact ih _ _

/-- Core accounting of the assignment loop: a node `n` of nonzero length
that occurs after the prefix `ns₁` (and nowhere else) receives the
bit-reversed value of the running counter for its length, which by then
has been incremented once per earlier node of the same length. -/
theorem genCodesLoop_assigns (lenOf : Nat → Nat) (ns₁ ns₂ : List Nat)
    (n : Nat) (codes next : Nat → Nat)
    (h1 : n ∉ ns₁) (h2 : n ∉ ns₂) (hlen : lenOf n ≠ 0)
    (hnext : ∀ L, next L < 65536) :
    (genCodesLoop lenOf (ns₁ ++ n :: ns₂) codes next).1 n =
      bi_reverse
        ((next (lenOf n) +
            (ns₁.filter (fun m => lenOf m = lenOf n)).length) % 65536)
        (lenOf n) := by
  induction ns₁ generalizing codes next with
  | nil =>
    simp only [List.nil_append, List.filter_nil, List.length_nil,
      Nat.add_zero]
    rw [genCodesLoop, if_pos hlen, genCodesLoop_notMem _ _ _ _ _ h2]
    simp [upd, Nat.mod_eq_of_lt (hnext (lenOf n))]
  | cons a ns₁' ih =>
    have hna : n ≠ a := by
      intro hcontra
      exact h1 (hcontra ▸ List.mem_cons_self a ns₁')
    have h1' : n ∉ ns₁' := fun hc => h1 (List.mem_cons_of_mem a hc)
    rw [List.cons_append, genCodesLoop]
    split
    · next ha =>
      rw [ih _ _ h1' (fun L => by
        simp only [upd]
        split
        · exact Nat.mod_lt _ (by norm_num)
        · exact hnext L)]
      by_cases hal : lenOf a = lenOf n
      · rw [List.filter_cons_of_pos (by simpa using hal)]
        have hupd : upd next (lenOf a) ((next (lenOf a) + 1) % 65536) (lenOf n)
            = (next (lenOf n) + 1) % 65536 := by
          simp [upd, hal]
        rw [hupd]
        congr 1
        rw [List.length_cons, Nat.mod_add_mod]
        omega
      · rw [List.filter_cons_of_neg (by simpa using hal)]
        have : lenOf n ≠ lenOf a := fun hc => hal hc.symm
        simp [upd, this]
    · next ha =>
      have hal : lenOf a ≠ lenOf n := by
        push_neg at ha
        intro hc
        exact hlen (hc ▸ ha)
      rw [List.filter_cons_of_neg (by simpa using hal)]
      exact ih _ _ h1' hnext

/-- Every `next_code` entry is a 16-bit value. -/
theorem next_code_lt (blCount : Nat → Nat) (L : Nat) :
    next_code blCount L < 65536 := by
  cases L with
  | zero => simp [next_code]
  | succ l => exact Nat.mod_lt _ (by norm_num)

/-- `0, 1, ..., maxCode` decomposed around a chosen `n ≤ maxCode`. -/
theorem range_split (n maxCode : Nat) (h : n ≤ maxCode) :
    List.range (maxCode + 1) =
      List.range n ++ n :: List.range' (n + 1) (maxCode - n) := by
  rw [List.range_eq_range', List.range_eq_range']
  have h1 : n :: List.range' (n + 1) (maxCode - n) =
      List.range' n (maxCode - n + 1) := by
    rw [List.range'_succ]
  rw [h1]
  have h2 := List.range'_append 0 n (maxCode - n + 1) 1
  simp only [Nat.zero_add, Nat.one_mul] at h2
  rw [h2]
  congr 1
  omega

/-- **C4**: `gen_codes` assigns codes canonically: the first-code table
satisfies `next_code[len] = (next_code[len-1] + bl_count[len-1]) << 1`
(16-bit arithmetic), each node `n ≤ max_code` with `tree[n].len = L ≠ 0`
receives `code = bi_reverse(next_code[L] + |{m < n | tree[m].len = L}|, L)`
— i.e. `bi_reverse(next_code[L], L)` with `next_code[L]` then incremented
— and nodes with `len = 0` receive no code.  (The lengths are at most
`MAX_BITS`, matching the `next_code` table's index range.) -/
theorem gen_codes_canonical (lenOf codes₀ blCount : Nat → Nat)
    (maxCode : Nat) (hlen : ∀ n, n ≤ maxCode → lenOf n ≤ MAX_BITS) :
    (∀ len, 1 ≤ len →
      next_code blCount len =
        ((next_code blCount (len - 1) + blCount (len - 1)) <<< 1) % 65536) ∧
    (∀ n, n ≤ maxCode → lenOf n ≠ 0 →
      (gen_codes lenOf codes₀ blCount maxCode).1 n =
        bi_reverse
          ((next_code blCount (lenOf n) +
              ((List.range n).filter (fun m => lenOf m = lenOf n)).length)
            % 65536)
          (lenOf n)) ∧
    (∀ n, lenOf n = 0 →
      (gen_codes lenOf codes₀ blCount maxCode).1 n = codes₀ n) := by
  clear hlen
  refine ⟨?_, ?_, ?_⟩
  · intro len h1
    obtain ⟨l, rfl⟩ : ∃ l, len = l + 1 := ⟨len - 1, by omega⟩
    simp [next_code]
  · intro n hn hlenn
    unfold gen_codes
    rw [range_split n maxCode hn]
    exact genCodesLoop_assigns lenOf (List.range n)
      (List.range' (n + 1) (maxCode - n)) n codes₀ (next_code blCount)
      (by simp) (by simp [List.mem_range'_1]) hlenn (next_code_lt blCount)
  · intro n hn
    exact genCodesLoop_len_zero lenOf _ codes₀ _ n hn

/-- Witness for C4: two nodes of length 1, `bl_count[1] = 2`. -/
theorem gen_codes_canonical_witness :
    (∀ n, n ≤ 1 → (fun _ : Nat => 1) n ≤ MAX_BITS) ∧
      ((∀ len, 1 ≤ len →
        next_code (fun L => if L = 1 then 2 else 0) len =
          ((next_code (fun L => if L = 1 then 2 else 0) (len - 1) +
              (if len - 1 = 1 then 2 else 0)) <<< 1) % 65536) ∧
      (∀ n, n ≤ 1 → (fun _ : Nat => 1) n ≠ 0 →
        (gen_codes (fun _ => 1) (fun _ => 0)
            (fun L => if L = 1 then 2 else 0) 1).1 n =
          bi_reverse
            ((next_code (fun L => if L = 1 then 2 else 0) 1 +
                ((List.range n).filter
                  (fun _ => (1 : Nat) = 1)).length) % 65536) 1) ∧
      (∀ n, (fun _ : Nat => 1) n = 0 →
        (gen_codes (fun _ => 1) (fun _ => 0)
            (fun L => if L = 1 then 2 else 0) 1).1 n = 0)) :=
  ⟨fun _ _ => by norm_num [MAX_BITS],
    gen_codes_canonical (fun _ => 1) (fun _ => 0)
      (fun L => if L = 1 then 2 else 0) 1 (fun _ _ => by norm_num [MAX_BITS])⟩

/-! ## `inflate_stored` (`src/inflate.rs`, lines 922-968)

```rust
b = self.bb; k = self.bk; w = state.outcnt;
n = k & 7; self.dump_bits(&mut k, &mut b, n);        // byte boundary
self.need_bits(state, &mut k, &mut b, 16, w);
n = (b & 0xffff) as u32;                             // len
self.dump_bits(&mut k, &mut b, 16);
self.need_bits(state, &mut k, &mut b, 16, w);
if n != (!b & 0xffff) as u32 { return 1; }           // nlen check
self.dump_bits(&mut k, &mut b, 16);
while n > 0 {
    self.need_bits(state, &mut k, &mut b, 8, w);
    state.window[w] = (b & 0xff) as u8;
    w += 1;
    if w == WSIZE { self.flush_output(state, w); w = 0; }
    self.dump_bits(&mut k, &mut b, 8);
    n -= 1;
}
state.outcnt = w; self.bb = b; self.bk = k;
return 0;
```
-/

/-- The decoder's window state: the `window` buffer, the write position
`w` (`state.outcnt`), and the bytes already flushed to the output sink. -/
structure InflateState where
  win : Nat → Nat
  w : Nat
  out : List Nat

/-- All bytes produced so far: the flushed prefix followed by the
not-yet-flushed window content `window[0..w]`. -/
def decoded (st : InflateState) : List Nat :=
  st.out ++ (List.range st.w).map st.win

/-- Write one byte at the window position, flushing the full window when
the position reaches `WSIZE` (the `flush_output` call). -/
def putWindowByte (st : InflateState) (byte : Nat) : InflateState :=
  if st.w + 1 = WSIZE then
    ⟨upd st.win st.w byte, 0,
      st.out ++ (List.range WSIZE).map (upd st.win st.w byte)⟩
  else
    ⟨upd st.win st.w byte, st.w + 1, st.out⟩

/-- Writing a byte appends it to the decoded stream. -/
theorem decoded_putWindowByte (st : InflateState) (byte : Nat)
    (hw : st.w < WSIZE) :
    decoded (putWindowByte st byte) = decoded st ++ [byte] ∧
      (putWindowByte st byte).w < WSIZE := by
  have hmap : (List.range (st.w + 1)).map (upd st.win st.w byte) =
      (List.range st.w).map st.win ++ [byte] := by
    rw [List.range_succ, List.map_append]
    congr 1
    · apply List.map_congr_left
      intro j hj
      have : j < st.w := List.mem_range.mp hj
      simp [upd]
      omega
    · simp [upd]
  unfold putWindowByte decoded
  split
  · next heq =>
    refine ⟨?_, by simp [WSIZE]⟩
    simp only [List.range_zero, List.map_nil, List.append_nil]
    rw [← heq, hmap, List.append_assoc]
  · next hne =>
    refine ⟨?_, by show st.w + 1 < WSIZE; omega⟩
    simp only [hmap]
    rw [List.append_assoc]

/-- The byte-aligned input stream seen from reader state `(b, k, inp)`
with `k` a multiple of 8: bytes still in the bit buffer come first, then
the input list, then the zero padding that `Get_Byte` yields at EOF. -/
def byteAt (b k : Nat) (inp : List Nat) (i : Nat) : Nat :=
  if i < k / 8 then (b >>> (8 * i)) &&& 0xff
  else inp.getD (i - k / 8) 0

/-- Dropping one whole byte from the bit buffer shifts the byte stream. -/
theorem byteAt_shift8 (b k : Nat) (inp : List Nat) (i : Nat)
    (hk8 : 8 ≤ k) (hkm : k % 8 = 0) :
    byteAt (b >>> 8) (k - 8) inp i = byteAt b k inp (i + 1) := by
  unfold byteAt
  have hdiv : (k - 8) / 8 = k / 8 - 1 := by omega
  have hk1 : 1 ≤ k / 8 := by omega
  by_cases hi : i < (k - 8) / 8
  · rw [if_pos hi, if_pos (by omega)]
    rw [← Nat.shiftRight_add]
    congr 2
    omega
  · rw [if_neg hi, if_neg (by omega)]
    congr 1
    omega

/-- The first byte of the stream is the low byte of the bit buffer (when
at least one whole byte is buffered). -/
theorem byteAt_zero (b k : Nat) (inp : List Nat) (hk : 8 ≤ k) :
    byteAt b k inp 0 = b &&& 0xff := by
  unfold byteAt
  rw [if_pos (by omega)]
  simp

/-- A 16-bit read is the first two bytes of the stream, little-endian. -/
theorem byteAt_low16 (b k : Nat) (inp : List Nat) (hk : 16 ≤ k) :
    b &&& 0xffff = byteAt b k inp 0 + 256 * byteAt b k inp 1 := by
  unfold byteAt
  rw [if_pos (by omega), if_pos (by omega)]
  have h1 : b &&& 0xffff = b % 65536 := by
    have : (0xffff : Nat) = 2 ^ 16 - 1 := by norm_num
    rw [this, Nat.and_pow_two_sub_one_eq_mod]
  have hand : ∀ x : Nat, x &&& 0xff = x % 256 := by
    intro x
    have h8 : (0xff : Nat) = 2 ^ 8 - 1 := by norm_num
    rw [h8, Nat.and_pow_two_sub_one_eq_mod]
  have h2 : b >>> (8 * 0) = b := by norm_num
  have h3 : b >>> (8 * 1) = b / 256 := by
    rw [Nat.shiftRight_eq_div_pow]
  rw [h1, hand, hand, h2, h3]
  omega

/-- `x &&& 0xff` is `x % 256`. -/
theorem and_0xff (x : Nat) : x &&& 0xff = x % 256 := by
  have h8 : (0xff : Nat) = 2 ^ 8 - 1 := by norm_num
  rw [h8, Nat.and_pow_two_sub_one_eq_mod]

/-- `x &&& 0xffff` is `x % 65536`. -/
theorem and_0xffff (x : Nat) : x &&& 0xffff = x % 65536 := by
  have h16 : (0xffff : Nat) = 2 ^ 16 - 1 := by norm_num
  rw [h16, Nat.and_pow_two_sub_one_eq_mod]

/-- Well-formed reader state: whole bytes buffered, buffer holds only its
`k` declared bits, pending input consists of bytes. -/
def ReaderOk (b k : Nat) (inp : List Nat) : Prop :=
  k % 8 = 0 ∧ b < 2 ^ k ∧ ∀ x ∈ inp, x < 256

/-- `b |= byte << k` is plain addition when the buffer holds `k` bits. -/
theorem or_shiftLeft_eq_add (b k x : Nat) (hb : b < 2 ^ k) :
    b ||| (x <<< k) = b + x * 2 ^ k := by
  rw [Nat.shiftLeft_eq]
  have h := Nat.mul_add_lt_is_or hb x
  rw [Nat.or_comm]
  rw [Nat.mul_comm (2 ^ k) x] at h
  omega

/-- Pulling one input byte into the bit buffer leaves the byte-aligned
stream unchanged. -/
theorem byteAt_pull (b k : Nat) (inp : List Nat) (i : Nat)
    (hkm : k % 8 = 0) (hb : b < 2 ^ k) (hinp : ∀ x ∈ inp, x < 256) :
    byteAt (b ||| ((nextByte inp).1 <<< k)) (k + 8) (nextByte inp).2 i =
      byteAt b k inp i := by
  have hdiv8 : (k + 8) / 8 = k / 8 + 1 := by omega
  have h8k : 8 * (k / 8) = k := by omega
  cases inp with
  | nil =>
    simp only [nextByte, Nat.zero_shiftLeft, Nat.or_zero]
    unfold byteAt
    rw [hdiv8]
    rcases Nat.lt_trichotomy i (k / 8) with hi | hi | hi
    · rw [if_pos (by omega), if_pos hi]
    · subst hi
      rw [if_pos (by omega), if_neg (by omega)]
      have hz : b >>> (8 * (k / 8)) = 0 := by
        rw [h8k, Nat.shiftRight_eq_div_pow, Nat.div_eq_of_lt hb]
      rw [hz]
      simp
    · rw [if_neg (by omega), if_neg (by omega)]
      simp
  | cons x xs =>
    have hx : x < 256 := hinp x (List.mem_cons_self x xs)
    simp only [nextByte]
    have hadd : b ||| (x <<< k) = b + x * 2 ^ k := or_shiftLeft_eq_add b k x hb
    rw [hadd]
    unfold byteAt
    rw [hdiv8]
    rcases Nat.lt_trichotomy i (k / 8) with hi | hi | hi
    · rw [if_pos (by omega), if_pos hi]
      have hle : 8 * i + 8 ≤ k := by omega
      have hsplit : x * 2 ^ k = x * 2 ^ (k - 8 * i) * 2 ^ (8 * i) := by
        rw [Nat.mul_assoc, ← Nat.pow_add]
        congr 2
        omega
      rw [Nat.shiftRight_eq_div_pow, Nat.shiftRight_eq_div_pow, hsplit,
        Nat.add_mul_div_right _ _ (Nat.pos_pow_of_pos _ (by norm_num))]
      rw [and_0xff, and_0xff]
      have hsplit2 : x * 2 ^ (k - 8 * i) = x * 2 ^ (k - 8 * i - 8) * 256 := by
        rw [Nat.mul_assoc]
        congr 1
        rw [show (256 : Nat) = 2 ^ 8 from by norm_num, ← Nat.pow_add]
        congr 1
        omega
      rw [hsplit2, Nat.add_mul_mod_self_right]
    · subst hi
      rw [if_pos (by omega), if_neg (by omega)]
      rw [h8k, Nat.shiftRight_eq_div_pow,
        Nat.add_mul_div_right _ _ (Nat.pos_pow_of_pos _ (by norm_num)),
        Nat.div_eq_of_lt hb]
      rw [and_0xff]
      simp [Nat.mod_eq_of_lt hx]
    · rw [if_neg (by omega), if_neg (by omega)]
      have h1 : i - k / 8 = (i - (k / 8 + 1)) + 1 := by omega
      rw [h1]
      rfl

/-- `need_bits` (bounded loop form) preserves the byte stream and the
reader invariant, and ends with at least `n` buffered bits when given
enough fuel. -/
theorem needBitsGo_spec (n : Nat) (fuel : Nat) :
    ∀ b k inp, ReaderOk b k inp →
      ReaderOk (needBitsGo n fuel b k inp).1 (needBitsGo n fuel b k inp).2.1
          (needBitsGo n fuel b k inp).2.2 ∧
        (∀ i, byteAt (needBitsGo n fuel b k inp).1
            (needBitsGo n fuel b k inp).2.1
            (needBitsGo n fuel b k inp).2.2 i = byteAt b k inp i) := by
  induction fuel with
  | zero => exact fun b k inp h => ⟨h, fun i => rfl⟩
  | succ fuel ih =>
    intro b k inp h
    obtain ⟨hkm, hb, hinp⟩ := h
    rw [needBitsGo]
    split
    · have hx : (nextByte inp).1 < 256 := by
        cases inp with
        | nil => simp [nextByte]
        | cons x xs => exact hinp x (List.mem_cons_self x xs)
      have hxs : ∀ x ∈ (nextByte inp).2, x < 256 := by
        cases inp with
        | nil => simp [nextByte]
        | cons x xs =>
          intro y hy
          exact hinp y (List.mem_cons_of_mem x hy)
      have hb' : b ||| ((nextByte inp).1 <<< k) < 2 ^ (k + 8) := by
        rw [or_shiftLeft_eq_add b k _ hb, Nat.pow_add]
        have : (nextByte inp).1 * 2 ^ k ≤ 255 * 2 ^ k :=
          Nat.mul_le_mul_right _ (by omega)
        nlinarith [Nat.pos_pow_of_pos k (show 0 < 2 by norm_num)]
      have hok' : ReaderOk (b ||| ((nextByte inp).1 <<< k)) (k + 8)
          (nextByte inp).2 := ⟨by omega, hb', hxs⟩
      obtain ⟨hok'', hbytes⟩ := ih _ _ _ hok'
      refine ⟨hok'', fun i => ?_⟩
      rw [hbytes i, byteAt_pull b k inp i hkm hb hinp]
    · exact ⟨⟨hkm, hb, hinp⟩, fun i => rfl⟩

/-- `need_bits` preserves the byte stream and the reader invariant. -/
theorem need_bits_spec (n b k : Nat) (inp : List Nat)
    (h : ReaderOk b k inp) :
    ReaderOk (need_bits n b k inp).1 (need_bits n b k inp).2.1
        (need_bits n b k inp).2.2 ∧
      (∀ i, byteAt (need_bits n b k inp).1 (need_bits n b k inp).2.1
          (need_bits n b k inp).2.2 i = byteAt b k inp i) :=
  needBitsGo_spec n n b k inp h

/-- Dropping `m ≤ k` bits preserves the buffer bound. -/
theorem shiftRight_lt_pow (b k m : Nat) (hb : b < 2 ^ k) (hm : m ≤ k) :
    b >>> m < 2 ^ (k - m) := by
  rw [Nat.shiftRight_eq_div_pow]
  rw [Nat.div_lt_iff_lt_mul (Nat.pos_pow_of_pos _ (by norm_num))]
  calc b < 2 ^ k := hb
  _ = 2 ^ (k - m) * 2 ^ m := by
      rw [← Nat.pow_add]
      congr 1
      omega

/-- Dropping two whole bytes (a 16-bit dump) shifts the byte stream by
two positions. -/
theorem byteAt_shift16 (b k : Nat) (inp : List Nat) (i : Nat)
    (hk : 16 ≤ k) (hkm : k % 8 = 0) :
    byteAt (b >>> 16) (k - 16) inp i = byteAt b k inp (i + 2) := by
  have h1 : b >>> 16 = (b >>> 8) >>> 8 := by
    rw [← Nat.shiftRight_add]
  have h2 : k - 16 = (k - 8) - 8 := by omega
  rw [h1, h2, byteAt_shift8 _ _ _ _ (by omega) (by omega),
    byteAt_shift8 _ _ _ _ (by omega) hkm]

/-- The `while n > 0` copy loop of `inflate_stored`: read 8 bits, write
the byte into the window (flushing at `WSIZE`), drop the 8 bits. -/
def storedCopyGo : Nat → Nat → Nat → List Nat → InflateState →
    InflateState × Nat × Nat × List Nat
  | 0, b, k, inp, st => (st, b, k, inp)
  | n + 1, b, k, inp, st =>
      let r := need_bits 8 b k inp
      let st' := putWindowByte st (r.1 &&& 0xff)
      let d := dump_bits r.1 r.2.1 8
      storedCopyGo n d.1 d.2 r.2.2 st'

/-- The copy loop appends exactly the next `n` stream bytes to the
decoded output. -/
theorem storedCopyGo_spec (n : Nat) :
    ∀ b k inp st, ReaderOk b k inp → st.w < WSIZE →
      decoded (storedCopyGo n b k inp st).1 =
          decoded st ++ (List.range n).map (byteAt b k inp) ∧
        (storedCopyGo n b k inp st).1.w < WSIZE := by
  induction n with
  | zero =>
    intro b k inp st _ hw
    exact ⟨by simp [storedCopyGo], hw⟩
  | succ n ih =>
    intro b k inp st hok hw
    obtain ⟨hok₁, hbytes₁⟩ := need_bits_spec 8 b k inp hok
    have hk8 : 8 ≤ (need_bits 8 b k inp).2.1 := need_bits_done 8 b k inp
    obtain ⟨hkm₁, hb₁, hinp₁⟩ := hok₁
    have hbyte : (need_bits 8 b k inp).1 &&& 0xff = byteAt b k inp 0 := by
      rw [← byteAt_zero (need_bits 8 b k inp).1 (need_bits 8 b k inp).2.1
        (need_bits 8 b k inp).2.2 hk8]
      exact hbytes₁ 0
    · obtain ⟨hdec, hw'⟩ := decoded_putWindowByte st
        ((need_bits 8 b k inp).1 &&& 0xff) hw
      have hok₂ : ReaderOk ((need_bits 8 b k inp).1 >>> 8)
          ((need_bits 8 b k inp).2.1 - 8) (need_bits 8 b k inp).2.2 :=
        ⟨by omega, shiftRight_lt_pow _ _ _ hb₁ (by omega), hinp₁⟩
      obtain ⟨hdec₂, hw₂⟩ := ih ((need_bits 8 b k inp).1 >>> 8)
        ((need_bits 8 b k inp).2.1 - 8) (need_bits 8 b k inp).2.2
        (putWindowByte st ((need_bits 8 b k inp).1 &&& 0xff)) hok₂ hw'
      refine ⟨?_, hw₂⟩
      show decoded (storedCopyGo n _ _ _ _).1 = _
      simp only [dump_bits]
      rw [hdec₂, hdec, hbyte]
      have hmap : (List.range n).map
          (byteAt ((need_bits 8 b k inp).1 >>> 8)
            ((need_bits 8 b k inp).2.1 - 8) (need_bits 8 b k inp).2.2) =
          (List.range n).map (fun i => byteAt b k inp (i + 1)) := by
        apply List.map_congr_left
        intro j _
        rw [byteAt_shift8 _ _ _ _ hk8 hkm₁, hbytes₁]
      rw [hmap]
      rw [List.range_succ_eq_map, List.map_cons, List.map_map]
      rw [List.append_assoc]
      rfl

/-- `!b & 0xffff` on a `u32`: the low 16 bits of `b`, complemented. -/
def not16 (x : Nat) : Nat := (x % 65536) ^^^ 65535

/-- `inflate_stored` (`src/inflate.rs`, lines 922-968): byte-align, read
`len` and `nlen`, fail with 1 when `len != !nlen`, otherwise copy `len`
bytes into the window and return 0.  Result:
`(return code, window state, bb, bk, remaining input)`; the error path
returns with the globals `bb`/`bk` not written back, as in the source. -/
def inflate_stored (b k : Nat) (inp : List Nat) (st : InflateState) :
    Nat × InflateState × Nat × Nat × List Nat :=
  let d₀ := dump_bits b k (k &&& 7)
  let r₁ := need_bits 16 d₀.1 d₀.2 inp
  let len := r₁.1 &&& 0xffff
  let d₁ := dump_bits r₁.1 r₁.2.1 16
  let r₂ := need_bits 16 d₁.1 d₁.2 r₁.2.2
  if len ≠ not16 r₂.1 then (1, st, b, k, r₂.2.2)
  else
    let d₂ := dump_bits r₂.1 r₂.2.1 16
    let rc := storedCopyGo len d₂.1 d₂.2 r₂.2.2 st
    (0, rc.1, rc.2)

/-- For any `m`, `a = c ^^^ m` exactly when `a ^^^ c = m`. -/
theorem eq_xor_iff_xor_eq (a c m : Nat) : a = c ^^^ m ↔ a ^^^ c = m := by
  constructor
  · rintro rfl
    rw [Nat.xor_comm c m, Nat.xor_assoc, Nat.xor_self, Nat.xor_zero]
  · intro h
    have h2 : a ^^^ c ^^^ c = a := by
      rw [Nat.xor_assoc, Nat.xor_self, Nat.xor_zero]
    rw [← h2, h, Nat.xor_comm]

/-- The 16-bit `len` field of a stored block: the first two bytes of the
byte-aligned stream at `(b, k, inp)`, little-endian. -/
def storedLen (b k : Nat) (inp : List Nat) : Nat :=
  byteAt (b >>> (k &&& 7)) (k - (k &&& 7)) inp 0 +
    256 * byteAt (b >>> (k &&& 7)) (k - (k &&& 7)) inp 1

/-- The 16-bit `nlen` field of a stored block: the next two bytes. -/
def storedNlen (b k : Nat) (inp : List Nat) : Nat :=
  byteAt (b >>> (k &&& 7)) (k - (k &&& 7)) inp 2 +
    256 * byteAt (b >>> (k &&& 7)) (k - (k &&& 7)) inp 3

/-- **C6**: from any entry bit position (`k` buffered bits, not
necessarily a multiple of 8), `inflate_stored` discards the `k mod 8`
bits up to the next byte boundary, reads the 16-bit fields `len` and
`nlen`, returns the nonzero error code exactly when
`len ^^^ nlen ≠ 0xFFFF`, and on success appends exactly the next `len`
stream bytes to the decoded output (flushing the window whenever the
write position reaches `WSIZE`) and returns 0. -/
theorem inflate_stored_spec (b k : Nat) (inp : List Nat)
    (st : InflateState) (hb : b < 2 ^ k) (hinp : ∀ x ∈ inp, x < 256)
    (hw : st.w < WSIZE) :
    ((inflate_stored b k inp st).1 ≠ 0 ↔
      storedLen b k inp ^^^ storedNlen b k inp ≠ 0xffff) ∧
    (storedLen b k inp ^^^ storedNlen b k inp = 0xffff →
      (inflate_stored b k inp st).1 = 0 ∧
      decoded (inflate_stored b k inp st).2.1 =
        decoded st ++ (List.range (storedLen b k inp)).map
          (fun i => byteAt (b >>> (k &&& 7)) (k - (k &&& 7)) inp (i + 4)) ∧
      (inflate_stored b k inp st).2.1.w < WSIZE) := by
  have hand7 : k &&& 7 = k % 8 := by
    have h7 : (7 : Nat) = 2 ^ 3 - 1 := by norm_num
    rw [h7, Nat.and_pow_two_sub_one_eq_mod]
  have hok₀ : ReaderOk (b >>> (k &&& 7)) (k - (k &&& 7)) inp := by
    refine ⟨by rw [hand7]; omega,
      shiftRight_lt_pow b k (k &&& 7) hb (by rw [hand7]; omega), hinp⟩
  obtain ⟨hok₁, hbytes₁⟩ :=
    need_bits_spec 16 (b >>> (k &&& 7)) (k - (k &&& 7)) inp hok₀
  have hk₁ := need_bits_done 16 (b >>> (k &&& 7)) (k - (k &&& 7)) inp
  obtain ⟨hkm₁, hb₁, hinp₁⟩ := hok₁
  set r₁ := need_bits 16 (b >>> (k &&& 7)) (k - (k &&& 7)) inp with hr₁
  have hlen : r₁.1 &&& 0xffff = storedLen b k inp := by
    rw [byteAt_low16 r₁.1 r₁.2.1 r₁.2.2 hk₁, hbytes₁ 0, hbytes₁ 1]
    rfl
  have hok_d₁ : ReaderOk (r₁.1 >>> 16) (r₁.2.1 - 16) r₁.2.2 :=
    ⟨by omega, shiftRight_lt_pow _ _ _ hb₁ (by omega), hinp₁⟩
  have hbytes_d₁ : ∀ i, byteAt (r₁.1 >>> 16) (r₁.2.1 - 16) r₁.2.2 i =
      byteAt (b >>> (k &&& 7)) (k - (k &&& 7)) inp (i + 2) := by
    intro i
    rw [byteAt_shift16 r₁.1 r₁.2.1 r₁.2.2 i hk₁ hkm₁, hbytes₁ (i + 2)]
  obtain ⟨hok₂, hbytes₂⟩ :=
    need_bits_spec 16 (r₁.1 >>> 16) (r₁.2.1 - 16) r₁.2.2 hok_d₁
  have hk₂ := need_bits_done 16 (r₁.1 >>> 16) (r₁.2.1 - 16) r₁.2.2
  obtain ⟨hkm₂, hb₂, hinp₂⟩ := hok₂
  set r₂ := need_bits 16 (r₁.1 >>> 16) (r₁.2.1 - 16) r₁.2.2 with hr₂
  have hnlen : r₂.1 &&& 0xffff = storedNlen b k inp := by
    rw [byteAt_low16 r₂.1 r₂.2.1 r₂.2.2 hk₂, hbytes₂ 0, hbytes₂ 1,
      hbytes_d₁ 0, hbytes_d₁ 1]
    rfl
  have hnot : not16 r₂.1 = storedNlen b k inp ^^^ 65535 := by
    rw [not16, ← and_0xffff, hnlen]
  have hcond : (r₁.1 &&& 0xffff = not16 r₂.1) ↔
      (storedLen b k inp ^^^ storedNlen b k inp = 65535) := by
    rw [hlen, hnot]
    exact eq_xor_iff_xor_eq _ _ _
  have hok_d₂ : ReaderOk (r₂.1 >>> 16) (r₂.2.1 - 16) r₂.2.2 :=
    ⟨by omega, shiftRight_lt_pow _ _ _ hb₂ (by omega), hinp₂⟩
  have hbytes_d₂ : ∀ i, byteAt (r₂.1 >>> 16) (r₂.2.1 - 16) r₂.2.2 i =
      byteAt (b >>> (k &&& 7)) (k - (k &&& 7)) inp (i + 4) := by
    intro i
    rw [byteAt_shift16 r₂.1 r₂.2.1 r₂.2.2 i hk₂ hkm₂, hbytes₂ (i + 2),
      hbytes_d₁ (i + 2)]
  have hbody : inflate_stored b k inp st =
      if r₁.1 &&& 0xffff ≠ not16 r₂.1 then (1, st, b, k, r₂.2.2)
      else
        (0, (storedCopyGo (r₁.1 &&& 0xffff) (r₂.1 >>> 16) (r₂.2.1 - 16)
          r₂.2.2 st).1,
          (storedCopyGo (r₁.1 &&& 0xffff) (r₂.1 >>> 16) (r₂.2.1 - 16)
          r₂.2.2 st).2) := rfl
  rw [hbody]
  by_cases hc : r₁.1 &&& 0xffff = not16 r₂.1
  · rw [if_neg (by simpa using hc)]
    have hL := hcond.mp hc
    obtain ⟨hdec, hw'⟩ := storedCopyGo_spec (r₁.1 &&& 0xffff)
      (r₂.1 >>> 16) (r₂.2.1 - 16) r₂.2.2 st hok_d₂ hw
    have hmap : (List.range (r₁.1 &&& 0xffff)).map
        (byteAt (r₂.1 >>> 16) (r₂.2.1 - 16) r₂.2.2) =
        (List.range (storedLen b k inp)).map
          (fun i => byteAt (b >>> (k &&& 7)) (k - (k &&& 7)) inp (i + 4)) := by
      rw [hlen]
      exact List.map_congr_left (fun j _ => hbytes_d₂ j)
    refine ⟨by simp [hL], fun _ => ⟨rfl, ?_, hw'⟩⟩
    rw [hdec, hmap]
  · rw [if_pos (by simpa using hc)]
    have hL : storedLen b k inp ^^^ storedNlen b k inp ≠ 65535 :=
      fun h => hc (hcond.mpr h)
    exact ⟨by simpa using hL, fun h => absurd h hL⟩

/-- Witness for C6: entry with 5 buffered bits (`k = 5`, as after a
3-bit block header at an unaligned position) that get discarded, then a
valid stored block `len = 1, nlen = 0xFFFE`, payload byte `0xAB`,
decoded from an empty window. -/
theorem inflate_stored_spec_witness :
    (5 : Nat) < 2 ^ 5 ∧ (∀ x ∈ [1, 0, 0xFE, 0xFF, 0xAB], x < 256) ∧
      (InflateState.mk (fun _ => 0) 0 []).w < WSIZE ∧
      (storedLen 5 5 [1, 0, 0xFE, 0xFF, 0xAB] ^^^
          storedNlen 5 5 [1, 0, 0xFE, 0xFF, 0xAB] = 0xffff ∧
        (inflate_stored 5 5 [1, 0, 0xFE, 0xFF, 0xAB]
          (InflateState.mk (fun _ => 0) 0 [])).1 = 0 ∧
        decoded (inflate_stored 5 5 [1, 0, 0xFE, 0xFF, 0xAB]
          (InflateState.mk (fun _ => 0) 0 [])).2.1 = [0xAB]) := by
  have hb : (5 : Nat) < 2 ^ 5 := by decide
  have hinp : ∀ x ∈ [1, 0, 0xFE, 0xFF, 0xAB], x < 256 := by decide
  have hw : (InflateState.mk (fun _ => 0) 0 []).w < WSIZE := by
    show 0 < WSIZE
    decide
  have hxor : storedLen 5 5 [1, 0, 0xFE, 0xFF, 0xAB] ^^^
      storedNlen 5 5 [1, 0, 0xFE, 0xFF, 0xAB] = 0xffff := by decide
  obtain ⟨_, hsuc⟩ := inflate_stored_spec 5 5 [1, 0, 0xFE, 0xFF, 0xAB]
    (InflateState.mk (fun _ => 0) 0 []) hb hinp hw
  obtain ⟨hret, hdec, _⟩ := hsuc hxor
  refine ⟨hb, hinp, hw, hxor, hret, ?_⟩
  rw [hdec]
  decide

/-! ## The copy-from-match loop of `inflate_codes`
(`src/inflate.rs`, lines 855-909)

```rust
d = /- line 857 -/ w as isize - n_base as isize - extra as isize;  // w - distance
while n > 0 {
    d = d & (WSIZE - 1) as isize;                    // two's-complement mask
    let mut e = WSIZE - (max(d, w as isize)) as usize;
    e = min(e, n);
    n -= e;
    if e <= if d < w as isize { (w as isize - d) as usize }
            else { (d - w as isize) as usize } {
        state.window.copy_within((d as usize)..(d as usize) + e, w);
        w += e;
        d += e as isize;
    } else {
        for _ in 0..e {
            state.window[w] = state.window[d as usize];
            w += 1; d += 1;
        }
    }
    if w == WSIZE { self.flush_output(state, w); w = 0; }
}
```
-/

/-- `window.copy_within(d..d+e, w)`: a simultaneous (memmove-style) copy
of `e` bytes from positions `d..d+e` to `w..w+e`, reading the original
contents. -/
def bulkCopy (win : Nat → Nat) (d w e : Nat) : Nat → Nat :=
  fun p => if w ≤ p ∧ p < w + e then win (d + (p - w)) else win p

/-- The byte-by-byte branch: `e` sequential single-byte copies, each
reading the current (possibly just-written) window. -/
def byteCopyGo : (Nat → Nat) → Nat → Nat → Nat → (Nat → Nat)
  | win, _, _, 0 => win
  | win, w, d, e + 1 => byteCopyGo (upd win w (win d)) (w + 1) (d + 1) e

/-- When the source range `[d, d+e)` and the destination range `[w, w+e)`
are disjoint — which the source's branch condition
`e <= |w - d|` guarantees — the sequential copy equals the simultaneous
one. -/
theorem byteCopyGo_eq_bulkCopy (e : Nat) :
    ∀ (win : Nat → Nat) (w d : Nat), (d + e ≤ w ∨ w + e ≤ d) →
      byteCopyGo win w d e = bulkCopy win d w e := by
  induction e with
  | zero =>
    intro win w d _
    funext p
    show win p = bulkCopy win d w 0 p
    unfold bulkCopy
    rw [if_neg (by omega)]
  | succ e ih =>
    intro win w d hdisj
    show byteCopyGo (upd win w (win d)) (w + 1) (d + 1) e = _
    rw [ih _ (w + 1) (d + 1) (by omega)]
    funext p
    simp only [bulkCopy, upd]
    by_cases h1 : w + 1 ≤ p ∧ p < w + 1 + e
    · rw [if_pos h1, if_neg (show ¬(d + 1 + (p - (w + 1)) = w) by omega),
        if_pos (show w ≤ p ∧ p < w + (e + 1) by omega)]
      congr 1
      omega
    · rw [if_neg h1]
      by_cases h2 : p = w
      · rw [if_pos h2, if_pos (show w ≤ p ∧ p < w + (e + 1) by omega)]
        subst h2
        congr 1
        omega
      · rw [if_neg h2, if_neg (show ¬(w ≤ p ∧ p < w + (e + 1)) by omega)]

/-- Modelled from the claim: write, for each of the `length` output
positions in order, the byte currently at `(position - distance)` modulo
the window. -/
def specCopyStep (dist : Nat) (st : InflateState) : InflateState :=
  putWindowByte st (st.win ((st.w + WSIZE - dist) % WSIZE))

/-- Modelled from the claim: `n` such writes in order. -/
def specCopy (dist : Nat) : Nat → InflateState → InflateState
  | 0, st => st
  | n + 1, st => specCopy dist n (specCopyStep dist st)

/-- `specCopy` splits into consecutive runs. -/
theorem specCopy_add (dist a b : Nat) :
    ∀ st, specCopy dist (a + b) st = specCopy dist b (specCopy dist a st) := by
  induction a with
  | zero =>
    intro st
    rw [Nat.zero_add]
    rfl
  | succ a ih =>
    intro st
    have h : a + 1 + b = (a + b) + 1 := by omega
    rw [h]
    show specCopy dist (a + b) (specCopyStep dist st) = _
    rw [ih (specCopyStep dist st)]
    rfl

/-- One chunk of the source loop — `e` consecutive byte copies starting
at window position `st.w` from masked source position `dm`, followed by
the flush test — performs exactly `e` spec steps. -/
theorem specCopy_chunk (dist e : Nat) :
    ∀ (st : InflateState) (dm : Nat), 1 ≤ dist → dist ≤ WSIZE →
      st.w < WSIZE → st.w + e ≤ WSIZE → dm + e ≤ WSIZE →
      dm % WSIZE = (st.w + WSIZE - dist) % WSIZE →
      specCopy dist e st =
        (if st.w + e = WSIZE
         then ⟨byteCopyGo st.win st.w dm e, 0,
               st.out ++ (List.range WSIZE).map (byteCopyGo st.win st.w dm e)⟩
         else ⟨byteCopyGo st.win st.w dm e, st.w + e, st.out⟩) := by
  induction e with
  | zero =>
    intro st dm _ _ hw _ _ _
    rw [if_neg (by omega)]
    rfl
  | succ e ih =>
    intro st dm hd1 hd2 hw hwe hde hcong
    have hW : WSIZE = 32768 := rfl
    have hdm : dm < WSIZE := by omega
    have hdm_eq : dm = (st.w + WSIZE - dist) % WSIZE := by
      rw [← Nat.mod_eq_of_lt hdm, hcong]
    have hread : st.win ((st.w + WSIZE - dist) % WSIZE) = st.win dm := by
      rw [← hdm_eq]
    show specCopy dist e (specCopyStep dist st) = _
    unfold specCopyStep
    rw [hread]
    unfold putWindowByte
    by_cases hflush : st.w + 1 = WSIZE
    · rw [if_pos hflush]
      have he0 : e = 0 := by omega
      subst he0
      rw [if_pos (show st.w + (0 + 1) = WSIZE by omega)]
      rfl
    · rw [if_neg hflush]
      have hcong' : (dm + 1) % WSIZE = (st.w + 1 + WSIZE - dist) % WSIZE := by
        clear hread
        rw [hW] at hcong hdm_eq hd2 ⊢
        omega
      have hrec := ih ⟨upd st.win st.w (st.win dm), st.w + 1, st.out⟩ (dm + 1)
        hd1 hd2 (show st.w + 1 < WSIZE by omega)
        (show st.w + 1 + e ≤ WSIZE by omega) (by omega) hcong'
      rw [hrec]
      have hbc : byteCopyGo (upd st.win st.w (st.win dm)) (st.w + 1) (dm + 1) e =
          byteCopyGo st.win st.w dm (e + 1) := rfl
      by_cases hend : st.w + 1 + e = WSIZE
      · rw [if_pos hend, if_pos (show st.w + (e + 1) = WSIZE by omega)]
        rw [hbc]
      · rw [if_neg hend, if_neg (show ¬(st.w + (e + 1) = WSIZE) by omega)]
        rw [hbc]
        have harith : st.w + 1 + e = st.w + (e + 1) := by omega
        rw [harith]

/-- `e = min(WSIZE - max(d, w), n)`: the size of one copy chunk. -/
def copyChunkLen (dm w n : Nat) : Nat := min (WSIZE - max dm w) n

/-- The window after one chunk: the bulk branch
(`copy_within(d..d+e, w)`) when `e ≤ |w - d|`, the byte-by-byte branch
otherwise. -/
def copyChunkWin (win : Nat → Nat) (dm w e : Nat) : Nat → Nat :=
  if e ≤ (if dm < w then w - dm else dm - w)
  then bulkCopy win dm w e
  else byteCopyGo win w dm e

/-- The full state after one chunk, including the `w == WSIZE` flush. -/
def copyChunkState (st : InflateState) (dm e : Nat) : InflateState :=
  if st.w + e = WSIZE
  then ⟨copyChunkWin st.win dm st.w e, 0,
        st.out ++ (List.range WSIZE).map (copyChunkWin st.win dm st.w e)⟩
  else ⟨copyChunkWin st.win dm st.w e, st.w + e, st.out⟩

/-- The `while n > 0` copy loop of `inflate_codes`.  `d` is the signed
source cursor (`w - distance` initially, possibly negative); each
iteration masks it with `WSIZE - 1` (two's-complement AND = `emod`),
copies a chunk and flushes at `WSIZE`.  The `e = 0` early exit is
unreachable while `w < WSIZE` and only guards termination. -/
def inflate_codes_copy (n : Nat) (d : Int) (st : InflateState) :
    InflateState :=
  if hn : n = 0 then st
  else
    if he : copyChunkLen ((d.emod WSIZE).toNat) st.w n = 0 then st
    else
      inflate_codes_copy (n - copyChunkLen ((d.emod WSIZE).toNat) st.w n)
        (((d.emod WSIZE).toNat : Int) +
          (copyChunkLen ((d.emod WSIZE).toNat) st.w n : Int))
        (copyChunkState st ((d.emod WSIZE).toNat)
          (copyChunkLen ((d.emod WSIZE).toNat) st.w n))
termination_by n
decreasing_by omega

/-- Whether bulk or byte-by-byte, a chunk writes the same bytes: the
branch condition `e ≤ |w - dm|` makes the two ranges disjoint. -/
theorem copyChunkWin_eq_byte (win : Nat → Nat) (dm w e : Nat) :
    copyChunkWin win dm w e = byteCopyGo win w dm e := by
  unfold copyChunkWin
  by_cases hdw : dm < w
  · rw [if_pos hdw]
    by_cases hc : e ≤ w - dm
    · rw [if_pos hc, byteCopyGo_eq_bulkCopy e win w dm (by omega)]
    · rw [if_neg hc]
  · rw [if_neg hdw]
    by_cases hc : e ≤ dm - w
    · rw [if_pos hc, byteCopyGo_eq_bulkCopy e win w dm (by omega)]
    · rw [if_neg hc]

/-- Advancing the masked source cursor by a chunk keeps it congruent to
`w - dist` modulo the window size. -/
theorem cursor_cong (dmv ev wv wv' dist : Nat)
    (hd : dmv = (wv + 32768 - dist) % 32768)
    (h2 : dist ≤ 32768)
    (hw' : wv' % 32768 = (wv + ev) % 32768) :
    (dmv + ev) % 32768 = (wv' + 32768 - dist) % 32768 := by
  omega

/-- The copy loop of `inflate_codes`, started from any source cursor
congruent to `w - dist` modulo `WSIZE`, equals `n` spec steps. -/
theorem inflate_codes_copy_spec (dist : Nat) (n : Nat) :
    ∀ (d : Int) (st : InflateState),
      1 ≤ dist → dist ≤ WSIZE → st.w < WSIZE →
      (d.emod WSIZE).toNat = (st.w + WSIZE - dist) % WSIZE →
      inflate_codes_copy n d st = specCopy dist n st := by
  induction n using Nat.strong_induction_on with
  | _ n ih =>
    intro d st h1 h2 hw hd
    have hW : WSIZE = 32768 := rfl
    rw [inflate_codes_copy]
    by_cases hn : n = 0
    · rw [dif_pos hn]
      subst hn
      rfl
    · rw [dif_neg hn]
      have hdm_lt : (d.emod WSIZE).toNat < WSIZE := by
        rw [hd, hW]
        omega
      have he_pos : ¬ copyChunkLen ((d.emod WSIZE).toNat) st.w n = 0 := by
        unfold copyChunkLen
        omega
      rw [dif_neg he_pos]
      have hwe : st.w + copyChunkLen ((d.emod WSIZE).toNat) st.w n ≤ WSIZE := by
        unfold copyChunkLen
        omega
      have hde : (d.emod WSIZE).toNat +
          copyChunkLen ((d.emod WSIZE).toNat) st.w n ≤ WSIZE := by
        unfold copyChunkLen
        omega
      have hen : copyChunkLen ((d.emod WSIZE).toNat) st.w n ≤ n := by
        unfold copyChunkLen
        omega
      have hchunk := specCopy_chunk dist
        (copyChunkLen ((d.emod WSIZE).toNat) st.w n) st
        ((d.emod WSIZE).toNat) h1 h2 hw hwe hde
        (by rw [Nat.mod_eq_of_lt hdm_lt, hd])
      have hstate : copyChunkState st ((d.emod WSIZE).toNat)
          (copyChunkLen ((d.emod WSIZE).toNat) st.w n) =
          specCopy dist (copyChunkLen ((d.emod WSIZE).toNat) st.w n) st := by
        unfold copyChunkState
        rw [copyChunkWin_eq_byte]
        exact hchunk.symm
      have hw' : (copyChunkState st ((d.emod WSIZE).toNat)
          (copyChunkLen ((d.emod WSIZE).toNat) st.w n)).w < WSIZE := by
        unfold copyChunkState
        split
        · show 0 < WSIZE
          omega
        · next hne =>
          show st.w + _ < WSIZE
          omega
      have hcast : (((d.emod WSIZE).toNat : Int) +
          (copyChunkLen ((d.emod WSIZE).toNat) st.w n : Int)).emod WSIZE =
          (((d.emod WSIZE).toNat + copyChunkLen ((d.emod WSIZE).toNat) st.w n)
            % WSIZE : Nat) := by
        push_cast
        rfl
      have hd' : ((((d.emod WSIZE).toNat : Int) +
          (copyChunkLen ((d.emod WSIZE).toNat) st.w n : Int)).emod WSIZE).toNat =
          ((copyChunkState st ((d.emod WSIZE).toNat)
            (copyChunkLen ((d.emod WSIZE).toNat) st.w n)).w + WSIZE - dist)
            % WSIZE := by
        rw [hcast, Int.toNat_natCast]
        unfold copyChunkState
        split
        · next hfl =>
          show _ = (0 + WSIZE - dist) % WSIZE
          rw [hW] at hd h2 hfl ⊢
          exact cursor_cong _ _ _ _ _ hd h2 (by omega)
        · next hfl =>
          show _ = (st.w + copyChunkLen ((d.emod WSIZE).toNat) st.w n
            + WSIZE - dist) % WSIZE
          rw [hW] at hd h2 ⊢
          exact cursor_cong _ _ _ _ _ hd h2 rfl
      rw [ih (n - copyChunkLen ((d.emod WSIZE).toNat) st.w n) (by omega)
        _ _ h1 h2 hw' hd']
      rw [hstate]
      have hn' : copyChunkLen ((d.emod WSIZE).toNat) st.w n +
          (n - copyChunkLen ((d.emod WSIZE).toNat) st.w n) = n := by omega
      rw [← specCopy_add dist (copyChunkLen ((d.emod WSIZE).toNat) st.w n)
        (n - copyChunkLen ((d.emod WSIZE).toNat) st.w n) st, hn']

/-- **C5**: starting from `d = w - distance` (two's-complement-masked to
`(w - distance) & (WSIZE-1)` at each iteration), the copy loop of
`inflate_codes` writes, for each of the `length` output positions in
order, the byte currently at `(position - distance)` modulo the window —
whether the bulk-copy branch or the byte-by-byte branch is taken — so
self-overlapping runs with `distance < length` replicate correctly. -/
theorem inflate_codes_copy_match (dist n : Nat) (st : InflateState)
    (hw : st.w < WSIZE) (h1 : 1 ≤ dist) (h2 : dist ≤ WSIZE) :
    inflate_codes_copy n ((st.w : Int) - dist) st = specCopy dist n st := by
  apply inflate_codes_copy_spec dist n _ st h1 h2 hw
  have hmodeq : ∀ a b : Int, a.emod b = a % b := fun _ _ => rfl
  have hle : dist ≤ st.w + WSIZE := by omega
  have hcast : (st.w : Int) - dist =
      ((st.w + WSIZE - dist : Nat) : Int) - (WSIZE : Int) := by
    push_cast [hle]
    ring
  have hsub : ∀ a b : Int, (a - b) % b = a % b := by
    intro a b
    have h := Int.add_mul_emod_self_left a b (-1)
    rwa [show a + b * (-1) = a - b from by ring] at h
  rw [hmodeq, hcast, hsub, ← Int.natCast_mod, Int.toNat_natCast]

/-- A window whose byte 0 is 7, write position 1: input for the C5
witness. -/
def stA : InflateState := ⟨fun i => if i = 0 then 7 else 0, 1, []⟩

/-- Witness for C5: `distance = 1 < length = 3` — the self-overlapping
RLE case — replicates window byte 0 into positions 1, 2, 3. -/
theorem inflate_codes_copy_match_witness :
    (stA.w < WSIZE ∧ 1 ≤ 1 ∧ 1 ≤ WSIZE) ∧
      inflate_codes_copy 3 ((stA.w : Int) - 1) stA = specCopy 1 3 stA ∧
      (specCopy 1 3 stA).win 1 = 7 ∧ (specCopy 1 3 stA).win 2 = 7 ∧
      (specCopy 1 3 stA).win 3 = 7 :=
  ⟨⟨by decide, by decide, by decide⟩,
    inflate_codes_copy_match 1 3 stA (by decide) (by decide) (by decide),
    by decide, by decide, by decide⟩

/-! ## `build_tree` and `gen_bitlen` (`src/trees.rs`, lines 898-1038 and
1066-1219)

The tree columns (`freq`, `len`, `dad`), the `heap` and `depth` arrays
and `bl_count` are modelled as functions; `opt_len`/`static_len` are
`u64` values updated modulo `2^64`; `max_code`, `bl_count` entries and
`overflow` are signed (`i32`).  Loops are bounded by explicit fuel that
matches (or exceeds) the number of iterations the source can perform;
`Option` results mark runs on which the source panics (index underflow)
or reads heap slots this call never wrote (stale data from a previous
call) — on such runs there is no well-defined "after `build_tree`"
state.  The trailing `gen_codes` call writes only the `code` column
(modelled separately above) and touches neither `len` nor `opt_len`, so
it is omitted here. -/

/-- `HEAP_SIZE = 2 * L_CODES + 1 = 573` (`src/trees.rs`). -/
def HEAP_SIZE : Nat := 573

/-- `SMALLEST = 1` (`src/trees.rs`). -/
def SMALLEST : Nat := 1

/-- `EXTRA_LBITS` (`src/trees.rs`). -/
def EXTRA_LBITS : List Nat :=
  [0, 0, 0, 0, 0, 0, 0, 0] ++ [1, 1, 1, 1] ++ [2, 2, 2, 2] ++
    [3, 3, 3, 3] ++ [4, 4, 4, 4] ++ [5, 5, 5, 5] ++ [0]

/-- `EXTRA_DBITS` (`src/trees.rs`). -/
def EXTRA_DBITS : List Nat :=
  [0, 0, 0, 0, 1, 1] ++ [2, 2, 3, 3, 4, 4] ++ [5, 5, 6, 6, 7, 7] ++
    [8, 8, 9, 9, 10, 10] ++ [11, 11, 12, 12, 13, 13]

/-- `EXTRA_BLBITS` (`src/trees.rs`). -/
def EXTRA_BLBITS : List Nat :=
  [0, 0, 0, 0, 0, 0, 0, 0] ++ [0, 0, 0, 0, 0, 0, 0, 0] ++ [2, 3, 7]

/-- The static literal tree's `len` column as set up by `ct_init`
(`src/trees.rs`, lines 281-301). -/
def static_ltree_len (n : Nat) : Nat :=
  if n ≤ 143 then 8 else if n ≤ 255 then 9 else if n ≤ 279 then 7
  else if n ≤ 287 then 8 else 0

/-- Per-tree parameters (`TreeDesc` fields plus the static tree). -/
structure TreeParams where
  elems : Nat
  maxLength : Nat
  extraBase : Nat
  extraBits : Nat → Nat
  staticLen : Nat → Nat

/-- The `l_desc` parameters (`src/trees.rs`, lines 158-167). -/
def ltreeParams : TreeParams where
  elems := 286
  maxLength := 15
  extraBase := 257
  extraBits := fun i => EXTRA_LBITS.getD i 0
  staticLen := static_ltree_len

/-- The mutable state touched by `build_tree`/`gen_bitlen`. -/
structure BuildState where
  freq : Nat → Nat
  len : Nat → Nat
  dad : Nat → Nat
  heap : Nat → Nat
  depth : Nat → Nat
  heap_len : Nat
  heap_max : Nat
  max_code : Int
  opt_len : Nat
  static_len : Nat
  bl_count : Nat → Int
  overflow : Int

/-- A wrapping `u64` addition of a signed delta. -/
def addMod64 (x : Nat) (d : Int) : Nat :=
  (((x : Int) + d).emod (2 ^ 64)).toNat

/-- Pointwise update of an `i32`-valued array. -/
def updZ (f : Nat → Int) (i : Nat) (v : Int) : Nat → Int :=
  fun j => if j = i then v else f j

/-- One step of the initial scan (`src/trees.rs`, lines 915-936): push
nonzero-frequency leaves onto the heap, zero the length of the rest. -/
def scanStep (s : BuildState) (n : Nat) : BuildState :=
  if s.freq n ≠ 0 then
    { s with
      heap_len := s.heap_len + 1, max_code := (n : Int),
      heap := upd s.heap (s.heap_len + 1) n, depth := upd s.depth n 0 }
  else
    { s with len := upd s.len n 0 }

/-- The `while heap_len < 2` synthesis loop (`src/trees.rs`, lines
939-968); at most two iterations, so fuel 2 is exact. -/
def synthStep (P : TreeParams) (isBL : Bool) (s : BuildState) : BuildState :=
  let newNode : Nat := if s.max_code < 2 then (s.max_code + 1).toNat else 0
  { s with
    max_code := if s.max_code < 2 then s.max_code + 1 else s.max_code,
    heap_len := s.heap_len + 1,
    heap := upd s.heap (s.heap_len + 1) newNode,
    freq := upd s.freq newNode 1,
    depth := upd s.depth newNode 0,
    opt_len := addMod64 s.opt_len (-1),
    static_len := if isBL then s.static_len
      else addMod64 s.static_len (-(P.staticLen newNode : Int)) }

/-- The synthesis loop with fuel. -/
def synthLoop (P : TreeParams) (isBL : Bool) : Nat → BuildState → BuildState
  | 0, s => s
  | f + 1, s =>
      if s.heap_len < 2 then synthLoop P isBL f (synthStep P isBL s) else s

/-- `smaller(tree, n, m)` (`src/trees.rs`, lines 1310-1318). -/
def smaller (freq depth : Nat → Nat) (n m : Nat) : Bool :=
  decide (freq n < freq m ∨ (freq n = freq m ∧ depth n ≤ depth m))

/-- The `while j <= heap_len` loop of `pq_down_heap` (`src/trees.rs`,
lines 1287-1306).  `j` doubles each pass, so `heapLen + 1` units of fuel
always outlast the loop; fuel exhaustion exits exactly like the loop's
own exit (writing `heap[k] = v`). -/
def pqDownHeapGo (freq depth : Nat → Nat) (heapLen : Nat) :
    Nat → (Nat → Nat) → Nat → Nat → Nat → (Nat → Nat)
  | 0, heap, k, _, v => upd heap k v
  | fuel + 1, heap, k, j, v =>
      if j ≤ heapLen then
        let j' := if j < heapLen ∧ smaller freq depth (heap (j + 1)) (heap j)
          then j + 1 else j
        if smaller freq depth v (heap j') then upd heap k v
        else pqDownHeapGo freq depth heapLen fuel
          (upd heap k (heap j')) j' (2 * j') v
      else upd heap k v

/-- `pq_down_heap(k)`. -/
def pq_down_heap (freq depth : Nat → Nat) (heapLen : Nat)
    (heap : Nat → Nat) (k : Nat) : Nat → Nat :=
  pqDownHeapGo freq depth heapLen (heapLen + 1) heap k (2 * k) (heap k)

/-- `pq_remove` (`src/trees.rs`, lines 1044-1056): returns the top and
the updated state. -/
def pq_remove (s : BuildState) : Nat × BuildState :=
  (s.heap SMALLEST,
    { s with
      heap := pq_down_heap s.freq s.depth (s.heap_len - 1)
        (upd s.heap SMALLEST (s.heap s.heap_len)) SMALLEST,
      heap_len := s.heap_len - 1 })

/-- The initial heapify loop (`for n in (1..=heap_len/2).rev()`). -/
def buildHeapLoop : BuildState → List Nat → BuildState
  | s, [] => s
  | s, k :: r =>
      buildHeapLoop
        { s with heap := pq_down_heap s.freq s.depth s.heap_len s.heap k } r

/-- One iteration of the Huffman combination loop (`src/trees.rs`,
lines 985-1028). -/
def combineStep (s : BuildState) (node : Nat) : BuildState × Nat :=
  let p := pq_remove s
  let n := p.1
  let s₁ := p.2
  let m := s₁.heap SMALLEST
  let s₂ := { s₁ with
              heap_max := s₁.heap_max - 1,
              heap := upd s₁.heap (s₁.heap_max - 1) n }
  let s₃ := { s₂ with
              heap_max := s₂.heap_max - 1,
              heap := upd s₂.heap (s₂.heap_max - 1) m }
  let s₄ := { s₃ with
    freq := upd s₃.freq node ((s₃.freq n + s₃.freq m) % 65536),
    dad := upd (upd s₃.dad n node) m node,
    depth := upd s₃.depth node (max (s₃.depth n) (s₃.depth m) + 1) }
  let s₅ := { s₄ with heap := upd s₄.heap SMALLEST node }
  ({ s₅ with heap := pq_down_heap s₅.freq s₅.depth s₅.heap_len s₅.heap SMALLEST },
    node + 1)

/-- The `while heap_len >= 2` loop; `heap_len` drops by one per
iteration, so the entry `heap_len` is enough fuel. -/
def combineLoop : Nat → BuildState → Nat → BuildState × Nat
  | 0, s, node => (s, node)
  | f + 1, s, node =>
      if 2 ≤ s.heap_len then
        let p := combineStep s node
        combineLoop f p.1 p.2
      else (s, node)

/-- One step of the first `gen_bitlen` pass (`src/trees.rs`, lines
1091-1152), processing heap position `h`. -/
def pass1Step (P : TreeParams) (isBL : Bool) (maxCode : Int)
    (s : BuildState) (h : Nat) : BuildState :=
  let n := s.heap h
  let bits0 := s.len (s.dad n) + 1
  let clamp : Bool := decide (P.maxLength < bits0)
  let bits := if clamp then P.maxLength else bits0
  let s₁ := { s with
              len := upd s.len n bits,
              overflow := if clamp then s.overflow + 1 else s.overflow }
  if maxCode < (n : Int) then s₁
  else
    let xbits := if P.extraBase ≤ n then P.extraBits (n - P.extraBase) else 0
    let f := s.freq n
    { s₁ with
      bl_count := updZ s₁.bl_count bits (s₁.bl_count bits + 1),
      opt_len := addMod64 s₁.opt_len ((f * (bits + xbits) : Nat) : Int),
      static_len := if isBL then s₁.static_len
        else addMod64 s₁.static_len ((f * (P.staticLen n + xbits) : Nat) : Int) }

/-- `bits = max_length - 1; while bl_count[bits] == 0 { bits -= 1 }`:
`none` models the `usize` underflow panic when every bucket is empty. -/
def findBits (blc : Nat → Int) : Nat → Nat → Option Nat
  | 0, _ => none
  | f + 1, bits =>
      if blc bits = 0 then
        if bits = 0 then none else findBits blc f (bits - 1)
      else some bits

/-- The overflow-repair loop (`src/trees.rs`, lines 1164-1177); each
pass lowers `overflow` by 2, so `overflow.toNat` passes suffice. -/
def adjustLoop (maxLength : Nat) : Nat → (Nat → Int) → Int →
    Option (Nat → Int)
  | 0, _, _ => none
  | f + 1, blc, ov =>
      match findBits blc maxLength (maxLength - 1) with
      | none => none
      | some bits =>
          let b1 := updZ blc bits (blc bits - 1)
          let b2 := updZ b1 (bits + 1) (b1 (bits + 1) + 2)
          let b3 := updZ b2 maxLength (b2 maxLength - 1)
          if ov - 2 ≤ 0 then some b3 else adjustLoop maxLength f b3 (ov - 2)

/-- The inner `while n > 0` loop of the second `gen_bitlen` pass
(`src/trees.rs`, lines 1182-1218).  `h` drops by one per pass ( fuel);
`none` when `h` would reach a heap slot this call never wrote
(`h ≤ heapMin`, covering also the `h -= 1` underflow at 0): the source
would read stale data from a previous call there. -/
def pass2Inner (freq heap : Nat → Nat) (maxCode : Int)
    (heapMin bits : Nat) :
    Nat → Int → (Nat → Nat) → Nat → Nat →
    Option ((Nat → Nat) × Nat × Nat)
  | 0, n, len, opt, h => if n ≤ 0 then some (len, opt, h) else none
  | f + 1, n, len, opt, h =>
      if n ≤ 0 then some (len, opt, h)
      else if h ≤ heapMin then none
      else
        let m := heap (h - 1)
        if maxCode < (m : Int) then
          pass2Inner freq heap maxCode heapMin bits f n len opt (h - 1)
        else if len m ≠ bits then
          pass2Inner freq heap maxCode heapMin bits f (n - 1)
            (upd len m bits)
            (addMod64 opt (((bits : Int) - (len m : Int)) * (freq m : Int)))
            (h - 1)
        else
          pass2Inner freq heap maxCode heapMin bits f (n - 1) len opt (h - 1)

/-- The outer `for bits in (1..=max_length).rev()` loop of the second
pass. -/
def pass2Outer (freq heap : Nat → Nat) (maxCode : Int) (heapMin : Nat)
    (blc : Nat → Int) :
    List Nat → (Nat → Nat) → Nat → Nat →
    Option ((Nat → Nat) × Nat × Nat)
  | [], len, opt, h => some (len, opt, h)
  | bits :: rest, len, opt, h =>
      match pass2Inner freq heap maxCode heapMin bits h (blc bits) len opt h with
      | none => none
      | some r => pass2Outer freq heap maxCode heapMin blc rest r.1 r.2.1 r.2.2

/-- `gen_bitlen` (`src/trees.rs`, lines 1066-1219). -/
def gen_bitlen (P : TreeParams) (isBL : Bool) (maxCode : Int)
    (s : BuildState) : Option BuildState :=
  let s₀ := { s with bl_count := fun _ => 0, overflow := 0 }
  let s₁ := { s₀ with len := upd s₀.len (s₀.heap s₀.heap_max) 0 }
  let s₂ := (List.range' (s₁.heap_max + 1) (HEAP_SIZE - s₁.heap_max - 1)).foldl
    (pass1Step P isBL maxCode) s₁
  if s₂.overflow = 0 then some s₂
  else
    match adjustLoop P.maxLength s₂.overflow.toNat s₂.bl_count s₂.overflow with
    | none => none
    | some blc' =>
        match pass2Outer s₂.freq s₂.heap maxCode s₂.heap_max blc'
          ((List.range' 1 P.maxLength).reverse) s₂.len s₂.opt_len HEAP_SIZE with
        | none => none
        | some r =>
            some { s₂ with len := r.1, opt_len := r.2.1, bl_count := blc' }

/-- `build_tree` (`src/trees.rs`, lines 898-1038), minus the trailing
`gen_codes` call (which writes only the `code` column). -/
def build_tree (P : TreeParams) (isBL : Bool) (s : BuildState) :
    Option BuildState :=
  let s₁ := { s with heap_len := 0, heap_max := HEAP_SIZE, max_code := -1 }
  let s₂ := (List.range P.elems).foldl scanStep s₁
  let s₃ := synthLoop P isBL 2 s₂
  let s₄ := buildHeapLoop s₃ ((List.range' 1 (s₃.heap_len / 2)).reverse)
  let r := combineLoop s₄.heap_len s₄ P.elems
  let s₅ := r.1
  let s₆ := { s₅ with
              heap_max := s₅.heap_max - 1,
              heap := upd s₅.heap (s₅.heap_max - 1) (s₅.heap SMALLEST) }
  gen_bitlen P isBL s₆.max_code s₆

/-! ### Helper lemmas for the `build_tree` development -/

theorem upd_self (f : Nat → Nat) (i v : Nat) : upd f i v i = v := by
  simp [upd]

theorem upd_other (f : Nat → Nat) (i v j : Nat) (h : j ≠ i) :
    upd f i v j = f j := by
  simp [upd, h]

theorem upd_id (f : Nat → Nat) (i : Nat) : upd f i (f i) = f := by
  funext j
  by_cases h : j = i
  · simp [upd, h]
  · simp [upd, h]

theorem addMod64_lt (x : Nat) (d : Int) : addMod64 x d < 2 ^ 64 := by
  unfold addMod64
  have hM : ((2 : Int) ^ 64) = 18446744073709551616 := by norm_num
  have hN : ((2 : Nat) ^ 64) = 18446744073709551616 := by norm_num
  rw [hM, hN]
  have he : ∀ a b : Int, Int.emod a b = a % b := fun _ _ => rfl
  simp only [he]
  omega

theorem addMod64_zero (x : Nat) (hx : x < 2 ^ 64) : addMod64 x 0 = x := by
  unfold addMod64
  have hM : ((2 : Int) ^ 64) = 18446744073709551616 := by norm_num
  have hN : ((2 : Nat) ^ 64) = 18446744073709551616 := by norm_num
  rw [hM]
  rw [hN] at hx
  have he : ∀ a b : Int, Int.emod a b = a % b := fun _ _ => rfl
  simp only [he]
  omega

theorem addMod64_addMod64 (x : Nat) (d₁ d₂ : Int) :
    addMod64 (addMod64 x d₁) d₂ = addMod64 x (d₁ + d₂) := by
  unfold addMod64
  have hM : ((2 : Int) ^ 64) = 18446744073709551616 := by norm_num
  rw [hM]
  have he : ∀ a b : Int, Int.emod a b = a % b := fun _ _ => rfl
  simp only [he]
  omega

/-- The multiset of values of `f` at a list of positions. -/
def msOf (f : Nat → Nat) (l : List Nat) : Multiset Nat := (l.map f : List Nat)

theorem msOf_cons (f : Nat → Nat) (a : Nat) (l : List Nat) :
    msOf f (a :: l) = f a ::ₘ msOf f l := rfl

theorem msOf_append (f : Nat → Nat) (l₁ l₂ : List Nat) :
    msOf f (l₁ ++ l₂) = msOf f l₁ + msOf f l₂ := by
  simp [msOf]

theorem msOf_congr (f g : Nat → Nat) (l : List Nat)
    (h : ∀ p ∈ l, f p = g p) : msOf f l = msOf g l := by
  unfold msOf
  rw [List.map_congr_left h]

theorem msOf_upd_not_mem (f : Nat → Nat) (i v : Nat) (l : List Nat)
    (h : i ∉ l) : msOf (upd f i v) l = msOf f l :=
  msOf_congr _ _ _ (fun p hp => upd_other f i v p (fun e => h (e ▸ hp)))

theorem msOf_upd (f : Nat → Nat) (i v : Nat) (l : List Nat)
    (hnd : l.Nodup) (hm : i ∈ l) :
    msOf (upd f i v) l + {f i} = msOf f l + {v} := by
  induction l with
  | nil => cases hm
  | cons a l ih =>
      rcases List.mem_cons.mp hm with rfl | ha
      · have hnl : i ∉ l := (List.nodup_cons.mp hnd).1
        rw [msOf_cons, msOf_cons, msOf_upd_not_mem f i v l hnl, upd_self]
        rw [← Multiset.singleton_add, ← Multiset.singleton_add]
        ac_rfl
      · have hne : a ≠ i := by
          intro e
          exact (List.nodup_cons.mp hnd).1 (e ▸ ha)
        have := ih (List.nodup_cons.mp hnd).2 ha
        rw [msOf_cons, msOf_cons, upd_other f i v a hne]
        rw [← Multiset.singleton_add, ← Multiset.singleton_add, add_assoc,
          add_assoc]
        rw [add_comm (msOf (upd f i v) l) {f i},
          add_comm (msOf f l) {v}] at this ⊢
        rw [this]

/-- Positions above `heapLen` are untouched by the `pq_down_heap` loop. -/
theorem pqDownHeapGo_outside (freq depth : Nat → Nat) (heapLen v : Nat) :
    ∀ fuel heap k j p, k ≤ heapLen → heapLen < p →
      pqDownHeapGo freq depth heapLen fuel heap k j v p = heap p := by
  intro fuel
  induction fuel with
  | zero =>
      intro heap k j p hk hp
      exact upd_other heap k v p (by omega)
  | succ f ih =>
      intro heap k j p hk hp
      unfold pqDownHeapGo
      by_cases hj : j ≤ heapLen
      · rw [if_pos hj]
        by_cases hsm : smaller freq depth v
            ((heap (if j < heapLen ∧ smaller freq depth (heap (j + 1)) (heap j)
              then j + 1 else j)) ) = true
        · rw [if_pos hsm]
          exact upd_other heap k v p (by omega)
        · rw [if_neg hsm]
          have hj' : (if j < heapLen ∧ smaller freq depth (heap (j + 1)) (heap j)
              then j + 1 else j) ≤ heapLen := by
            split
            · omega
            · exact hj
          rw [ih _ _ _ p hj' hp]
          exact upd_other _ _ _ p (by omega)
      · rw [if_neg hj]
        exact upd_other heap k v p (by omega)

/-- The `pq_down_heap` loop permutes the heap slots `1..heapLen`:
as a multiset they are those of the heap with `v` written at `k`. -/
theorem pqDownHeapGo_ms (freq depth : Nat → Nat) (heapLen v : Nat) :
    ∀ fuel heap k j, 1 ≤ k → k ≤ heapLen → k < j →
      msOf (pqDownHeapGo freq depth heapLen fuel heap k j v)
          (List.range' 1 heapLen) =
        msOf (upd heap k v) (List.range' 1 heapLen) := by
  intro fuel
  induction fuel with
  | zero => intro heap k j hk1 hk hj; rfl
  | succ f ih =>
      intro heap k j hk1 hk hj
      unfold pqDownHeapGo
      by_cases hjl : j ≤ heapLen
      · rw [if_pos hjl]
        set j' := if j < heapLen ∧ smaller freq depth (heap (j + 1)) (heap j)
          then j + 1 else j with hjdef2
        by_cases hsm : smaller freq depth v (heap j') = true
        · rw [if_pos hsm]
        · rw [if_neg hsm]
          have hj'le : j' ≤ heapLen := by
            rw [hjdef2]; split
            · omega
            · exact hjl
          have hj'k : k < j' := by
            rw [hjdef2]; split
            · omega
            · exact hj
          have hrec := ih (upd heap k (heap j')) j' (2 * j') (by omega) hj'le
            (by omega)
          rw [hrec]
          -- multiset bookkeeping: moving `heap j'` to slot `k` and `v` to
          -- slot `j'` equals writing `v` at `k`, up to permutation
          have hndr : (List.range' 1 heapLen).Nodup := by
            exact List.nodup_range' 1 heapLen
          have hkm : k ∈ List.range' 1 heapLen := by
            rw [List.mem_range'_1]; omega
          have hj'm : j' ∈ List.range' 1 heapLen := by
            rw [List.mem_range'_1]; omega
          have e1 := msOf_upd (upd heap k (heap j')) j' v
            (List.range' 1 heapLen) hndr hj'm
          have e2 := msOf_upd heap k (heap j') (List.range' 1 heapLen) hndr hkm
          have e3 := msOf_upd heap k v (List.range' 1 heapLen) hndr hkm
          have hval : upd heap k (heap j') j' = heap j' :=
            upd_other heap k (heap j') j' (by omega)
          rw [hval] at e1
          have : msOf (upd (upd heap k (heap j')) j' v) (List.range' 1 heapLen)
              + {heap j'} + {heap k}
              = msOf (upd heap k v) (List.range' 1 heapLen)
              + {heap j'} + {heap k} := by
            calc msOf (upd (upd heap k (heap j')) j' v) (List.range' 1 heapLen)
                  + {heap j'} + {heap k}
                = msOf (upd heap k (heap j')) (List.range' 1 heapLen) + {v}
                  + {heap k} := by rw [e1]
              _ = msOf (upd heap k (heap j')) (List.range' 1 heapLen)
                  + {heap k} + {v} := by ac_rfl
              _ = msOf heap (List.range' 1 heapLen) + {heap j'} + {v} := by
                  rw [e2]
              _ = msOf heap (List.range' 1 heapLen) + {v} + {heap j'} := by
                  ac_rfl
              _ = msOf (upd heap k v) (List.range' 1 heapLen) + {heap k}
                  + {heap j'} := by rw [← e3]
              _ = msOf (upd heap k v) (List.range' 1 heapLen) + {heap j'}
                  + {heap k} := by ac_rfl
          exact add_right_cancel (add_right_cancel this)
      · rw [if_neg hjl]

theorem pq_down_heap_ms (freq depth : Nat → Nat) (heapLen : Nat)
    (heap : Nat → Nat) (k : Nat) (hk1 : 1 ≤ k) (hk : k ≤ heapLen) :
    msOf (pq_down_heap freq depth heapLen heap k) (List.range' 1 heapLen) =
      msOf heap (List.range' 1 heapLen) := by
  unfold pq_down_heap
  rw [pqDownHeapGo_ms freq depth heapLen (heap k) (heapLen + 1) heap k (2 * k)
    hk1 hk (by omega), upd_id]

theorem pq_down_heap_outside (freq depth : Nat → Nat) (heapLen : Nat)
    (heap : Nat → Nat) (k p : Nat) (hk : k ≤ heapLen) (hp : heapLen < p) :
    pq_down_heap freq depth heapLen heap k p = heap p :=
  pqDownHeapGo_outside freq depth heapLen (heap k) (heapLen + 1) heap k
    (2 * k) p hk hp

/-- The nonzero-frequency symbols below `e`, in increasing order: the
leaves `build_tree` pushes onto the heap during its initial scan. -/
def leaves (freq : Nat → Nat) (e : Nat) : List Nat :=
  (List.range e).filter (fun n => freq n != 0)

theorem scanStep_freq (t : BuildState) (a : Nat) :
    (scanStep t a).freq = t.freq := by
  unfold scanStep; split <;> rfl

theorem scan_freq : ∀ (l : List Nat) (t : BuildState),
    (l.foldl scanStep t).freq = t.freq := by
  intro l
  induction l with
  | nil => intro t; rfl
  | cons a l ih =>
      intro t
      rw [List.foldl_cons, ih, scanStep_freq]

theorem scan_fields : ∀ (l : List Nat) (t : BuildState),
    (l.foldl scanStep t).heap_max = t.heap_max ∧
    (l.foldl scanStep t).opt_len = t.opt_len ∧
    (l.foldl scanStep t).static_len = t.static_len := by
  intro l
  induction l with
  | nil => intro t; exact ⟨rfl, rfl, rfl⟩
  | cons a l ih =>
      intro t
      rw [List.foldl_cons]
      have h := ih (scanStep t a)
      have ha : (scanStep t a).heap_max = t.heap_max := by
        unfold scanStep; split <;> rfl
      have hb : (scanStep t a).opt_len = t.opt_len := by
        unfold scanStep; split <;> rfl
      have hc : (scanStep t a).static_len = t.static_len := by
        unfold scanStep; split <;> rfl
      exact ⟨h.1.trans ha, h.2.1.trans hb, h.2.2.trans hc⟩

theorem range'_concat_1 (s n : Nat) :
    List.range' s (n + 1) = List.range' s n ++ [s + n] := by
  simpa using @List.range'_concat 1 s n

theorem scan_heap : ∀ (l : List Nat) (t : BuildState),
    (l.foldl scanStep t).heap_len
        = t.heap_len + (l.filter (fun n => t.freq n != 0)).length ∧
    (List.range' 1 (l.foldl scanStep t).heap_len).map (l.foldl scanStep t).heap
      = (List.range' 1 t.heap_len).map t.heap
        ++ l.filter (fun n => t.freq n != 0) := by
  intro l
  induction l with
  | nil => intro t; simp
  | cons a l ih =>
      intro t
      rw [List.foldl_cons]
      by_cases h0 : t.freq a = 0
      · have hstep : scanStep t a = { t with len := upd t.len a 0 } := by
          unfold scanStep
          rw [if_neg (by simp [h0])]
        obtain ⟨ih1, ih2⟩ := ih (scanStep t a)
        simp only [hstep] at ih1 ih2 ⊢
        rw [List.filter_cons_of_neg (by simp [h0])]
        exact ⟨ih1, ih2⟩
      · have hstep : scanStep t a = { t with
            heap_len := t.heap_len + 1, max_code := (a : Int),
            heap := upd t.heap (t.heap_len + 1) a,
            depth := upd t.depth a 0 } := by
          unfold scanStep
          rw [if_pos h0]
        obtain ⟨ih1, ih2⟩ := ih (scanStep t a)
        simp only [hstep] at ih1 ih2 ⊢
        rw [List.filter_cons_of_pos (by simp [h0])]
        constructor
        · rw [ih1]; simp; omega
        · rw [ih2, range'_concat_1 1 t.heap_len]
          rw [List.map_append]
          have hmap : (List.range' 1 t.heap_len).map
              (upd t.heap (t.heap_len + 1) a)
              = (List.range' 1 t.heap_len).map t.heap := by
            apply List.map_congr_left
            intro p hp
            rw [List.mem_range'_1] at hp
            exact upd_other _ _ _ _ (by omega)
          rw [hmap]
          have hval : upd t.heap (t.heap_len + 1) a (1 + t.heap_len) = a := by
            rw [show 1 + t.heap_len = t.heap_len + 1 from by omega]
            exact upd_self _ _ _
          simp [hval]

theorem scan_len : ∀ (l : List Nat) (t : BuildState), l.Pairwise (· < ·) →
    ∀ n, (l.foldl scanStep t).len n
      = if n ∈ l ∧ t.freq n = 0 then 0 else t.len n := by
  intro l
  induction l with
  | nil => intro t _ n; simp
  | cons a l ih =>
      intro t hp n
      rw [List.foldl_cons]
      have hp' := (List.pairwise_cons.mp hp).2
      have hal : a ∉ l := fun hm =>
        lt_irrefl a ((List.pairwise_cons.mp hp).1 a hm)
      by_cases h0 : t.freq a = 0
      · have hstep : scanStep t a = { t with len := upd t.len a 0 } := by
          unfold scanStep
          rw [if_neg (by simp [h0])]
        have := ih (scanStep t a) hp' n
        simp only [hstep] at this ⊢
        rw [this]
        by_cases hna : n = a
        · subst hna
          simp [hal, h0, upd_self]
        · rw [upd_other _ _ _ _ hna]
          by_cases hnl : n ∈ l
          · simp [hnl, hna, List.mem_cons]
          · simp [hnl, hna, List.mem_cons]
      · have hstep : scanStep t a = { t with
            heap_len := t.heap_len + 1, max_code := (a : Int),
            heap := upd t.heap (t.heap_len + 1) a,
            depth := upd t.depth a 0 } := by
          unfold scanStep
          rw [if_pos h0]
        have := ih (scanStep t a) hp' n
        simp only [hstep] at this ⊢
        rw [this]
        by_cases hna : n = a
        · subst hna
          simp [hal, h0]
        · by_cases hnl : n ∈ l
          · simp [hnl, hna, List.mem_cons]
          · simp [hnl, hna, List.mem_cons]

theorem scan_max_code : ∀ (l : List Nat) (t : BuildState),
    l.Pairwise (· < ·) →
    (∀ n ∈ l, t.freq n ≠ 0 → (n : Int) ≤ (l.foldl scanStep t).max_code) ∧
    ((l.foldl scanStep t).max_code = t.max_code ∨
      ∃ n ∈ l, t.freq n ≠ 0 ∧ (l.foldl scanStep t).max_code = (n : Int)) := by
  intro l
  induction l with
  | nil => intro t _; simp
  | cons a l ih =>
      intro t hp
      rw [List.foldl_cons]
      have hp' := (List.pairwise_cons.mp hp).2
      have hlt : ∀ b ∈ l, a < b := (List.pairwise_cons.mp hp).1
      by_cases h0 : t.freq a = 0
      · have hstep : scanStep t a = { t with len := upd t.len a 0 } := by
          unfold scanStep
          rw [if_neg (by simp [h0])]
        obtain ⟨ih1, ih2⟩ := ih (scanStep t a) hp'
        simp only [hstep] at ih1 ih2 ⊢
        constructor
        · intro n hn hfn
          rcases List.mem_cons.mp hn with rfl | hnl
          · exact absurd h0 hfn
          · exact ih1 n hnl hfn
        · rcases ih2 with h | ⟨n, hn, hf, he⟩
          · exact Or.inl h
          · exact Or.inr ⟨n, List.mem_cons_of_mem a hn, hf, he⟩
      · have hstep : scanStep t a = { t with
            heap_len := t.heap_len + 1, max_code := (a : Int),
            heap := upd t.heap (t.heap_len + 1) a,
            depth := upd t.depth a 0 } := by
          unfold scanStep
          rw [if_pos h0]
        obtain ⟨ih1, ih2⟩ := ih (scanStep t a) hp'
        simp only [hstep] at ih1 ih2 ⊢
        have hamc : (a : Int) ≤ (l.foldl scanStep { t with
            heap_len := t.heap_len + 1, max_code := (a : Int),
            heap := upd t.heap (t.heap_len + 1) a,
            depth := upd t.depth a 0 }).max_code := by
          rcases ih2 with h | ⟨n, hn, _, he⟩
          · rw [h]
          · rw [he]
            exact_mod_cast Int.ofNat_le.mpr (le_of_lt (hlt n hn))
        constructor
        · intro n hn hfn
          rcases List.mem_cons.mp hn with rfl | hnl
          · exact hamc
          · exact ih1 n hnl hfn
        · rcases ih2 with h | ⟨n, hn, hf, he⟩
          · exact Or.inr ⟨a, List.mem_cons_self a l, h0, h⟩
          · exact Or.inr ⟨n, List.mem_cons_of_mem a hn, hf, he⟩

/-- With at least two heap entries the synthesis loop does nothing. -/
theorem synthLoop_skip (P : TreeParams) (isBL : Bool) (fuel : Nat)
    (t : BuildState) (h : ¬ t.heap_len < 2) : synthLoop P isBL fuel t = t := by
  cases fuel with
  | zero => rfl
  | succ f => unfold synthLoop; rw [if_neg h]

/-- The heapify loop permutes the heap slots `1..heap_len` and leaves
every other component of the state alone. -/
theorem buildHeapLoop_spec : ∀ (l : List Nat) (t : BuildState),
    (∀ k ∈ l, 1 ≤ k ∧ k ≤ t.heap_len) →
    (buildHeapLoop t l).freq = t.freq ∧
    (buildHeapLoop t l).len = t.len ∧
    (buildHeapLoop t l).heap_len = t.heap_len ∧
    (buildHeapLoop t l).heap_max = t.heap_max ∧
    (buildHeapLoop t l).max_code = t.max_code ∧
    (buildHeapLoop t l).opt_len = t.opt_len ∧
    (buildHeapLoop t l).static_len = t.static_len ∧
    msOf (buildHeapLoop t l).heap (List.range' 1 t.heap_len)
      = msOf t.heap (List.range' 1 t.heap_len) ∧
    (∀ p, t.heap_len < p → (buildHeapLoop t l).heap p = t.heap p) := by
  intro l
  induction l with
  | nil =>
      intro t _
      exact ⟨rfl, rfl, rfl, rfl, rfl, rfl, rfl, rfl, fun p _ => rfl⟩
  | cons k l ih =>
      intro t hk
      have hk1 := (hk k (List.mem_cons_self k l)).1
      have hk2 := (hk k (List.mem_cons_self k l)).2
      have hstep : buildHeapLoop t (k :: l) = buildHeapLoop
          { t with heap := pq_down_heap t.freq t.depth t.heap_len t.heap k }
          l := rfl
      rw [hstep]
      obtain ⟨i1, i2, i3, i4, i5, i6, i7, i8, i9⟩ := ih
        { t with heap := pq_down_heap t.freq t.depth t.heap_len t.heap k }
        (fun k' hk' => hk k' (List.mem_cons_of_mem k hk'))
      refine ⟨i1, i2, i3, i4, i5, i6, i7, ?_, ?_⟩
      · rw [i8]
        exact pq_down_heap_ms t.freq t.depth t.heap_len t.heap k hk1 hk2
      · intro p hp
        rw [i9 p hp]
        exact pq_down_heap_outside t.freq t.depth t.heap_len t.heap k p hk2 hp

/-- `pq_down_heap` with `2 * k` already beyond the heap reduces to the
final write `heap[k] = heap[k]`. -/
theorem pq_down_heap_stop (freq depth : Nat → Nat) (hl : Nat)
    (heap : Nat → Nat) (k : Nat) (h : hl < 2 * k) :
    pq_down_heap freq depth hl heap k = upd heap k (heap k) := by
  unfold pq_down_heap pqDownHeapGo
  rw [if_neg (by omega)]

/-- One Huffman combination step: the two smallest nodes move from the
heap to the region below `heap_max`, the fresh internal node `c` joins
the heap, and no length or cost field changes. -/
theorem combineStep_spec (t : BuildState) (c : Nat)
    (h2 : 2 ≤ t.heap_len)
    (hsep : t.heap_len < t.heap_max - 2)
    (hm573 : t.heap_max ≤ HEAP_SIZE) :
    (combineStep t c).1.heap_len = t.heap_len - 1 ∧
    (combineStep t c).1.heap_max = t.heap_max - 2 ∧
    msOf (combineStep t c).1.heap (List.range' 1 (t.heap_len - 1))
        + msOf (combineStep t c).1.heap
            (List.range' (t.heap_max - 2) (HEAP_SIZE - (t.heap_max - 2)))
      = msOf t.heap (List.range' 1 t.heap_len)
        + msOf t.heap (List.range' t.heap_max (HEAP_SIZE - t.heap_max))
        + {c} ∧
    (∀ v, v ≠ c → (combineStep t c).1.freq v = t.freq v) ∧
    (combineStep t c).1.len = t.len ∧
    (combineStep t c).1.opt_len = t.opt_len ∧
    (combineStep t c).1.static_len = t.static_len ∧
    (combineStep t c).1.max_code = t.max_code ∧
    (t.heap_len = 2 → (combineStep t c).1.heap SMALLEST = c) ∧
    (combineStep t c).2 = c + 1 := by
  have hmlb : t.heap_len + 2 < t.heap_max := by omega
  -- name the successive heap arrays of the step
  set A := upd t.heap SMALLEST (t.heap t.heap_len) with hAdef
  set B := pq_down_heap t.freq t.depth (t.heap_len - 1) A SMALLEST with hBdef
  set n := t.heap SMALLEST with hndef
  set m := B SMALLEST with hmdef
  set C := upd B (t.heap_max - 1) n with hCdef
  set D := upd C (t.heap_max - 2) m with hDdef
  set E := upd D SMALLEST c with hEdef
  set f' := upd t.freq c ((t.freq n + t.freq m) % 65536) with hfdef
  set d' := upd t.depth c (max (t.depth n) (t.depth m) + 1) with hddef
  set F := pq_down_heap f' d' (t.heap_len - 1) E SMALLEST with hFdef
  have hstep : combineStep t c = ({ t with
      freq := f',
      dad := upd (upd t.dad n c) m c,
      heap := F,
      depth := d',
      heap_len := t.heap_len - 1,
      heap_max := t.heap_max - 2 }, c + 1) := rfl
  rw [hstep]
  have hndH : (List.range' 1 (t.heap_len - 1)).Nodup := List.nodup_range' _ _
  have h1H : SMALLEST ∈ List.range' 1 (t.heap_len - 1) := by
    rw [List.mem_range'_1]; unfold SMALLEST; omega
  -- multiset of heap slots 1..heap_len-1
  have eF : msOf F (List.range' 1 (t.heap_len - 1))
      = msOf E (List.range' 1 (t.heap_len - 1)) := by
    rw [hFdef]
    exact pq_down_heap_ms f' d' (t.heap_len - 1) E SMALLEST
      (by unfold SMALLEST; omega) (by unfold SMALLEST; omega)
  have eE : msOf E (List.range' 1 (t.heap_len - 1)) + {D SMALLEST}
      = msOf D (List.range' 1 (t.heap_len - 1)) + {c} :=
    msOf_upd D SMALLEST c _ hndH h1H
  have hD1 : D SMALLEST = m := by
    rw [hDdef, hCdef]
    rw [upd_other _ _ _ _ (by unfold SMALLEST; omega),
      upd_other _ _ _ _ (by unfold SMALLEST; omega)]
  have eD : msOf D (List.range' 1 (t.heap_len - 1))
      = msOf B (List.range' 1 (t.heap_len - 1)) := by
    rw [hDdef, hCdef]
    rw [msOf_upd_not_mem _ _ _ _ (by rw [List.mem_range'_1]; omega),
      msOf_upd_not_mem _ _ _ _ (by rw [List.mem_range'_1]; omega)]
  have eB : msOf B (List.range' 1 (t.heap_len - 1))
      = msOf A (List.range' 1 (t.heap_len - 1)) := by
    rw [hBdef]
    exact pq_down_heap_ms t.freq t.depth (t.heap_len - 1) A SMALLEST
      (by unfold SMALLEST; omega) (by unfold SMALLEST; omega)
  have eA : msOf A (List.range' 1 (t.heap_len - 1)) + {t.heap SMALLEST}
      = msOf t.heap (List.range' 1 (t.heap_len - 1)) + {t.heap t.heap_len} :=
    msOf_upd t.heap SMALLEST (t.heap t.heap_len) _ hndH h1H
  -- region values
  have hR' : List.range' (t.heap_max - 2) (HEAP_SIZE - (t.heap_max - 2))
      = (t.heap_max - 2) :: (t.heap_max - 1)
        :: List.range' t.heap_max (HEAP_SIZE - t.heap_max) := by
    have ce1 : HEAP_SIZE - (t.heap_max - 2) = (HEAP_SIZE - t.heap_max) + 2 := by
      unfold HEAP_SIZE at hm573 ⊢; omega
    rw [ce1]
    rw [show (HEAP_SIZE - t.heap_max) + 2 = ((HEAP_SIZE - t.heap_max) + 1) + 1
      from rfl]
    rw [List.range'_succ]
    rw [show t.heap_max - 2 + 1 = t.heap_max - 1 from by omega]
    rw [List.range'_succ]
    rw [show t.heap_max - 1 + 1 = t.heap_max from by omega]
  have houtF : ∀ p, t.heap_len - 1 < p → F p = E p := by
    intro p hp
    rw [hFdef]
    exact pq_down_heap_outside f' d' (t.heap_len - 1) E SMALLEST p
      (by unfold SMALLEST; omega) hp
  have hE_at : ∀ p, t.heap_len - 1 < p → E p = D p := by
    intro p hp
    rw [hEdef]
    exact upd_other _ _ _ _ (by unfold SMALLEST; omega)
  have hDm2 : D (t.heap_max - 2) = m := by
    rw [hDdef]; exact upd_self _ _ _
  have hDm1 : D (t.heap_max - 1) = n := by
    rw [hDdef, hCdef]
    rw [upd_other _ _ _ _ (by omega)]
    exact upd_self _ _ _
  have hDR : ∀ p, t.heap_max ≤ p → D p = t.heap p := by
    intro p hp
    rw [hDdef, hCdef, hBdef, hAdef]
    rw [upd_other _ _ _ _ (by omega), upd_other _ _ _ _ (by omega)]
    rw [pq_down_heap_outside _ _ _ _ _ p (by unfold SMALLEST; omega)
      (by omega)]
    exact upd_other _ _ _ _ (by unfold SMALLEST; omega)
  have eReg : msOf F (List.range' (t.heap_max - 2)
        (HEAP_SIZE - (t.heap_max - 2)))
      = {m} + ({n} + msOf t.heap
          (List.range' t.heap_max (HEAP_SIZE - t.heap_max))) := by
    have hcg : msOf F (List.range' (t.heap_max - 2)
        (HEAP_SIZE - (t.heap_max - 2)))
        = msOf D (List.range' (t.heap_max - 2)
            (HEAP_SIZE - (t.heap_max - 2))) := by
      apply msOf_congr
      intro p hp
      rw [List.mem_range'_1] at hp
      rw [houtF p (by omega), hE_at p (by omega)]
    rw [hcg, hR', msOf_cons, msOf_cons, hDm2, hDm1]
    have : msOf D (List.range' t.heap_max (HEAP_SIZE - t.heap_max))
        = msOf t.heap (List.range' t.heap_max (HEAP_SIZE - t.heap_max)) := by
      apply msOf_congr
      intro p hp
      rw [List.mem_range'_1] at hp
      exact hDR p (by omega)
    rw [this, ← Multiset.singleton_add, ← Multiset.singleton_add]
  have hHfull : msOf t.heap (List.range' 1 t.heap_len)
      = msOf t.heap (List.range' 1 (t.heap_len - 1))
        + {t.heap t.heap_len} := by
    have e := range'_concat_1 1 (t.heap_len - 1)
    rw [show t.heap_len - 1 + 1 = t.heap_len from by omega,
      show 1 + (t.heap_len - 1) = t.heap_len from by omega] at e
    rw [e, msOf_append]
    rfl
  rw [hD1] at eE
  refine ⟨rfl, rfl, ?_, ?_, rfl, rfl, rfl, rfl, ?_, rfl⟩
  · -- multiset bookkeeping
    have key : msOf F (List.range' 1 (t.heap_len - 1))
        + msOf F (List.range' (t.heap_max - 2)
            (HEAP_SIZE - (t.heap_max - 2)))
        + {n} + {m}
        = (msOf t.heap (List.range' 1 t.heap_len)
          + msOf t.heap (List.range' t.heap_max (HEAP_SIZE - t.heap_max))
          + {c}) + {n} + {m} := by
      calc msOf F (List.range' 1 (t.heap_len - 1))
            + msOf F (List.range' (t.heap_max - 2)
                (HEAP_SIZE - (t.heap_max - 2))) + {n} + {m}
          = msOf E (List.range' 1 (t.heap_len - 1))
            + ({m} + ({n} + msOf t.heap
                (List.range' t.heap_max (HEAP_SIZE - t.heap_max))))
            + {n} + {m} := by
            rw [eF, eReg]
        _ = (msOf E (List.range' 1 (t.heap_len - 1)) + {m})
            + ({n} + {n} + {m}
              + msOf t.heap (List.range' t.heap_max
                  (HEAP_SIZE - t.heap_max))) := by
            ac_rfl
        _ = (msOf D (List.range' 1 (t.heap_len - 1)) + {c})
            + ({n} + {n} + {m}
              + msOf t.heap (List.range' t.heap_max
                  (HEAP_SIZE - t.heap_max))) := by
            rw [eE]
        _ = (msOf A (List.range' 1 (t.heap_len - 1)) + {n})
            + ({c} + {n} + {m}
              + msOf t.heap (List.range' t.heap_max
                  (HEAP_SIZE - t.heap_max))) := by
            rw [eD, eB]
            ac_rfl
        _ = (msOf t.heap (List.range' 1 (t.heap_len - 1))
              + {t.heap t.heap_len})
            + ({c} + {n} + {m}
              + msOf t.heap (List.range' t.heap_max
                  (HEAP_SIZE - t.heap_max))) := by
            rw [eA]
        _ = (msOf t.heap (List.range' 1 t.heap_len)
            + msOf t.heap (List.range' t.heap_max (HEAP_SIZE - t.heap_max))
            + {c}) + {n} + {m} := by
            rw [hHfull]
            ac_rfl
    exact add_right_cancel (add_right_cancel key)
  · intro v hv
    exact upd_other _ _ _ _ hv
  · intro hl2
    show F SMALLEST = c
    rw [hFdef, pq_down_heap_stop f' d' (t.heap_len - 1) E SMALLEST
      (by unfold SMALLEST; omega)]
    rw [upd_self, hEdef]
    exact upd_self _ _ _

theorem combineLoop_exit (fuel : Nat) (t : BuildState) (c : Nat)
    (h : t.heap_len < 2) : combineLoop fuel t c = (t, c) := by
  cases fuel with
  | zero => rfl
  | succ f => unfold combineLoop; rw [if_neg (by omega)]

/-- The Huffman combination loop: starting from `Lc ≥ 2` leaves on the
heap and an empty region, it ends with the root alone on the heap, the
`Lc - 1` created internal nodes (the root is the last, `e + Lc - 2`)
together with all leaves in the region, and costs untouched. -/
theorem combineLoop_spec (Lc : Nat) (M : Multiset Nat) (e : Nat)
    (hLc : Lc ≤ 286) :
    ∀ fuel t c,
    t.heap_len ≤ fuel →
    e ≤ c →
    2 ≤ t.heap_len →
    t.heap_len + (c - e) = Lc →
    t.heap_max = HEAP_SIZE - 2 * (c - e) →
    msOf t.heap (List.range' 1 t.heap_len)
        + msOf t.heap (List.range' t.heap_max (HEAP_SIZE - t.heap_max))
      = M + (↑(List.range' e (c - e)) : Multiset Nat) →
    (combineLoop fuel t c).1.heap_len = 1 ∧
    (combineLoop fuel t c).2 = e + (Lc - 1) ∧
    (combineLoop fuel t c).1.heap_max = HEAP_SIZE - 2 * (Lc - 1) ∧
    (combineLoop fuel t c).1.heap SMALLEST = e + Lc - 2 ∧
    msOf (combineLoop fuel t c).1.heap (List.range' 1 1)
        + msOf (combineLoop fuel t c).1.heap
            (List.range' (combineLoop fuel t c).1.heap_max
              (HEAP_SIZE - (combineLoop fuel t c).1.heap_max))
      = M + (↑(List.range' e (Lc - 1)) : Multiset Nat) ∧
    (∀ v, v < e → (combineLoop fuel t c).1.freq v = t.freq v) ∧
    (combineLoop fuel t c).1.len = t.len ∧
    (combineLoop fuel t c).1.opt_len = t.opt_len ∧
    (combineLoop fuel t c).1.static_len = t.static_len ∧
    (combineLoop fuel t c).1.max_code = t.max_code := by
  intro fuel
  induction fuel with
  | zero =>
      intro t c hfuel _ h2 _ _ _
      omega
  | succ f ih =>
      intro t c hfuel hec h2 hcard hmax hms
      have h573 : HEAP_SIZE = 573 := rfl
      have hsep : t.heap_len < t.heap_max - 2 := by
        rw [h573] at hmax
        omega
      have hm573 : t.heap_max ≤ HEAP_SIZE := by
        rw [h573] at hmax ⊢
        omega
      obtain ⟨ce1, ce2, ce3, ce4, ce5, ce6, ce7, ce8, ce9, ce10⟩ :=
        combineStep_spec t c h2 hsep hm573
      have hloop : combineLoop (f + 1) t c
          = combineLoop f (combineStep t c).1 (combineStep t c).2 := by
        simp only [combineLoop]
        rw [if_pos h2]
      have hcoe : (↑(List.range' e (c - e)) : Multiset Nat) + {c}
          = (↑(List.range' e (c + 1 - e)) : Multiset Nat) := by
        have hr : List.range' e (c - e + 1)
            = List.range' e (c - e) ++ [e + (c - e)] := range'_concat_1 _ _
        rw [show c + 1 - e = c - e + 1 from by omega, hr,
          show e + (c - e) = c from by omega]
        rw [← Multiset.coe_singleton, ← Multiset.coe_add]
      by_cases hb : t.heap_len = 2
      · -- last iteration: the loop exits with the root on the heap
        have hexit : combineLoop f (combineStep t c).1 (combineStep t c).2
            = ((combineStep t c).1, (combineStep t c).2) :=
          combineLoop_exit f _ _ (by omega)
        rw [hloop, hexit]
        refine ⟨by rw [ce1]; omega, by rw [ce10]; omega, ?_, ?_, ?_, ?_,
          ce5, ce6, ce7, ce8⟩
        · rw [ce2, h573]; rw [h573] at hmax; omega
        · rw [ce9 hb]; omega
        · have hlen1 : t.heap_len - 1 = 1 := by omega
          rw [hlen1] at ce3
          rw [ce2, ce3, hms, add_assoc, hcoe]
          rw [show c + 1 - e = Lc - 1 from by omega]
        · intro v hv
          exact ce4 v (by omega)
      · -- at least two more nodes: recurse
        have h2' : 2 ≤ (combineStep t c).1.heap_len := by rw [ce1]; omega
        have hms' : msOf (combineStep t c).1.heap
              (List.range' 1 (combineStep t c).1.heap_len)
            + msOf (combineStep t c).1.heap
                (List.range' (combineStep t c).1.heap_max
                  (HEAP_SIZE - (combineStep t c).1.heap_max))
            = M + (↑(List.range' e (c + 1 - e)) : Multiset Nat) := by
          rw [ce1, ce2, ce3, hms, add_assoc, hcoe]
        obtain ⟨ci1, ci2, ci3, ci4, ci5, ci6, ci7, ci8, ci9, ci10⟩ :=
          ih (combineStep t c).1 (combineStep t c).2
            (by rw [ce1]; omega)
            (by rw [ce10]; omega)
            (by rw [ce1]; omega)
            (by rw [ce1, ce10]; omega)
            (by rw [ce2, ce10, h573]; rw [h573] at hmax; omega)
            (by rw [ce10]; exact hms')
        rw [hloop]
        refine ⟨ci1, ci2, ci3, ci4, ci5, ?_, ?_, ?_, ?_, ?_⟩
        · intro v hv
          rw [ci6 v hv]
          exact ce4 v (by omega)
        · rw [ci7, ce5]
        · rw [ci8, ce6]
        · rw [ci9, ce7]
        · rw [ci10, ce8]

/-- The extra bits attributed to symbol `n`
(`EXTRA_*BITS[n - extra_base]` when `n ≥ extra_base`, else 0). -/
def xbP (P : TreeParams) (n : Nat) : Nat :=
  if P.extraBase ≤ n then P.extraBits (n - P.extraBase) else 0

/-- `pass1Step` with the node value passed directly; since the heap is
not written during the first pass, folding `pass1Step` over positions
equals folding this over the values read. -/
def pass1ValStep (P : TreeParams) (isBL : Bool) (maxCode : Int)
    (s : BuildState) (n : Nat) : BuildState :=
  let bits0 := s.len (s.dad n) + 1
  let clamp : Bool := decide (P.maxLength < bits0)
  let bits := if clamp then P.maxLength else bits0
  let s₁ := { s with
              len := upd s.len n bits,
              overflow := if clamp then s.overflow + 1 else s.overflow }
  if maxCode < (n : Int) then s₁
  else
    let xbits := if P.extraBase ≤ n then P.extraBits (n - P.extraBase) else 0
    let f := s.freq n
    { s₁ with
      bl_count := updZ s₁.bl_count bits (s₁.bl_count bits + 1),
      opt_len := addMod64 s₁.opt_len ((f * (bits + xbits) : Nat) : Int),
      static_len := if isBL then s₁.static_len
        else addMod64 s₁.static_len ((f * (P.staticLen n + xbits) : Nat) : Int) }

theorem pass1Step_eq_val (P : TreeParams) (isBL : Bool) (mc : Int)
    (t : BuildState) (h : Nat) :
    pass1Step P isBL mc t h = pass1ValStep P isBL mc t (t.heap h) := rfl

theorem pass1ValStep_freq (P : TreeParams) (isBL : Bool) (mc : Int)
    (t : BuildState) (a : Nat) :
    (pass1ValStep P isBL mc t a).freq = t.freq := by
  simp only [pass1ValStep]
  split <;> rfl

theorem pass1ValStep_heap (P : TreeParams) (isBL : Bool) (mc : Int)
    (t : BuildState) (a : Nat) :
    (pass1ValStep P isBL mc t a).heap = t.heap := by
  simp only [pass1ValStep]
  split <;> rfl

theorem pass1ValStep_heap_max (P : TreeParams) (isBL : Bool) (mc : Int)
    (t : BuildState) (a : Nat) :
    (pass1ValStep P isBL mc t a).heap_max = t.heap_max := by
  simp only [pass1ValStep]
  split <;> rfl

theorem pass1ValStep_max_code (P : TreeParams) (isBL : Bool) (mc : Int)
    (t : BuildState) (a : Nat) :
    (pass1ValStep P isBL mc t a).max_code = t.max_code := by
  simp only [pass1ValStep]
  split <;> rfl

theorem pass1ValStep_main (P : TreeParams) (isBL : Bool) (mc : Int)
    (t : BuildState) (a : Nat) (hM1 : 1 ≤ P.maxLength) :
    ∃ bits, 1 ≤ bits ∧ bits ≤ P.maxLength ∧
    (pass1ValStep P isBL mc t a).len = upd t.len a bits ∧
    (pass1ValStep P isBL mc t a).opt_len
      = (if (a : Int) ≤ mc
         then addMod64 t.opt_len ((t.freq a * (bits + xbP P a) : Nat) : Int)
         else t.opt_len) := by
  refine ⟨if P.maxLength < t.len (t.dad a) + 1 then P.maxLength
    else t.len (t.dad a) + 1, ?_, ?_, ?_, ?_⟩
  · split <;> omega
  · split <;> omega
  · simp only [pass1ValStep]
    split
    · simp [decide_eq_true_eq]
    · simp [decide_eq_true_eq]
  · by_cases hmc : mc < (a : Int)
    · simp only [pass1ValStep]
      rw [if_pos hmc, if_neg (show ¬((a : Int) ≤ mc) from by omega)]
    · simp only [pass1ValStep]
      rw [if_neg hmc, if_pos (show (a : Int) ≤ mc from by omega)]
      simp only [decide_eq_true_eq]
      rw [show xbP P a = if P.extraBase ≤ a
        then P.extraBits (a - P.extraBase) else 0 from rfl]

theorem foldl_pass1_values (P : TreeParams) (isBL : Bool) (mc : Int) :
    ∀ (ps : List Nat) (t : BuildState),
    ps.foldl (pass1Step P isBL mc) t
      = (ps.map t.heap).foldl (pass1ValStep P isBL mc) t := by
  intro ps
  induction ps with
  | nil => intro t; rfl
  | cons h ps ih =>
      intro t
      rw [List.foldl_cons, List.map_cons, List.foldl_cons,
        pass1Step_eq_val, ih, pass1ValStep_heap]

/-- The leaf cost accumulated by the first `gen_bitlen` pass over the
value list `w`: each leaf (`n ≤ max_code`) contributes
`freq[n] * (len[n] + extra_bits[n])`. -/
def leafSumW (P : TreeParams) (mc : Int) (freq len : Nat → Nat)
    (w : List Nat) : Int :=
  (w.map (fun n : Nat => if (n : Int) ≤ mc
    then ((freq n * (len n + xbP P n) : Nat) : Int) else 0)).sum

theorem leafSumW_cons (P : TreeParams) (mc : Int) (freq len : Nat → Nat)
    (a : Nat) (w : List Nat) :
    leafSumW P mc freq len (a :: w)
      = (if (a : Int) ≤ mc
         then ((freq a * (len a + xbP P a) : Nat) : Int) else 0)
        + leafSumW P mc freq len w := by
  simp [leafSumW]

theorem leafSumW_congr (P : TreeParams) (mc : Int) (freq len len' : Nat → Nat)
    (w : List Nat) (h : ∀ n ∈ w, len n = len' n) :
    leafSumW P mc freq len w = leafSumW P mc freq len' w := by
  unfold leafSumW
  congr 1
  apply List.map_congr_left
  intro n hn
  rw [h n hn]

/-- The first `gen_bitlen` pass over a duplicate-free value list: every
listed node gets a length in `[1, max_length]`, other lengths are
untouched, and `opt_len` grows by the leaf cost of the final lengths. -/
theorem pass1_fold (P : TreeParams) (isBL : Bool) (mc : Int)
    (hM1 : 1 ≤ P.maxLength) :
    ∀ (w : List Nat) (t : BuildState), w.Nodup → t.opt_len < 2 ^ 64 →
    (w.foldl (pass1ValStep P isBL mc) t).freq = t.freq ∧
    (w.foldl (pass1ValStep P isBL mc) t).heap = t.heap ∧
    (w.foldl (pass1ValStep P isBL mc) t).heap_max = t.heap_max ∧
    (w.foldl (pass1ValStep P isBL mc) t).max_code = t.max_code ∧
    (∀ n, n ∉ w → (w.foldl (pass1ValStep P isBL mc) t).len n = t.len n) ∧
    (∀ n ∈ w, 1 ≤ (w.foldl (pass1ValStep P isBL mc) t).len n ∧
      (w.foldl (pass1ValStep P isBL mc) t).len n ≤ P.maxLength) ∧
    (w.foldl (pass1ValStep P isBL mc) t).opt_len
      = addMod64 t.opt_len (leafSumW P mc t.freq
          ((w.foldl (pass1ValStep P isBL mc) t).len) w) ∧
    (w.foldl (pass1ValStep P isBL mc) t).opt_len < 2 ^ 64 := by
  intro w
  induction w with
  | nil =>
      intro t _ hopt
      refine ⟨rfl, rfl, rfl, rfl, fun n _ => rfl, fun n hn => absurd hn
        (List.not_mem_nil n), ?_, hopt⟩
      rw [List.foldl_nil, show leafSumW P mc t.freq t.len [] = 0 from rfl,
        addMod64_zero _ hopt]
  | cons a w ih =>
      intro t hnd hopt
      obtain ⟨bits, hb1, hbM, hlen, hopteq⟩ :=
        pass1ValStep_main P isBL mc t a hM1
      have hfreq := pass1ValStep_freq P isBL mc t a
      have hheap := pass1ValStep_heap P isBL mc t a
      have hhm := pass1ValStep_heap_max P isBL mc t a
      have hmcf := pass1ValStep_max_code P isBL mc t a
      have hopt1 : (pass1ValStep P isBL mc t a).opt_len < 2 ^ 64 := by
        rw [hopteq]
        split
        · exact addMod64_lt _ _
        · exact hopt
      have haw : a ∉ w := (List.nodup_cons.mp hnd).1
      obtain ⟨ci1, ci2, ci3, ci4, ci5, ci6, ci7, ci8⟩ :=
        ih (pass1ValStep P isBL mc t a) (List.nodup_cons.mp hnd).2 hopt1
      rw [List.foldl_cons]
      refine ⟨ci1.trans hfreq, ci2.trans hheap, ci3.trans hhm, ci4.trans hmcf,
        ?_, ?_, ?_, ci8⟩
      · intro n hn
        rw [ci5 n (fun h => hn (List.mem_cons_of_mem a h)), hlen]
        exact upd_other _ _ _ _ (fun e => hn (e ▸ List.mem_cons_self a w))
      · intro n hn
        rcases List.mem_cons.mp hn with rfl | hnw
        · rw [ci5 n haw, hlen, upd_self]
          exact ⟨hb1, hbM⟩
        · exact ci6 n hnw
      · rw [ci7, hopteq, leafSumW_cons]
        have hlena : (w.foldl (pass1ValStep P isBL mc)
            (pass1ValStep P isBL mc t a)).len a = bits := by
          rw [ci5 a haw, hlen, upd_self]
        rw [hlena, hfreq]
        split
        · rw [addMod64_addMod64]
        · rw [zero_add]

/-- `Σ_{n ∈ L} freq[n] * (len[n] + xb[n])` as an integer. -/
def sumFL (freq len xb : Nat → Nat) (L : List Nat) : Int :=
  (L.map (fun n : Nat =>
    (freq n : Int) * ((len n : Int) + (xb n : Int)))).sum

theorem sumFL_upd (freq len xb : Nat → Nat) (m b : Nat) :
    ∀ (L : List Nat), L.Nodup → m ∈ L →
    sumFL freq (upd len m b) xb L
      = sumFL freq len xb L + (freq m : Int) * ((b : Int) - (len m : Int)) := by
  intro L
  induction L with
  | nil => intro _ hm; cases hm
  | cons a L ih =>
      intro hnd hm
      rcases List.mem_cons.mp hm with rfl | hmL
      · have hnl : m ∉ L := (List.nodup_cons.mp hnd).1
        have htail : sumFL freq (upd len m b) xb L = sumFL freq len xb L := by
          unfold sumFL
          congr 1
          apply List.map_congr_left
          intro n hn
          rw [upd_other len m b n (fun e : n = m => hnl (e ▸ hn))]
        unfold sumFL at htail ⊢
        rw [List.map_cons, List.map_cons, List.sum_cons, List.sum_cons,
          htail, upd_self]
        push_cast
        ring
      · have hne : a ≠ m := fun e : a = m =>
          (List.nodup_cons.mp hnd).1 (by rw [e]; exact hmL)
        have := ih (List.nodup_cons.mp hnd).2 hmL
        unfold sumFL at this ⊢
        rw [List.map_cons, List.map_cons, List.sum_cons, List.sum_cons,
          this, upd_other _ _ _ _ hne]
        ring

/-- The inner `while n > 0` loop of the second pass: every length it
writes is `bits ∈ [1, ML]` at a leaf of `L`, and `opt_len` moves by
exactly the induced change of the leaf cost sum. -/
theorem pass2Inner_spec (freq heap : Nat → Nat) (mc : Int)
    (heapMin bits ML : Nat) (xb : Nat → Nat) (L : List Nat)
    (hLnd : L.Nodup)
    (Hv : ∀ p, heapMin ≤ p → p < HEAP_SIZE → (heap p : Int) ≤ mc →
      heap p ∈ L)
    (hb1 : 1 ≤ bits) (hbM : bits ≤ ML) :
    ∀ fuel (n : Int) len opt h len' opt' h',
    h ≤ HEAP_SIZE →
    opt < 2 ^ 64 →
    pass2Inner freq heap mc heapMin bits fuel n len opt h
      = some (len', opt', h') →
    (∀ v, len' v = len v ∨ (v ∈ L ∧ 1 ≤ len' v ∧ len' v ≤ ML)) ∧
    opt' = addMod64 opt
      (sumFL freq len' xb L - sumFL freq len xb L) ∧
    opt' < 2 ^ 64 ∧ h' ≤ h := by
  intro fuel
  induction fuel with
  | zero =>
      intro n len opt h len' opt' h' hh hopt hrun
      simp only [pass2Inner] at hrun
      by_cases hn : n ≤ 0
      · rw [if_pos hn] at hrun
        have e := Option.some.inj hrun
        have ce1 : len = len' := congrArg Prod.fst e
        have ce2 : opt = opt' := congrArg (fun p => p.2.1) e
        have ce3 : h = h' := congrArg (fun p => p.2.2) e
        subst ce1; subst ce2; subst ce3
        exact ⟨fun v => Or.inl rfl,
          by rw [sub_self, addMod64_zero _ hopt], hopt, le_refl h⟩
      · rw [if_neg hn] at hrun
        cases hrun
  | succ f ih =>
      intro n len opt h len' opt' h' hh hopt hrun
      simp only [pass2Inner] at hrun
      by_cases hn : n ≤ 0
      · rw [if_pos hn] at hrun
        have e := Option.some.inj hrun
        have ce1 : len = len' := congrArg Prod.fst e
        have ce2 : opt = opt' := congrArg (fun p => p.2.1) e
        have ce3 : h = h' := congrArg (fun p => p.2.2) e
        subst ce1; subst ce2; subst ce3
        exact ⟨fun v => Or.inl rfl,
          by rw [sub_self, addMod64_zero _ hopt], hopt, le_refl h⟩
      · rw [if_neg hn] at hrun
        by_cases hhm : h ≤ heapMin
        · rw [if_pos hhm] at hrun
          cases hrun
        · rw [if_neg hhm] at hrun
          have h573 : HEAP_SIZE = 573 := rfl
          by_cases hm : mc < (heap (h - 1) : Int)
          · rw [if_pos hm] at hrun
            obtain ⟨cl1, cl2, cl3, cl4⟩ := ih n len opt (h - 1) len' opt' h'
              (by omega) hopt hrun
            exact ⟨cl1, cl2, cl3, by omega⟩
          · rw [if_neg hm] at hrun
            have hmem : heap (h - 1) ∈ L :=
              Hv (h - 1) (by omega) (by omega) (not_lt.mp hm)
            by_cases hlb : len (heap (h - 1)) ≠ bits
            · rw [if_pos hlb] at hrun
              obtain ⟨cl1, cl2, cl3, cl4⟩ := ih (n - 1)
                (upd len (heap (h - 1)) bits)
                (addMod64 opt (((bits : Int) - (len (heap (h - 1)) : Int))
                  * (freq (heap (h - 1)) : Int)))
                (h - 1) len' opt' h' (by omega) (addMod64_lt _ _) hrun
              refine ⟨?_, ?_, cl3, by omega⟩
              · intro v
                rcases cl1 v with hv | hv
                · by_cases hvm : v = heap (h - 1)
                  · subst hvm
                    exact Or.inr ⟨hmem, by rw [hv, upd_self]; exact hb1,
                      by rw [hv, upd_self]; exact hbM⟩
                  · exact Or.inl (by rw [hv, upd_other _ _ _ _ hvm])
                · exact Or.inr hv
              · rw [cl2, addMod64_addMod64]
                congr 1
                rw [sumFL_upd freq len xb (heap (h - 1)) bits L hLnd hmem]
                ring
            · rw [if_neg hlb] at hrun
              obtain ⟨cl1, cl2, cl3, cl4⟩ := ih (n - 1) len opt (h - 1)
                len' opt' h' (by omega) hopt hrun
              exact ⟨cl1, cl2, cl3, by omega⟩

/-- The second `gen_bitlen` pass as a whole: lengths change only at
leaves of `L`, to values in `[1, ML]`, and `opt_len` moves by the
induced change of the leaf cost sum. -/
theorem pass2Outer_spec (freq heap : Nat → Nat) (mc : Int)
    (heapMin ML : Nat) (xb : Nat → Nat) (blc : Nat → Int) (L : List Nat)
    (hLnd : L.Nodup)
    (Hv : ∀ p, heapMin ≤ p → p < HEAP_SIZE → (heap p : Int) ≤ mc →
      heap p ∈ L) :
    ∀ (bl : List Nat) len opt h len' opt' h',
    (∀ b ∈ bl, 1 ≤ b ∧ b ≤ ML) →
    h ≤ HEAP_SIZE → opt < 2 ^ 64 →
    pass2Outer freq heap mc heapMin blc bl len opt h
      = some (len', opt', h') →
    (∀ v, len' v = len v ∨ (v ∈ L ∧ 1 ≤ len' v ∧ len' v ≤ ML)) ∧
    opt' = addMod64 opt
      (sumFL freq len' xb L - sumFL freq len xb L) ∧
    opt' < 2 ^ 64 := by
  intro bl
  induction bl with
  | nil =>
      intro len opt h len' opt' h' _ _ hopt hrun
      simp only [pass2Outer] at hrun
      have e := Option.some.inj hrun
      have ce1 : len = len' := congrArg Prod.fst e
      have ce2 : opt = opt' := congrArg (fun p => p.2.1) e
      subst ce1; subst ce2
      exact ⟨fun v => Or.inl rfl,
        by rw [sub_self, addMod64_zero _ hopt], hopt⟩
  | cons b bl ih =>
      intro len opt h len' opt' h' hbl hh hopt hrun
      simp only [pass2Outer] at hrun
      rcases hinner : pass2Inner freq heap mc heapMin b h (blc b) len opt h
        with _ | r
      · rw [hinner] at hrun
        cases hrun
      · rw [hinner] at hrun
        obtain ⟨rl, ro, rh⟩ := r
        obtain ⟨cl1, cl2, cl3, cl4⟩ := pass2Inner_spec freq heap mc heapMin b ML
          xb L hLnd Hv (hbl b (List.mem_cons_self b bl)).1
          (hbl b (List.mem_cons_self b bl)).2
          h (blc b) len opt h rl ro rh hh hopt hinner
        obtain ⟨d1, d2, d3⟩ := ih rl ro rh len' opt' h'
          (fun x hx => hbl x (List.mem_cons_of_mem b hx))
          (le_trans cl4 hh) cl3 hrun
        refine ⟨?_, ?_, d3⟩
        · intro v
          rcases d1 v with hv | hv
          · rcases cl1 v with hw | hw
            · exact Or.inl (hv.trans hw)
            · exact Or.inr ⟨hw.1, by omega, by omega⟩
          · exact Or.inr hv
        · rw [d2, cl2, addMod64_addMod64]
          congr 1
          ring

/-- `gen_bitlen` on a state whose region `heap_max+1 .. HEAP_SIZE` holds
exactly the leaves `L` and internal nodes `Is` (the root sits at
`heap_max`): on success every leaf length lands in `[1, max_length]`,
other lengths are untouched, and `opt_len` grows by
`Σ freq[n] * (len'[n] + extra_bits[n])` over the leaves, mod `2^64`. -/
theorem gen_bitlen_spec (P : TreeParams) (isBL : Bool) (mc : Int)
    (u r : BuildState) (L Is : List Nat) (root : Nat)
    (hM1 : 1 ≤ P.maxLength)
    (hLnd : L.Nodup) (hIsnd : Is.Nodup)
    (hdis : ∀ n ∈ L, n ∉ Is)
    (hhm : u.heap_max < HEAP_SIZE)
    (hw : msOf u.heap
        (List.range' (u.heap_max + 1) (HEAP_SIZE - u.heap_max - 1))
      = ↑L + ↑Is)
    (hLmc : ∀ n ∈ L, (n : Int) ≤ mc)
    (hImc : ∀ n ∈ Is, mc < (n : Int))
    (hroot : u.heap u.heap_max = root)
    (hrootmc : mc < (root : Int))
    (hopt : u.opt_len < 2 ^ 64)
    (hrun : gen_bitlen P isBL mc u = some r) :
    (∀ n ∈ L, 1 ≤ r.len n ∧ r.len n ≤ P.maxLength) ∧
    (∀ n, n ∉ L → n ∉ Is → n ≠ root → r.len n = u.len n) ∧
    r.opt_len = addMod64 u.opt_len (sumFL u.freq r.len (xbP P) L) := by
  have h573 : HEAP_SIZE = 573 := rfl
  set ps := List.range' (u.heap_max + 1) (HEAP_SIZE - u.heap_max - 1)
    with hpsdef
  set U : BuildState := { u with
    len := upd u.len (u.heap u.heap_max) 0,
    bl_count := fun _ => 0, overflow := 0 } with hUdef
  set q := ps.foldl (pass1Step P isBL mc) U with hqdef
  have hgb : gen_bitlen P isBL mc u
      = (if q.overflow = 0 then some q
         else match adjustLoop P.maxLength q.overflow.toNat q.bl_count
             q.overflow with
         | none => none
         | some blc' =>
             match pass2Outer q.freq q.heap mc q.heap_max blc'
               ((List.range' 1 P.maxLength).reverse) q.len q.opt_len
               HEAP_SIZE with
             | none => none
             | some pr =>
                 some { q with len := pr.1, opt_len := pr.2.1,
                               bl_count := blc' }) := rfl
  set w := ps.map u.heap with hwdef
  have hwcoe : (↑w : Multiset Nat) = ↑L + ↑Is := hw
  have hwnd : w.Nodup := by
    have hnd : (↑w : Multiset Nat).Nodup := by
      rw [hwcoe]
      refine Multiset.nodup_add.mpr ⟨Multiset.coe_nodup.mpr hLnd,
        Multiset.coe_nodup.mpr hIsnd, ?_⟩
      refine Multiset.disjoint_left.mpr ?_
      intro a ha haI
      exact hdis a (Multiset.mem_coe.mp ha) (Multiset.mem_coe.mp haI)
    exact Multiset.coe_nodup.mp hnd
  have hq2 : q = w.foldl (pass1ValStep P isBL mc) U := by
    rw [hqdef, foldl_pass1_values, hwdef]
  obtain ⟨sp1, sp2, sp3, sp4, sp5, sp6, sp7, sp8⟩ :=
    pass1_fold P isBL mc hM1 w U hwnd hopt
  rw [← hq2] at sp1 sp2 sp3 sp4 sp5 sp6 sp7 sp8
  have hqfreq : q.freq = u.freq := sp1
  have hqheap : q.heap = u.heap := sp2
  have hqhm : q.heap_max = u.heap_max := sp3
  have hqopt : q.opt_len
      = addMod64 u.opt_len (leafSumW P mc u.freq q.len w) := sp7
  have hLsubw : ∀ n ∈ L, n ∈ w := by
    intro n hn
    have : n ∈ (↑w : Multiset Nat) := by
      rw [hwcoe]
      exact Multiset.mem_add.mpr (Or.inl (Multiset.mem_coe.mpr hn))
    exact Multiset.mem_coe.mp this
  have hlen_out : ∀ n, n ∉ L → n ∉ Is → n ≠ root → q.len n = u.len n := by
    intro n hnL hnI hnr
    have hnw : n ∉ w := by
      intro hnw
      have : n ∈ (↑w : Multiset Nat) := Multiset.mem_coe.mpr hnw
      rw [hwcoe] at this
      rcases Multiset.mem_add.mp this with h | h
      · exact hnL (Multiset.mem_coe.mp h)
      · exact hnI (Multiset.mem_coe.mp h)
    rw [sp5 n hnw]
    show upd u.len (u.heap u.heap_max) 0 n = u.len n
    rw [hroot]
    exact upd_other _ _ _ _ hnr
  have hsum : leafSumW P mc u.freq q.len w
      = sumFL u.freq q.len (xbP P) L := by
    have hperm : w.Perm (L ++ Is) := by
      rw [← Multiset.coe_eq_coe, ← Multiset.coe_add]
      exact hwcoe
    unfold leafSumW
    rw [List.Perm.sum_eq (hperm.map _), List.map_append, List.sum_append]
    have hIs0 : ((Is.map (fun n : Nat => if (n : Int) ≤ mc
        then ((u.freq n * (q.len n + xbP P n) : Nat) : Int) else 0)).sum
        = 0) := by
      apply List.sum_eq_zero
      intro x hx
      obtain ⟨n, hn, rfl⟩ := List.mem_map.mp hx
      rw [if_neg (not_le.mpr (hImc n hn))]
    rw [hIs0, add_zero]
    unfold sumFL
    congr 1
    apply List.map_congr_left
    intro n hn
    rw [if_pos (hLmc n hn)]
    push_cast
    ring
  rw [hgb] at hrun
  by_cases hov : q.overflow = 0
  · rw [if_pos hov] at hrun
    have hr : r = q := (Option.some.inj hrun).symm
    subst hr
    refine ⟨?_, hlen_out, ?_⟩
    · intro n hn
      exact sp6 n (hLsubw n hn)
    · rw [hqopt, hsum]
  · rw [if_neg hov] at hrun
    rcases hadj : adjustLoop P.maxLength q.overflow.toNat q.bl_count
        q.overflow with _ | blc'
    · rw [hadj] at hrun
      exact Option.noConfusion hrun
    · rw [hadj] at hrun
      have hrun2 : (match pass2Outer q.freq q.heap mc q.heap_max blc'
            ((List.range' 1 P.maxLength).reverse) q.len q.opt_len
            HEAP_SIZE with
          | none => none
          | some pr =>
              some { q with
                     len := pr.1, opt_len := pr.2.1,
                     bl_count := blc' }) = some r := hrun
      rcases hp2 : pass2Outer q.freq q.heap mc q.heap_max blc'
          ((List.range' 1 P.maxLength).reverse) q.len q.opt_len HEAP_SIZE
          with _ | pr
      · rw [hp2] at hrun2
        exact Option.noConfusion hrun2
      · rw [hp2] at hrun2
        obtain ⟨prl, pro, prh⟩ := pr
        have hr : r = { q with
            len := prl, opt_len := pro,
            bl_count := blc' } := (Option.some.inj hrun2).symm
        have Hv : ∀ p, q.heap_max ≤ p → p < HEAP_SIZE →
            (q.heap p : Int) ≤ mc → q.heap p ∈ L := by
          intro p hp1 hp2' hple
          rw [hqheap] at hple ⊢
          rw [hqhm] at hp1
          by_cases hpm : p = u.heap_max
          · subst hpm
            rw [hroot] at hple
            exact absurd hple (not_le.mpr hrootmc)
          · have hpw : u.heap p ∈ w := by
              rw [hwdef]
              apply List.mem_map_of_mem
              rw [hpsdef, List.mem_range'_1]
              omega
            have : u.heap p ∈ (↑w : Multiset Nat) := Multiset.mem_coe.mpr hpw
            rw [hwcoe] at this
            rcases Multiset.mem_add.mp this with h | h
            · exact Multiset.mem_coe.mp h
            · exact absurd hple
                (not_le.mpr (hImc _ (Multiset.mem_coe.mp h)))
        obtain ⟨d1, d2, d3⟩ := pass2Outer_spec q.freq q.heap mc q.heap_max
          P.maxLength (xbP P) blc' L hLnd Hv
          ((List.range' 1 P.maxLength).reverse) q.len q.opt_len HEAP_SIZE
          prl pro prh
          (by
            intro b hb
            rw [List.mem_reverse, List.mem_range'_1] at hb
            omega)
          (le_refl _) sp8 hp2
        subst hr
        refine ⟨?_, ?_, ?_⟩
        · intro n hn
          show 1 ≤ prl n ∧ prl n ≤ P.maxLength
          rcases d1 n with hv | hv
          · rw [hv]
            exact sp6 n (hLsubw n hn)
          · exact ⟨hv.2.1, hv.2.2⟩
        · intro n hnL hnI hnr
          show prl n = u.len n
          rcases d1 n with hv | hv
          · rw [hv]
            exact hlen_out n hnL hnI hnr
          · exact absurd hv.1 hnL
        · show pro = addMod64 u.opt_len (sumFL u.freq prl (xbP P) L)
          rw [d2, hqfreq, hqopt, hsum, addMod64_addMod64]
          congr 1
          ring

theorem sumFL_congr_freq (freq freq' len xb : Nat → Nat) (L : List Nat)
    (h : ∀ n ∈ L, freq n = freq' n) :
    sumFL freq len xb L = sumFL freq' len xb L := by
  unfold sumFL
  congr 1
  apply List.map_congr_left
  intro n hn
  rw [h n hn]

theorem sum_map_filter (p : Nat → Bool) (g : Nat → Int) :
    ∀ l : List Nat, (∀ n ∈ l, p n = false → g n = 0) →
    (l.map g).sum = ((l.filter p).map g).sum := by
  intro l
  induction l with
  | nil => intro _; rfl
  | cons a l ih =>
      intro h
      rw [List.map_cons, List.sum_cons]
      by_cases hp : p a = true
      · rw [List.filter_cons_of_pos hp, List.map_cons, List.sum_cons,
          ih (fun n hn => h n (List.mem_cons_of_mem a hn))]
      · rw [List.filter_cons_of_neg (by simpa using hp),
          h a (List.mem_cons_self a l) (by simpa using hp), zero_add,
          ih (fun n hn => h n (List.mem_cons_of_mem a hn))]

/-- Two two-element multisets are equal exactly when the pairs match up
to a swap. -/
theorem pair_of_ms (a b c d : Nat)
    (h : (↑[a, b] : Multiset Nat) = ↑[c, d]) :
    (a = c ∧ b = d) ∨ (a = d ∧ b = c) := by
  have h' : a ::ₘ ({b} : Multiset Nat) = c ::ₘ ({d} : Multiset Nat) := h
  rcases Multiset.cons_eq_cons.mp h' with ⟨hac, hbd⟩ | ⟨hne, cs, h1, h2⟩
  · exact Or.inl ⟨hac, Multiset.singleton_inj.mp hbd⟩
  · right
    have had : a = d := by
      have : a ∈ ({d} : Multiset Nat) := by
        rw [h2]
        exact Multiset.mem_cons_self a cs
      exact Multiset.mem_singleton.mp this
    have hcs : cs = 0 := by
      rw [had] at h2
      have h2' : d ::ₘ (0 : Multiset Nat) = d ::ₘ cs := h2
      exact ((Multiset.cons_inj_right d).mp h2').symm
    have hbc : b = c := by
      rw [hcs] at h1
      exact Multiset.singleton_inj.mp h1
    exact ⟨had, hbc⟩

theorem synthStep_heap_len (P : TreeParams) (isBL : Bool)
    (u : BuildState) : (synthStep P isBL u).heap_len = u.heap_len + 1 := rfl

theorem synthStep_len (P : TreeParams) (isBL : Bool) (u : BuildState) :
    (synthStep P isBL u).len = u.len := rfl

theorem synthStep_heap_max (P : TreeParams) (isBL : Bool)
    (u : BuildState) : (synthStep P isBL u).heap_max = u.heap_max := rfl

theorem synthStep_opt_len (P : TreeParams) (isBL : Bool) (u : BuildState) :
    (synthStep P isBL u).opt_len = addMod64 u.opt_len (-1) := rfl

theorem synthStep_max_code (P : TreeParams) (isBL : Bool) (u : BuildState) :
    (synthStep P isBL u).max_code
      = (if u.max_code < 2 then u.max_code + 1 else u.max_code) := rfl

theorem synthStep_heap (P : TreeParams) (isBL : Bool) (u : BuildState) :
    (synthStep P isBL u).heap
      = upd u.heap (u.heap_len + 1)
          (if u.max_code < 2 then (u.max_code + 1).toNat else 0) := rfl

theorem synthStep_freq (P : TreeParams) (isBL : Bool) (u : BuildState) :
    (synthStep P isBL u).freq
      = upd u.freq (if u.max_code < 2 then (u.max_code + 1).toNat else 0)
          1 := rfl

/-- `synthStep` when `max_code < 2`: the dummy node is `max_code + 1`. -/
theorem synthStep_spec (P : TreeParams) (isBL : Bool) (u : BuildState)
    (hlt : u.max_code < 2) :
    (synthStep P isBL u).max_code = u.max_code + 1 ∧
    (synthStep P isBL u).heap
      = upd u.heap (u.heap_len + 1) (u.max_code + 1).toNat ∧
    (synthStep P isBL u).freq = upd u.freq (u.max_code + 1).toNat 1 := by
  refine ⟨?_, ?_, ?_⟩
  · rw [synthStep_max_code, if_pos hlt]
  · rw [synthStep_heap, if_pos hlt]
  · rw [synthStep_freq, if_pos hlt]

/-- `synthStep` when `max_code ≥ 2`: the dummy node is 0. -/
theorem synthStep_spec_hi (P : TreeParams) (isBL : Bool) (u : BuildState)
    (hge : ¬ u.max_code < 2) :
    (synthStep P isBL u).max_code = u.max_code ∧
    (synthStep P isBL u).heap = upd u.heap (u.heap_len + 1) 0 ∧
    (synthStep P isBL u).freq = upd u.freq 0 1 := by
  refine ⟨?_, ?_, ?_⟩
  · rw [synthStep_max_code, if_neg hge]
  · rw [synthStep_heap, if_neg hge]
  · rw [synthStep_freq, if_neg hge]

/-- With a single heap entry the synthesis loop runs exactly once. -/
theorem synthLoop_one (P : TreeParams) (isBL : Bool) (u : BuildState)
    (h : u.heap_len = 1) :
    synthLoop P isBL 2 u = synthStep P isBL u := by
  rw [show (2 : Nat) = 1 + 1 from rfl]
  simp only [synthLoop]
  rw [if_pos (by omega), if_neg (by rw [synthStep_heap_len]; omega)]

/-- With an empty heap the synthesis loop runs exactly twice. -/
theorem synthLoop_two (P : TreeParams) (isBL : Bool) (u : BuildState)
    (h : u.heap_len = 0) :
    synthLoop P isBL 2 u = synthStep P isBL (synthStep P isBL u) := by
  rw [show (2 : Nat) = 1 + 1 from rfl]
  simp only [synthLoop]
  rw [if_pos (by omega), if_pos (by rw [synthStep_heap_len]; omega)]

theorem pass1ValStep_dad (P : TreeParams) (isBL : Bool) (mc : Int)
    (t : BuildState) (a : Nat) :
    (pass1ValStep P isBL mc t a).dad = t.dad := by
  simp only [pass1ValStep]
  split <;> rfl

/-- `pass1ValStep` when the parent length does not overflow the cap:
the node's length becomes `len[dad] + 1` and `overflow` is unchanged. -/
theorem pass1ValStep_noclamp (P : TreeParams) (isBL : Bool) (mc : Int)
    (t : BuildState) (a : Nat)
    (hd : ¬ P.maxLength < t.len (t.dad a) + 1) :
    (pass1ValStep P isBL mc t a).len
      = upd t.len a (t.len (t.dad a) + 1) ∧
    (pass1ValStep P isBL mc t a).overflow = t.overflow ∧
    (pass1ValStep P isBL mc t a).opt_len
      = (if (a : Int) ≤ mc
         then addMod64 t.opt_len
           ((t.freq a * ((t.len (t.dad a) + 1) + xbP P a) : Nat) : Int)
         else t.opt_len) := by
  refine ⟨?_, ?_, ?_⟩
  · simp only [pass1ValStep]
    split
    · simp [decide_eq_true_eq, hd]
    · simp [decide_eq_true_eq, hd]
  · simp only [pass1ValStep]
    split
    · simp [decide_eq_true_eq, hd]
    · simp [decide_eq_true_eq, hd]
  · by_cases hmc : mc < (a : Int)
    · simp only [pass1ValStep]
      rw [if_pos hmc, if_neg (show ¬((a : Int) ≤ mc) from by omega)]
    · simp only [pass1ValStep]
      rw [if_neg hmc, if_pos (show (a : Int) ≤ mc from by omega)]
      simp only [decide_eq_true_eq]
      rw [if_neg hd]
      rw [show xbP P a = if P.extraBase ≤ a
        then P.extraBits (a - P.extraBase) else 0 from rfl]

/-- `combineStep` on a two-entry heap: the region receives exactly
`heap[1]` and `heap[2]` (in that order) and both become children of the
fresh node `c`. -/
theorem combineStep_two (t : BuildState) (c : Nat)
    (h2 : t.heap_len = 2) (hmb : 6 ≤ t.heap_max)
    (hne : t.heap 1 ≠ t.heap 2) :
    (combineStep t c).1.heap (t.heap_max - 1) = t.heap 1 ∧
    (combineStep t c).1.heap (t.heap_max - 2) = t.heap 2 ∧
    (combineStep t c).1.dad (t.heap 1) = c ∧
    (combineStep t c).1.dad (t.heap 2) = c := by
  set A := upd t.heap SMALLEST (t.heap t.heap_len) with hAdef
  set B := pq_down_heap t.freq t.depth (t.heap_len - 1) A SMALLEST with hBdef
  set n := t.heap SMALLEST with hndef
  set m := B SMALLEST with hmdef
  set C := upd B (t.heap_max - 1) n with hCdef
  set D := upd C (t.heap_max - 2) m with hDdef
  set E := upd D SMALLEST c with hEdef
  set f' := upd t.freq c ((t.freq n + t.freq m) % 65536) with hfdef
  set d' := upd t.depth c (max (t.depth n) (t.depth m) + 1) with hddef
  set F := pq_down_heap f' d' (t.heap_len - 1) E SMALLEST with hFdef
  have hstep : combineStep t c = ({ t with
      freq := f',
      dad := upd (upd t.dad n c) m c,
      heap := F,
      depth := d',
      heap_len := t.heap_len - 1,
      heap_max := t.heap_max - 2 }, c + 1) := rfl
  have hmval : m = t.heap 2 := by
    rw [hmdef, hBdef, pq_down_heap_stop t.freq t.depth (t.heap_len - 1) A
      SMALLEST (by unfold SMALLEST; omega), upd_self, hAdef, upd_self, h2]
  have hFout : ∀ p, 1 < p → F p = E p := by
    intro p hp
    rw [hFdef]
    exact pq_down_heap_outside f' d' (t.heap_len - 1) E SMALLEST p
      (by unfold SMALLEST; omega) (by omega)
  rw [hstep]
  refine ⟨?_, ?_, ?_, ?_⟩
  · show F (t.heap_max - 1) = t.heap 1
    rw [hFout _ (by omega), hEdef,
      upd_other _ _ _ _ (by unfold SMALLEST; omega), hDdef,
      upd_other _ _ _ _ (by omega), hCdef, upd_self, hndef]
    rfl
  · show F (t.heap_max - 2) = t.heap 2
    rw [hFout _ (by omega), hEdef,
      upd_other _ _ _ _ (by unfold SMALLEST; omega), hDdef, upd_self,
      hmval]
  · show upd (upd t.dad n c) m c (t.heap 1) = c
    rw [upd_other _ _ _ _ (by rw [hmval]; exact hne), hndef]
    exact upd_self _ _ _
  · show upd (upd t.dad n c) m c (t.heap 2) = c
    rw [hmval]
    exact upd_self _ _ _

/-- The tail of `build_tree` after the scan and synthesis phases: heap
construction, Huffman combination, the root write and `gen_bitlen`
(`src/trees.rs`, lines 981-1035). -/
def treeFromHeap (P : TreeParams) (isBL : Bool) (t : BuildState) :
    Option BuildState :=
  let s₄ := buildHeapLoop t ((List.range' 1 (t.heap_len / 2)).reverse)
  let r := combineLoop s₄.heap_len s₄ P.elems
  let s₅ := r.1
  let s₆ := { s₅ with
              heap_max := s₅.heap_max - 1,
              heap := upd s₅.heap (s₅.heap_max - 1) (s₅.heap SMALLEST) }
  gen_bitlen P isBL s₆.max_code s₆

/-- `gen_bitlen` on a two-leaf tree (region holds exactly the leaves
`a` at `heap_max + 2` and `b` at `heap_max + 1`, the root above both):
both leaves get length exactly 1 and `opt_len` grows by their leaf
costs at length 1. -/
theorem gen_bitlen_two (P : TreeParams) (isBL : Bool) (mc : Int)
    (u r : BuildState) (a b root : Nat)
    (hM1 : 1 ≤ P.maxLength)
    (hhm : u.heap_max = HEAP_SIZE - 3)
    (hha : u.heap (u.heap_max + 2) = a)
    (hhb : u.heap (u.heap_max + 1) = b)
    (hhr : u.heap u.heap_max = root)
    (hab : a ≠ b) (hra : root ≠ a) (hrb : root ≠ b)
    (hda : u.dad a = root) (hdb : u.dad b = root)
    (hamc : (a : Int) ≤ mc) (hbmc : (b : Int) ≤ mc)
    (hopt : u.opt_len < 2 ^ 64)
    (hrun : gen_bitlen P isBL mc u = some r) :
    r.len a = 1 ∧ r.len b = 1 ∧
    (∀ n, n ≠ a → n ≠ b → n ≠ root → r.len n = u.len n) ∧
    r.opt_len = addMod64 u.opt_len
      (((u.freq b * (1 + xbP P b) : Nat) : Int)
        + ((u.freq a * (1 + xbP P a) : Nat) : Int)) := by
  have h573 : HEAP_SIZE = 573 := rfl
  set ps := List.range' (u.heap_max + 1) (HEAP_SIZE - u.heap_max - 1)
    with hpsdef
  set U : BuildState := { u with
    len := upd u.len (u.heap u.heap_max) 0,
    bl_count := fun _ => 0, overflow := 0 } with hUdef
  set q := ps.foldl (pass1Step P isBL mc) U with hqdef
  have hgb : gen_bitlen P isBL mc u
      = (if q.overflow = 0 then some q
         else match adjustLoop P.maxLength q.overflow.toNat q.bl_count
             q.overflow with
         | none => none
         | some blc' =>
             match pass2Outer q.freq q.heap mc q.heap_max blc'
               ((List.range' 1 P.maxLength).reverse) q.len q.opt_len
               HEAP_SIZE with
             | none => none
             | some pr =>
                 some { q with len := pr.1, opt_len := pr.2.1,
                               bl_count := blc' }) := rfl
  have hcnt : HEAP_SIZE - u.heap_max - 1 = 2 := by
    rw [hhm, h573]
  have hps : ps = [u.heap_max + 1, u.heap_max + 1 + 1] := by
    rw [hpsdef, hcnt]
    rfl
  have hUheap : U.heap = u.heap := rfl
  have hUdad : U.dad = u.dad := rfl
  have hUfreq : U.freq = u.freq := rfl
  have hUopt : U.opt_len = u.opt_len := rfl
  have hUlen_root : U.len root = 0 := by
    show upd u.len (u.heap u.heap_max) 0 root = 0
    rw [hhr]
    exact upd_self _ _ _
  have hq2 : q = [b, a].foldl (pass1ValStep P isBL mc) U := by
    rw [hqdef, foldl_pass1_values, hps]
    rw [show ([u.heap_max + 1, u.heap_max + 1 + 1].map U.heap)
      = [U.heap (u.heap_max + 1), U.heap (u.heap_max + 1 + 1)] from rfl]
    rw [hUheap]
    rw [show u.heap (u.heap_max + 1 + 1) = u.heap (u.heap_max + 2)
      from rfl]
    rw [hha, hhb]
  -- first step: leaf b
  have hnb : ¬ P.maxLength < U.len (U.dad b) + 1 := by
    rw [hUdad, hdb, hUlen_root]
    omega
  obtain ⟨sb_len, sb_ov, sb_opt⟩ :=
    pass1ValStep_noclamp P isBL mc U b hnb
  rw [hUdad, hdb, hUlen_root] at sb_len sb_opt
  set t₁ := pass1ValStep P isBL mc U b with ht₁def
  -- second step: leaf a
  have ht₁dad : t₁.dad = u.dad := by
    rw [ht₁def, pass1ValStep_dad, hUdad]
  have ht₁root : t₁.len root = 0 := by
    rw [sb_len, upd_other _ _ _ _ hrb.symm.symm]
    · exact hUlen_root
  have hna : ¬ P.maxLength < t₁.len (t₁.dad a) + 1 := by
    rw [ht₁dad, hda, ht₁root]
    omega
  obtain ⟨sa_len, sa_ov, sa_opt⟩ :=
    pass1ValStep_noclamp P isBL mc t₁ a hna
  rw [ht₁dad, hda, ht₁root] at sa_len sa_opt
  have hfold : q = pass1ValStep P isBL mc t₁ a := by
    rw [hq2, List.foldl_cons, List.foldl_cons, List.foldl_nil, ht₁def]
  have ht₁freq : t₁.freq = u.freq := by
    rw [ht₁def, pass1ValStep_freq, hUfreq]
  have ht₁opt : t₁.opt_len
      = addMod64 u.opt_len ((u.freq b * (1 + xbP P b) : Nat) : Int) := by
    rw [ht₁def, sb_opt, if_pos hbmc, hUopt, hUfreq]
  have hqlen : q.len = upd (upd U.len b 1) a 1 := by
    rw [hfold, sa_len, sb_len]
  have hqopt : q.opt_len = addMod64 u.opt_len
      (((u.freq b * (1 + xbP P b) : Nat) : Int)
        + ((u.freq a * (1 + xbP P a) : Nat) : Int)) := by
    rw [hfold, sa_opt, if_pos hamc, ht₁opt, ht₁freq, addMod64_addMod64]
  have hqov : q.overflow = 0 := by
    rw [hfold, sa_ov, ht₁def, sb_ov]
  rw [hgb, if_pos hqov] at hrun
  have hr : r = q := (Option.some.inj hrun).symm
  subst hr
  refine ⟨?_, ?_, ?_, hqopt⟩
  · rw [hqlen]
    exact upd_self _ _ _
  · rw [hqlen, upd_other _ _ _ _ hab.symm]
    exact upd_self _ _ _
  · intro n hna' hnb' hnr
    rw [hqlen, upd_other _ _ _ _ hna', upd_other _ _ _ _ hnb']
    show upd u.len (u.heap u.heap_max) 0 n = u.len n
    rw [hhr]
    exact upd_other _ _ _ _ hnr

/-- The `build_tree` tail on a two-entry heap: both entries end with
code length exactly 1 as children of the root `elems`, other lengths
are untouched, and `opt_len` grows by both leaf costs at length 1. -/
theorem build_tree_two (P : TreeParams) (isBL : Bool) (t s' : BuildState)
    (x₁ x₂ : Nat)
    (hM1 : 1 ≤ P.maxLength)
    (hhl : t.heap_len = 2)
    (hh1 : t.heap 1 = x₁) (hh2 : t.heap 2 = x₂)
    (hne : x₁ ≠ x₂) (hx1e : x₁ < P.elems) (hx2e : x₂ < P.elems)
    (hmc1 : (x₁ : Int) ≤ t.max_code) (hmc2 : (x₂ : Int) ≤ t.max_code)
    (hhm : t.heap_max = HEAP_SIZE)
    (hopt : t.opt_len < 2 ^ 64)
    (hrun : treeFromHeap P isBL t = some s') :
    s'.len x₁ = 1 ∧ s'.len x₂ = 1 ∧
    (∀ n, n ≠ x₁ → n ≠ x₂ → n ≠ P.elems → s'.len n = t.len n) ∧
    s'.opt_len = addMod64 t.opt_len
      (((t.freq x₂ * (1 + xbP P x₂) : Nat) : Int)
        + ((t.freq x₁ * (1 + xbP P x₁) : Nat) : Int)) := by
  have h573 : HEAP_SIZE = 573 := rfl
  set s₄ := buildHeapLoop t ((List.range' 1 (t.heap_len / 2)).reverse)
    with hs4def
  set rr := combineLoop s₄.heap_len s₄ P.elems with hrrdef
  set s₆ : BuildState := { rr.1 with
    heap_max := rr.1.heap_max - 1,
    heap := upd rr.1.heap (rr.1.heap_max - 1) (rr.1.heap SMALLEST) }
    with hs6def
  have htf : treeFromHeap P isBL t = gen_bitlen P isBL s₆.max_code s₆ :=
    rfl
  rw [htf] at hrun
  obtain ⟨bh1, bh2, bh3, bh4, bh5, bh6, bh7, bh8, bh9⟩ := buildHeapLoop_spec
    ((List.range' 1 (t.heap_len / 2)).reverse) t
    (by
      intro k hk
      rw [List.mem_reverse, List.mem_range'_1] at hk
      have := Nat.div_le_self t.heap_len 2
      omega)
  rw [← hs4def] at bh1 bh2 bh3 bh4 bh5 bh6 bh7 bh8 bh9
  rw [hhl] at bh8
  have hmspair : (↑[s₄.heap 1, s₄.heap 2] : Multiset Nat) = ↑[x₁, x₂] := by
    calc (↑[s₄.heap 1, s₄.heap 2] : Multiset Nat)
        = msOf s₄.heap (List.range' 1 2) := rfl
      _ = msOf t.heap (List.range' 1 2) := bh8
      _ = (↑[x₁, x₂] : Multiset Nat) := by
          rw [show msOf t.heap (List.range' 1 2)
            = (↑[t.heap 1, t.heap 2] : Multiset Nat) from rfl, hh1, hh2]
  suffices hcont : ∀ y₁ y₂ : Nat, s₄.heap 1 = y₁ → s₄.heap 2 = y₂ →
      y₁ ≠ y₂ → y₁ < P.elems → y₂ < P.elems →
      (y₁ : Int) ≤ t.max_code → (y₂ : Int) ≤ t.max_code →
      s'.len y₁ = 1 ∧ s'.len y₂ = 1 ∧
      (∀ n, n ≠ y₁ → n ≠ y₂ → n ≠ P.elems → s'.len n = t.len n) ∧
      s'.opt_len = addMod64 t.opt_len
        (((t.freq y₂ * (1 + xbP P y₂) : Nat) : Int)
          + ((t.freq y₁ * (1 + xbP P y₁) : Nat) : Int)) by
    rcases pair_of_ms (s₄.heap 1) (s₄.heap 2) x₁ x₂ hmspair with
      ⟨hy1, hy2⟩ | ⟨hy1, hy2⟩
    · exact hcont x₁ x₂ hy1 hy2 hne hx1e hx2e hmc1 hmc2
    · obtain ⟨g1, g2, g3, g4⟩ :=
        hcont x₂ x₁ hy1 hy2 (Ne.symm hne) hx2e hx1e hmc2 hmc1
      refine ⟨g2, g1, ?_, ?_⟩
      · intro n h1 h2 h3
        exact g3 n h2 h1 h3
      · rw [g4, add_comm]
  intro y₁ y₂ hy1 hy2 hyne hy1e hy2e hymc1 hymc2
  have h2s4 : 2 ≤ s₄.heap_len := by omega
  have hs4hm : s₄.heap_max = HEAP_SIZE := by rw [bh4, hhm]
  obtain ⟨ce1, ce2, ce3, ce4, ce5, ce6, ce7, ce8, ce9, ce10⟩ :=
    combineStep_spec s₄ P.elems h2s4
      (by rw [hs4hm, h573]; omega) (by rw [hs4hm])
  obtain ⟨ct1, ct2, ct3, ct4⟩ := combineStep_two s₄ P.elems (by omega)
    (by rw [hs4hm, h573]; omega)
    (by rw [hy1, hy2]; exact hyne)
  have hrr : rr = ((combineStep s₄ P.elems).1, (combineStep s₄ P.elems).2)
      := by
    rw [hrrdef, bh3, hhl, show (2 : Nat) = 1 + 1 from rfl]
    simp only [combineLoop]
    rw [if_pos (by omega)]
    exact combineLoop_exit 1 _ _ (by rw [ce1]; omega)
  have hrr1 : rr.1 = (combineStep s₄ P.elems).1 := by rw [hrr]
  have hrr1hm : rr.1.heap_max = HEAP_SIZE - 2 := by
    rw [hrr1, ce2, hs4hm]
  have hs6hm : s₆.heap_max = HEAP_SIZE - 3 := by
    rw [show s₆.heap_max = rr.1.heap_max - 1 from rfl, hrr1hm, h573]
  have hs6mc : s₆.max_code = t.max_code := by
    rw [show s₆.max_code = rr.1.max_code from rfl, hrr1, ce8, bh5]
  have hroot1 : rr.1.heap SMALLEST = P.elems := by
    rw [hrr1]
    exact ce9 (by omega)
  have hs6ha : s₆.heap (s₆.heap_max + 2) = y₁ := by
    show upd rr.1.heap (rr.1.heap_max - 1) (rr.1.heap SMALLEST)
      (s₆.heap_max + 2) = y₁
    rw [upd_other _ _ _ _ (by rw [hs6hm, hrr1hm, h573]; omega)]
    rw [show s₆.heap_max + 2 = s₄.heap_max - 1 from by
      rw [hs6hm, hs4hm, h573]]
    rw [hrr1, ct1, hy1]
  have hs6hb : s₆.heap (s₆.heap_max + 1) = y₂ := by
    show upd rr.1.heap (rr.1.heap_max - 1) (rr.1.heap SMALLEST)
      (s₆.heap_max + 1) = y₂
    rw [upd_other _ _ _ _ (by rw [hs6hm, hrr1hm, h573]; omega)]
    rw [show s₆.heap_max + 1 = s₄.heap_max - 2 from by
      rw [hs6hm, hs4hm, h573]]
    rw [hrr1, ct2, hy2]
  have hs6hr : s₆.heap s₆.heap_max = P.elems := by
    show upd rr.1.heap (rr.1.heap_max - 1) (rr.1.heap SMALLEST)
      s₆.heap_max = P.elems
    rw [show s₆.heap_max = rr.1.heap_max - 1 from rfl, upd_self, hroot1]
  have hs6da : s₆.dad y₁ = P.elems := by
    show rr.1.dad y₁ = P.elems
    rw [hrr1, ← hy1, ct3]
  have hs6db : s₆.dad y₂ = P.elems := by
    show rr.1.dad y₂ = P.elems
    rw [hrr1, ← hy2, ct4]
  have hs6opt : s₆.opt_len = t.opt_len := by
    rw [show s₆.opt_len = rr.1.opt_len from rfl, hrr1, ce6, bh6]
  have hs6freq : ∀ v, v < P.elems → s₆.freq v = t.freq v := by
    intro v hv
    rw [show s₆.freq = rr.1.freq from rfl, hrr1, ce4 v (by omega), bh1]
  obtain ⟨g1, g2, g3, g4⟩ := gen_bitlen_two P isBL s₆.max_code s₆ s'
    y₁ y₂ P.elems hM1 hs6hm hs6ha hs6hb hs6hr hyne
    (by omega) (by omega)
    hs6da hs6db
    (by rw [hs6mc]; exact hymc1) (by rw [hs6mc]; exact hymc2)
    (by rw [hs6opt]; exact hopt) hrun
  refine ⟨g1, g2, ?_, ?_⟩
  · intro n h1 h2 h3
    rw [g3 n h1 h2 h3]
    rw [show s₆.len = rr.1.len from rfl, hrr1, ce5, bh2]
  · rw [g4, hs6opt, hs6freq y₂ hy2e, hs6freq y₁ hy1e]

/-- C8 (amended): whenever `build_tree` completes on any frequency
vector `F` (the model returns `none` exactly on the runs where
`gen_bitlen`'s index arithmetic would underflow or its second pass
would read stale heap slots), every symbol gets a code length at most
`max_length`, every nonzero-frequency symbol gets a code length of at
least 1, and `opt_len` grows (mod `2^64`) by
`Σ_i F[i] * (len[i] + extra_bits[i])` — the extra-bits term is part of
the sum, so `Σ_i F[i] * len[i]` alone does not equal the `opt_len`
increment in general.  With fewer than two nonzero entries the
synthesis loop inserts dummy nodes of frequency one at indices `≤ 2`
(which carry zero extra bits); each dummy's `opt_len -= 1` offsets its
contribution, so the accounting identity over the input vector `F`
holds there as well. -/
theorem build_tree_len_optlen (P : TreeParams) (isBL : Bool)
    (s s' : BuildState)
    (hE : P.elems ≤ 286) (hE3 : 3 ≤ P.elems) (hM1 : 1 ≤ P.maxLength)
    (hxb : ∀ n, n ≤ 2 → xbP P n = 0)
    (hopt : s.opt_len < 2 ^ 64)
    (hrun : build_tree P isBL s = some s') :
    (∀ n, n < P.elems → s'.len n ≤ P.maxLength) ∧
    (∀ n, n < P.elems → s.freq n ≠ 0 → 1 ≤ s'.len n) ∧
    s'.opt_len = addMod64 s.opt_len
      (((List.range P.elems).map (fun n : Nat => (s.freq n : Int)
        * ((s'.len n : Int) + (xbP P n : Int)))).sum) := by
  have h573 : HEAP_SIZE = 573 := rfl
  set L := leaves s.freq P.elems with hLdef
  have hLnd : L.Nodup := (List.nodup_range P.elems).filter _
  have hLlen : L.length ≤ 286 := by
    have h1 : L.length ≤ (List.range P.elems).length :=
      List.length_filter_le _ _
    rw [List.length_range] at h1
    omega
  have hmemL : ∀ n, n ∈ L ↔ (n < P.elems ∧ s.freq n ≠ 0) := by
    intro n
    rw [hLdef]
    unfold leaves
    rw [List.mem_filter, List.mem_range]
    simp
  -- the scan
  set s1 : BuildState := { s with
    heap_len := 0, heap_max := HEAP_SIZE, max_code := -1 } with hs1def
  set s2 := (List.range P.elems).foldl scanStep s1 with hs2def
  have sf : s2.freq = s.freq := scan_freq _ s1
  obtain ⟨sfd1, sfd2, sfd3⟩ := scan_fields (List.range P.elems) s1
  have shm : s2.heap_max = HEAP_SIZE := sfd1
  have sopt : s2.opt_len = s.opt_len := sfd2
  obtain ⟨sh1, sh2⟩ := scan_heap (List.range P.elems) s1
  have sh1' : s2.heap_len = L.length := by
    rw [hs2def, sh1, show s1.heap_len = 0 from rfl, Nat.zero_add]
    rfl
  have sh2' : (List.range' 1 s2.heap_len).map s2.heap = L := sh2
  have sl : ∀ n, s2.len n
      = if n ∈ List.range P.elems ∧ s.freq n = 0 then 0 else s.len n :=
    scan_len (List.range P.elems) s1 (List.pairwise_lt_range _)
  obtain ⟨smc1, smc2⟩ :=
    scan_max_code (List.range P.elems) s1 (List.pairwise_lt_range _)
  have hmc_lt : s2.max_code < (P.elems : Int) := by
    rcases smc2 with h | ⟨n, hn, _, he⟩
    · rw [h]
      show (-1 : Int) < (P.elems : Int)
      have : (0 : Int) ≤ (P.elems : Int) := Int.ofNat_nonneg _
      omega
    · rw [he]
      exact_mod_cast Int.ofNat_lt.mpr (List.mem_range.mp hn)
  have hLmc : ∀ n ∈ L, (n : Int) ≤ s2.max_code := by
    intro n hn
    obtain ⟨h1, h2⟩ := (hmemL n).mp hn
    exact smc1 n (List.mem_range.mpr h1) h2
  by_cases hnz : 2 ≤ L.length
  · -- at least two distinct leaves: the synthesis loop is skipped
    -- synthesis is skipped, then the heap is built
    set s3 := synthLoop P isBL 2 s2 with hs3def
    have hs32 : s3 = s2 := synthLoop_skip P isBL 2 s2 (by omega)
    set s4 := buildHeapLoop s3 ((List.range' 1 (s3.heap_len / 2)).reverse)
      with hs4def
    rw [hs32] at hs4def
    obtain ⟨bh1, bh2, bh3, bh4, bh5, bh6, bh7, bh8, bh9⟩ := buildHeapLoop_spec
      ((List.range' 1 (s2.heap_len / 2)).reverse) s2
      (by
        intro k hk
        rw [List.mem_reverse, List.mem_range'_1] at hk
        have := Nat.div_le_self s2.heap_len 2
        omega)
    rw [← hs4def] at bh1 bh2 bh3 bh4 bh5 bh6 bh7 bh8 bh9
    -- the Huffman combination loop
    set rp := combineLoop s4.heap_len s4 P.elems with hrpdef
    obtain ⟨cl1, cl2, cl3, cl4, cl5, cl6, cl7, cl8, cl9, cl10⟩ :=
      combineLoop_spec L.length (↑L) P.elems hLlen s4.heap_len s4 P.elems
        (le_refl _)
        (le_refl _)
        (by rw [bh3]; omega)
        (by rw [bh3]; omega)
        (by rw [bh4, shm]; omega)
        (by
          rw [bh3, bh4, shm, h573]
          rw [show (573 : Nat) - 573 = 0 from rfl,
            show P.elems - P.elems = 0 from by omega]
          rw [show List.range' 573 0 = ([] : List Nat) from rfl,
            show List.range' P.elems 0 = ([] : List Nat) from rfl]
          rw [show msOf s4.heap ([] : List Nat) = 0 from rfl]
          rw [show ((↑([] : List Nat)) : Multiset Nat) = 0 from rfl]
          rw [add_zero, add_zero]
          rw [show msOf s4.heap (List.range' 1 s2.heap_len)
            = msOf s2.heap (List.range' 1 s2.heap_len) from bh8]
          show (↑((List.range' 1 s2.heap_len).map s2.heap) : Multiset Nat)
            = ↑L
          rw [sh2'])
    rw [← hrpdef] at cl1 cl2 cl3 cl4 cl5 cl6 cl7 cl8 cl9 cl10
    -- the root is written below the region and gen_bitlen runs
    set root := P.elems + L.length - 2 with hrootdef
    set Is := List.range' P.elems (L.length - 2) with hIsdef
    set s6 : BuildState := { rp.1 with
      heap_max := rp.1.heap_max - 1,
      heap := upd rp.1.heap (rp.1.heap_max - 1) (rp.1.heap SMALLEST) }
      with hs6def
    have hbt : build_tree P isBL s = gen_bitlen P isBL s6.max_code s6 := rfl
    rw [hbt] at hrun
    have hmc6 : s6.max_code = s2.max_code := by
      rw [show s6.max_code = rp.1.max_code from rfl, cl10, bh5]
    have hm5pos : 3 ≤ rp.1.heap_max ∧ rp.1.heap_max ≤ HEAP_SIZE := by
      rw [cl3, h573]
      omega
    have hIsnd : Is.Nodup := List.nodup_range' _ _
    have hdis : ∀ n ∈ L, n ∉ Is := by
      intro n hn hnI
      obtain ⟨h1, _⟩ := (hmemL n).mp hn
      rw [hIsdef, List.mem_range'_1] at hnI
      omega
    have hhm6 : s6.heap_max < HEAP_SIZE := by
      rw [show s6.heap_max = rp.1.heap_max - 1 from rfl]
      omega
    have hsplit : List.range' P.elems (L.length - 1) = Is ++ [root] := by
      rw [hIsdef, hrootdef,
        show L.length - 1 = (L.length - 2) + 1 from by omega,
        range'_concat_1,
        show P.elems + (L.length - 2) = P.elems + L.length - 2 from by omega]
    have hregion : msOf rp.1.heap (List.range' rp.1.heap_max
        (HEAP_SIZE - rp.1.heap_max)) = ↑L + ↑Is := by
      have hstep : {root} + msOf rp.1.heap (List.range' rp.1.heap_max
          (HEAP_SIZE - rp.1.heap_max)) = (↑L + ↑Is) + {root} := by
        calc {root} + msOf rp.1.heap (List.range' rp.1.heap_max
              (HEAP_SIZE - rp.1.heap_max))
            = msOf rp.1.heap (List.range' 1 1)
              + msOf rp.1.heap (List.range' rp.1.heap_max
                  (HEAP_SIZE - rp.1.heap_max)) := by
              rw [show msOf rp.1.heap (List.range' 1 1)
                = {rp.1.heap SMALLEST} from rfl, cl4]
          _ = ↑L + ↑(List.range' P.elems (L.length - 1)) := cl5
          _ = (↑L + ↑Is) + {root} := by
              rw [hsplit]
              rw [show ((↑(Is ++ [root]) : Multiset Nat))
                = ↑Is + ({root} : Multiset Nat) from by
                  rw [← Multiset.coe_singleton, Multiset.coe_add]]
              rw [add_assoc]
      rw [add_comm ({root} : Multiset Nat) _] at hstep
      exact add_right_cancel hstep
    have hw6 : msOf s6.heap (List.range' (s6.heap_max + 1)
        (HEAP_SIZE - s6.heap_max - 1)) = ↑L + ↑Is := by
      have hreg_pos : List.range' (s6.heap_max + 1)
          (HEAP_SIZE - s6.heap_max - 1)
          = List.range' rp.1.heap_max (HEAP_SIZE - rp.1.heap_max) := by
        rw [show s6.heap_max = rp.1.heap_max - 1 from rfl,
          show rp.1.heap_max - 1 + 1 = rp.1.heap_max from by omega,
          show HEAP_SIZE - (rp.1.heap_max - 1) - 1
            = HEAP_SIZE - rp.1.heap_max from by omega]
      rw [hreg_pos]
      have hcg : msOf s6.heap (List.range' rp.1.heap_max
          (HEAP_SIZE - rp.1.heap_max))
          = msOf rp.1.heap (List.range' rp.1.heap_max
              (HEAP_SIZE - rp.1.heap_max)) := by
        apply msOf_congr
        intro p hp
        rw [List.mem_range'_1] at hp
        show upd rp.1.heap (rp.1.heap_max - 1) (rp.1.heap SMALLEST) p
          = rp.1.heap p
        exact upd_other _ _ _ _ (by omega)
      rw [hcg, hregion]
    have hLmc6 : ∀ n ∈ L, (n : Int) ≤ s6.max_code := by
      rw [hmc6]
      exact hLmc
    have hImc6 : ∀ n ∈ Is, s6.max_code < (n : Int) := by
      intro n hnI
      rw [hIsdef, List.mem_range'_1] at hnI
      rw [hmc6]
      have h1 : (P.elems : Int) ≤ (n : Int) := by exact_mod_cast hnI.1
      omega
    have hroot6 : s6.heap s6.heap_max = root := by
      show upd rp.1.heap (rp.1.heap_max - 1) (rp.1.heap SMALLEST)
        (rp.1.heap_max - 1) = root
      rw [upd_self, cl4]
    have hrootmc6 : s6.max_code < (root : Int) := by
      rw [hmc6, hrootdef]
      omega
    have hopt6 : s6.opt_len < 2 ^ 64 := by
      rw [show s6.opt_len = rp.1.opt_len from rfl, cl8, bh6, sopt]
      exact hopt
    obtain ⟨g1, g2, g3⟩ := gen_bitlen_spec P isBL s6.max_code s6 s' L Is root
      hM1 hLnd hIsnd hdis hhm6 hw6 hLmc6 hImc6 hroot6 hrootmc6 hopt6 hrun
    refine ⟨?_, ?_, ?_⟩
    · intro n hn
      by_cases hf : s.freq n = 0
      · have hnL : n ∉ L := fun h => ((hmemL n).mp h).2 hf
        have hnI : n ∉ Is := by
          intro h
          rw [hIsdef, List.mem_range'_1] at h
          omega
        have hnr : n ≠ root := by
          rw [hrootdef]
          omega
        rw [g2 n hnL hnI hnr]
        rw [show s6.len = rp.1.len from rfl, cl7, bh2, sl n]
        rw [if_pos ⟨List.mem_range.mpr hn, hf⟩]
        exact Nat.zero_le _
      · exact (g1 n ((hmemL n).mpr ⟨hn, hf⟩)).2
    · intro n hn hf
      exact (g1 n ((hmemL n).mpr ⟨hn, hf⟩)).1
    · rw [g3]
      rw [show s6.opt_len = rp.1.opt_len from rfl, cl8, bh6, sopt]
      congr 1
      have hfr : ∀ n ∈ L, s6.freq n = s.freq n := by
        intro n hn
        obtain ⟨h1, _⟩ := (hmemL n).mp hn
        rw [show s6.freq = rp.1.freq from rfl, cl6 n h1, bh1, sf]
      rw [sumFL_congr_freq s6.freq s.freq s'.len (xbP P) L hfr]
      have hsum := sum_map_filter (fun n => s.freq n != 0)
        (fun n : Nat => (s.freq n : Int)
          * ((s'.len n : Int) + (xbP P n : Int)))
        (List.range P.elems)
        (by
          intro n _ hpf
          have hz : s.freq n = 0 := by simpa using hpf
          show (s.freq n : Int) * ((s'.len n : Int) + (xbP P n : Int)) = 0
          rw [hz]
          push_cast
          ring)
      exact hsum.symm
  · -- fewer than two nonzero symbols: the synthesis loop inserts dummies
    have hbt : build_tree P isBL s
        = treeFromHeap P isBL (synthLoop P isBL 2 s2) := rfl
    rw [hbt] at hrun
    by_cases hL1 : L.length = 1
    · -- exactly one nonzero symbol j; one dummy node is synthesised
      obtain ⟨j, hLj⟩ := List.length_eq_one.mp hL1
      have hjL : j ∈ L := by
        rw [hLj]
        exact List.mem_cons_self j []
      obtain ⟨hje, hjf⟩ := (hmemL j).mp hjL
      have honly : ∀ n, n < P.elems → n ≠ j → s.freq n = 0 := by
        intro n hn hnj
        by_contra hf
        have hmem : n ∈ L := (hmemL n).mpr ⟨hn, hf⟩
        rw [hLj, List.mem_singleton] at hmem
        exact hnj hmem
      have hs2hl : s2.heap_len = 1 := by
        rw [sh1']
        exact hL1
      have hs2h1 : s2.heap 1 = j := by
        have h2 : (List.range' 1 s2.heap_len).map s2.heap = [j] := by
          rw [sh2', hLj]
        rw [hs2hl] at h2
        have h3 : [s2.heap 1] = [j] := h2
        simpa using h3
      have hmc2j : s2.max_code = (j : Int) := by
        rcases smc2 with h | ⟨n, hn, hf, he⟩
        · exfalso
          have hj2 := smc1 j (List.mem_range.mpr hje) hjf
          rw [h] at hj2
          have hs1mc : s1.max_code = -1 := rfl
          rw [hs1mc] at hj2
          omega
        · have hnj : n = j := by
            have hmem : n ∈ L := (hmemL n).mpr ⟨List.mem_range.mp hn, hf⟩
            rw [hLj, List.mem_singleton] at hmem
            exact hmem
          rw [he, hnj]
      have hsyn : synthLoop P isBL 2 s2 = synthStep P isBL s2 :=
        synthLoop_one P isBL s2 hs2hl
      rw [hsyn] at hrun
      obtain ⟨dum, hdum2, hdumj, hdume, hh1b, hh2b, hhlb, hmcb1, hmcb2,
          hhmb, hoptb, hlenb, hfqj, hfqd⟩ :
          ∃ dum : Nat, dum ≤ 2 ∧ dum ≠ j ∧ dum < P.elems ∧
            (synthStep P isBL s2).heap 1 = j ∧
            (synthStep P isBL s2).heap 2 = dum ∧
            (synthStep P isBL s2).heap_len = 2 ∧
            (j : Int) ≤ (synthStep P isBL s2).max_code ∧
            (dum : Int) ≤ (synthStep P isBL s2).max_code ∧
            (synthStep P isBL s2).heap_max = HEAP_SIZE ∧
            (synthStep P isBL s2).opt_len = addMod64 s.opt_len (-1) ∧
            (synthStep P isBL s2).len = s2.len ∧
            (synthStep P isBL s2).freq j = s.freq j ∧
            (synthStep P isBL s2).freq dum = 1 := by
        by_cases hj2 : j < 2
        · -- j < 2: the dummy node is j + 1
          obtain ⟨e1, e2, e3⟩ := synthStep_spec P isBL s2
            (by
              rw [hmc2j]
              omega)
          have hdv : (s2.max_code + 1).toNat = j + 1 := by
            rw [hmc2j]
            omega
          refine ⟨j + 1, by omega, by omega, by omega,
            ?_, ?_, ?_, ?_, ?_, ?_, ?_, ?_, ?_, ?_⟩
          · rw [e2, hs2hl, hdv, upd_other _ _ _ _ (by omega)]
            exact hs2h1
          · rw [e2, hs2hl, hdv]
            exact upd_self _ _ _
          · rw [synthStep_heap_len, hs2hl]
          · rw [e1, hmc2j]
            omega
          · rw [e1, hmc2j]
            omega
          · rw [synthStep_heap_max, shm]
          · rw [synthStep_opt_len, sopt]
          · exact synthStep_len P isBL s2
          · rw [e3, hdv, upd_other _ _ _ _ (by omega), sf]
          · rw [e3, hdv]
            exact upd_self _ _ _
        · -- j ≥ 2: the dummy node is 0
          obtain ⟨e1, e2, e3⟩ := synthStep_spec_hi P isBL s2
            (by
              rw [hmc2j]
              omega)
          refine ⟨0, by omega, by omega, by omega,
            ?_, ?_, ?_, ?_, ?_, ?_, ?_, ?_, ?_, ?_⟩
          · rw [e2, hs2hl, upd_other _ _ _ _ (by omega)]
            exact hs2h1
          · rw [e2, hs2hl]
            exact upd_self _ _ _
          · rw [synthStep_heap_len, hs2hl]
          · rw [e1, hmc2j]
          · rw [e1, hmc2j]
            omega
          · rw [synthStep_heap_max, shm]
          · rw [synthStep_opt_len, sopt]
          · exact synthStep_len P isBL s2
          · rw [e3, upd_other _ _ _ _ (by omega), sf]
          · rw [e3]
            exact upd_self _ _ _
      obtain ⟨b1, b2, b3, b4⟩ := build_tree_two P isBL
        (synthStep P isBL s2) s' j dum hM1 hhlb hh1b hh2b
        (fun h => hdumj h.symm) hje hdume hmcb1 hmcb2 hhmb
        (by
          rw [hoptb]
          exact addMod64_lt _ _) hrun
      refine ⟨?_, ?_, ?_⟩
      · intro n hn
        by_cases hnj : n = j
        · rw [hnj, b1]
          exact hM1
        · by_cases hnd : n = dum
          · rw [hnd, b2]
            exact hM1
          · rw [b3 n hnj hnd (by omega), hlenb, sl n,
              if_pos ⟨List.mem_range.mpr hn, honly n hn hnj⟩]
            exact Nat.zero_le _
      · intro n hn hf
        have hnj : n = j := by
          by_contra hnj
          exact hf (honly n hn hnj)
        rw [hnj, b1]
      · have hsum : (((List.range P.elems).map
            (fun n : Nat => (s.freq n : Int)
              * ((s'.len n : Int) + (xbP P n : Int)))).sum)
            = (s.freq j : Int) * ((s'.len j : Int) + (xbP P j : Int)) := by
          have h1 := sum_map_filter (fun n => s.freq n != 0)
            (fun n : Nat => (s.freq n : Int)
              * ((s'.len n : Int) + (xbP P n : Int)))
            (List.range P.elems)
            (by
              intro n _ hpf
              have hz : s.freq n = 0 := by simpa using hpf
              show (s.freq n : Int)
                * ((s'.len n : Int) + (xbP P n : Int)) = 0
              rw [hz]
              push_cast
              ring)
          rw [h1]
          have hfil : (List.range P.elems).filter
              (fun n => s.freq n != 0) = [j] := by
            rw [show (List.range P.elems).filter (fun n => s.freq n != 0)
              = L from rfl, hLj]
          rw [hfil]
          simp
        rw [hsum, b1, b4, hfqd, hfqj, hxb dum hdum2, hoptb,
          addMod64_addMod64]
        congr 1
        push_cast
        ring
    · -- no nonzero symbols at all; two dummy nodes are synthesised
      have hL0 : L = [] := List.length_eq_zero.mp (by omega)
      have hfz : ∀ n, n < P.elems → s.freq n = 0 := by
        intro n hn
        by_contra hf
        have hmem : n ∈ L := (hmemL n).mpr ⟨hn, hf⟩
        rw [hL0] at hmem
        exact (List.not_mem_nil n) hmem
      have hs2hl : s2.heap_len = 0 := by
        rw [sh1', hL0]
        rfl
      have hmc2 : s2.max_code = -1 := by
        rcases smc2 with h | ⟨n, hn, hf, _⟩
        · rw [h]
        · exact absurd (hfz n (List.mem_range.mp hn)) hf
      have hsyn : synthLoop P isBL 2 s2
          = synthStep P isBL (synthStep P isBL s2) :=
        synthLoop_two P isBL s2 hs2hl
      rw [hsyn] at hrun
      obtain ⟨e1, e2, e3⟩ := synthStep_spec P isBL s2
        (by
          rw [hmc2]
          decide)
      have hd1 : (s2.max_code + 1).toNat = 0 := by
        rw [hmc2]
        decide
      obtain ⟨f1, f2, f3⟩ := synthStep_spec P isBL (synthStep P isBL s2)
        (by
          rw [e1, hmc2]
          decide)
      have hd2 : ((synthStep P isBL s2).max_code + 1).toNat = 1 := by
        rw [e1, hmc2]
        decide
      have hu1hl : (synthStep P isBL s2).heap_len = 1 := by
        rw [synthStep_heap_len, hs2hl]
      have hhlb : (synthStep P isBL (synthStep P isBL s2)).heap_len = 2 := by
        rw [synthStep_heap_len, hu1hl]
      have hh1b : (synthStep P isBL (synthStep P isBL s2)).heap 1 = 0 := by
        rw [f2, hu1hl, hd2, upd_other _ _ _ _ (by omega), e2, hs2hl, hd1]
        exact upd_self _ _ _
      have hh2b : (synthStep P isBL (synthStep P isBL s2)).heap 2 = 1 := by
        rw [f2, hu1hl, hd2]
        exact upd_self _ _ _
      have hmcb1 : ((0 : Nat) : Int)
          ≤ (synthStep P isBL (synthStep P isBL s2)).max_code := by
        rw [f1, e1, hmc2]
        decide
      have hmcb2 : ((1 : Nat) : Int)
          ≤ (synthStep P isBL (synthStep P isBL s2)).max_code := by
        rw [f1, e1, hmc2]
        decide
      have hhmb : (synthStep P isBL (synthStep P isBL s2)).heap_max
          = HEAP_SIZE := by
        rw [synthStep_heap_max, synthStep_heap_max, shm]
      have hoptb : (synthStep P isBL (synthStep P isBL s2)).opt_len
          = addMod64 (addMod64 s.opt_len (-1)) (-1) := by
        rw [synthStep_opt_len, synthStep_opt_len, sopt]
      have hlenb : (synthStep P isBL (synthStep P isBL s2)).len
          = s2.len := by
        rw [synthStep_len, synthStep_len]
      have hfq0 : (synthStep P isBL (synthStep P isBL s2)).freq 0 = 1 := by
        rw [f3, hd2, upd_other _ _ _ _ (by omega), e3, hd1]
        exact upd_self _ _ _
      have hfq1 : (synthStep P isBL (synthStep P isBL s2)).freq 1 = 1 := by
        rw [f3, hd2]
        exact upd_self _ _ _
      obtain ⟨b1, b2, b3, b4⟩ := build_tree_two P isBL
        (synthStep P isBL (synthStep P isBL s2)) s' 0 1 hM1 hhlb hh1b hh2b
        (by omega) (by omega) (by omega) hmcb1 hmcb2 hhmb
        (by
          rw [hoptb]
          exact addMod64_lt _ _) hrun
      refine ⟨?_, ?_, ?_⟩
      · intro n hn
        by_cases hn0 : n = 0
        · rw [hn0, b1]
          exact hM1
        · by_cases hn1 : n = 1
          · rw [hn1, b2]
            exact hM1
          · rw [b3 n hn0 hn1 (by omega), hlenb, sl n,
              if_pos ⟨List.mem_range.mpr hn, hfz n hn⟩]
            exact Nat.zero_le _
      · intro n hn hf
        exact absurd (hfz n hn) hf
      · have hsum : (((List.range P.elems).map
            (fun n : Nat => (s.freq n : Int)
              * ((s'.len n : Int) + (xbP P n : Int)))).sum) = 0 := by
          apply List.sum_eq_zero
          intro x hx
          rw [List.mem_map] at hx
          obtain ⟨n, hn, hxe⟩ := hx
          rw [← hxe, hfz n (List.mem_range.mp hn)]
          push_cast
          ring
        rw [hsum, b4, hfq0, hfq1, hxb 0 (by omega), hxb 1 (by omega),
          hoptb, addMod64_addMod64, addMod64_addMod64]
        congr 1

/-- The literal-tree frequency vector with `F[0] = 1`, `F[265] = 1` and
all other entries 0 (symbol 265 carries `EXTRA_LBITS[265 - 257] = 1`
extra bit). -/
def cexFreq : Nat → Nat :=
  fun n => if n = 0 then 1 else if n = 265 then 1 else 0

/-- An initial state for `build_tree` on `cexFreq`: all arrays zeroed
and `opt_len = 0`, so the `opt_len` after the call is exactly its
increment. -/
def cexState : BuildState where
  freq := cexFreq
  len := fun _ => 0
  dad := fun _ => 0
  heap := fun _ => 0
  depth := fun _ => 0
  heap_len := 0
  heap_max := 0
  max_code := 0
  opt_len := 0
  static_len := 0
  bl_count := fun _ => 0
  overflow := 0

/-- The state `build_tree` produces on the counterexample input. -/
def cexResult : BuildState :=
  (build_tree ltreeParams false cexState).getD cexState

set_option maxRecDepth 100000 in
/-- C8 (counterexample to the original claim): building the literal
tree over `cexFreq` (two leaves, one with an extra-bits symbol) raises
`opt_len` by 3, while `Σ_i F[i] * len[i] = 2`: `gen_bitlen` adds
`freq * (bits + xbits)` per leaf, so the extra bit of symbol 265 is
part of `opt_len` but not of `Σ F[i] * len[i]`. -/
theorem build_tree_optlen_counterexample :
    (build_tree ltreeParams false cexState).map (fun t =>
      (t.opt_len,
        ((List.range 286).map
          (fun n : Nat => cexState.freq n * t.len n)).sum))
      = some (3, 2) ∧ (3 : Nat) ≠ 2 :=
  ⟨by rfl, by decide⟩

set_option maxRecDepth 100000 in
/-- Witness for the amended C8 theorem at the concrete counterexample
input: all hypotheses hold and `build_tree` completes there. -/
theorem build_tree_len_optlen_witness :
    (∀ n, n < ltreeParams.elems → cexResult.len n ≤ ltreeParams.maxLength) ∧
    (∀ n, n < ltreeParams.elems → cexState.freq n ≠ 0 →
      1 ≤ cexResult.len n) ∧
    cexResult.opt_len = addMod64 cexState.opt_len
      (((List.range ltreeParams.elems).map (fun n : Nat =>
        (cexState.freq n : Int) * ((cexResult.len n : Int)
          + (xbP ltreeParams n : Int)))).sum) :=
  build_tree_len_optlen ltreeParams false cexState cexResult
    (by decide) (by decide) (by decide)
    (by
      intro n hn
      interval_cases n <;> decide)
    (by decide) (by rfl)

end GzipRust
